import Mathlib

/-!
Verification of the RIVET bigraded linear-algebra core.

This file gives a shallow embedding of the mod-2 sparse-matrix engine:

* `phat::vector_heap_mod` (src/math/phat_mod/include/phat/representations/
  vector_heap_mod.h) — the lazy max-heap column store.  The C++ code keeps
  each column as a `std::vector<index>` manipulated through the standard
  library's `std::make_heap` / `std::push_heap` / `std::pop_heap`.  Those
  library routines are not part of this repository; we model them by a
  canonical layout that satisfies the C++ standard's heap contract: a heap
  is kept sorted in descending order (such an array is a valid binary
  max-heap, its front is a maximum, `push_heap` after a `push_back` may
  place the new element anywhere that re-establishes the heap property, and
  `pop_heap` moves the front to the back).  Every fact proved below depends
  on the std functions only through that contract.

* `MapMatrix_Base` / `MapMatrix` / `MapMatrix_Perm` /
  `MapMatrix_RowPriority_Perm` (src/math/map_matrix.cpp) — the
  linked-list column store, with columns as strictly descending lists of
  row indices, and the RU decomposition.

* `BigradedMatrix::kernel` (src/math/bigraded_matrix.cpp) — the bigraded
  reduction engine.

Rows pushed into heap columns are C++ `index` (= signed 64-bit) values; we
model them as `Int` (the value `-1` genuinely enters column vectors via
`_get_max_index` on an empty column, so `Nat` would be unfaithful).
-/

namespace Rivet

/-- A lazy-heap column: the backing `std::vector<index>` of a column of
`phat::vector_heap_mod`. -/
abbrev Column := List Int

/-- Canonical model of `col.push_back(v); std::push_heap(col.begin(), col.end())`:
insert `v` into the descending-ordered heap layout. -/
def heapPush (v : Int) : Column → Column
  | [] => [v]
  | a :: t => if v ≤ a then a :: heapPush v t else v :: a :: t

/-- Canonical model of `std::make_heap(col.begin(), col.end())`: rearrange the
vector into the descending heap layout (insertion sort, descending). -/
def makeHeapCol (col : Column) : Column :=
  col.foldr heapPush []

/-- Model of the loop body of `vector_heap_mod::_pop_max_index` after the first
element `m` has been removed from the heap (each `std::pop_heap` followed by
`pop_back` removes the current front).  Returns the popped maximum (or `-1`)
together with the remaining vector, exactly following the C++ control flow:
while the new front equals the candidate, discard the pair and take the next
front as the new candidate. -/
def popLoop : Int → Column → Int × Column
  | m, [] => (m, [])
  | m, b :: rest =>
    if b = m then
      match rest with
      | [] => (-1, [])
      | c :: rest2 => popLoop c rest2
    else (m, b :: rest)

/-- `vector_heap_mod::_pop_max_index` on a column vector: returns `-1` if the
vector is empty, otherwise pops the front and resolves duplicate pairs. -/
def popMaxIndex : Column → Int × Column
  | [] => (-1, [])
  | a :: t => popLoop a t

/-- The popping loop of `vector_heap_mod::_prune`, with fuel (the loop runs
`_pop_max_index` until it returns `-1`; each successful pop strictly shrinks
the vector, so fuel `col.length` always suffices). -/
def popAllGo : Nat → Column → List Int
  | 0, _ => []
  | fuel + 1, col =>
    match popMaxIndex col with
    | (m, rest) => if m = -1 then [] else m :: popAllGo fuel rest

/-- The sequence of maxima popped by `_prune`'s loop (in descending order). -/
def popAll (col : Column) : List Int :=
  popAllGo col.length col

/-- `vector_heap_mod::_prune` acting on one column vector: pop everything into
the temp buffer, copy back, reverse, re-heapify. -/
def pruneCol (col : Column) : Column :=
  makeHeapCol (popAll col).reverse

/-- The lazy-heap column store `phat::vector_heap_mod`: the `matrix` member
(one backing vector per column) and the `inserts_since_last_prune` member. -/
structure VectorHeap where
  matrix : List Column
  insertsSinceLastPrune : List Int
  deriving Repr, DecidableEq

namespace VectorHeap

/-- Read column `idx` (`matrix[idx]`). -/
def col (M : VectorHeap) (idx : Nat) : Column :=
  M.matrix.getD idx []

/-- Write column `idx`. -/
def setCol (M : VectorHeap) (idx : Nat) (c : Column) : VectorHeap :=
  { M with matrix := M.matrix.set idx c }

/-- Read `inserts_since_last_prune[idx]`. -/
def dirty (M : VectorHeap) (idx : Nat) : Int :=
  M.insertsSinceLastPrune.getD idx 0

/-- Write `inserts_since_last_prune[idx]`. -/
def setDirty (M : VectorHeap) (idx : Nat) (v : Int) : VectorHeap :=
  { M with insertsSinceLastPrune := M.insertsSinceLastPrune.set idx v }

/-- `vector_heap_mod::_get_num_cols`. -/
def numCols (M : VectorHeap) : Nat :=
  M.matrix.length

/-- `vector_heap_mod::_set_num_cols`. -/
def setNumCols (n : Nat) : VectorHeap :=
  { matrix := List.replicate n [], insertsSinceLastPrune := List.replicate n 0 }

/-- `vector_heap_mod::_prune`: rebuild column `idx` without duplicate pairs and
zero its insert counter. -/
def prune (M : VectorHeap) (idx : Nat) : VectorHeap :=
  (M.setCol idx (pruneCol (M.col idx))).setDirty idx 0

/-- `vector_heap_mod::_set_entry`: `matrix[col].push_back(row)`.  The source
performs no bounds check of any kind and never throws. -/
def setEntry (M : VectorHeap) (row : Int) (c : Nat) : VectorHeap :=
  M.setCol c (M.col c ++ [row])

/-- `vector_heap_mod::_append_col`. -/
def appendCol (M : VectorHeap) (c : Column) : VectorHeap :=
  { matrix := M.matrix ++ [c]
    insertsSinceLastPrune := M.insertsSinceLastPrune ++ [0] }

/-- `vector_heap_mod::_get_max_index`: pop the maximum (resolving duplicate
pairs), push the returned value — even the sentinel `-1` — back onto the
vector, and return it. -/
def getMaxIndex (M : VectorHeap) (idx : Nat) : Int × VectorHeap :=
  match popMaxIndex (M.col idx) with
  | (m, rest) => (m, M.setCol idx (heapPush m rest))

/-- `vector_heap_mod::_get_max_index_finalized`: front read. -/
def getMaxIndexFinalized (M : VectorHeap) (idx : Nat) : Int :=
  match M.col idx with
  | [] => -1
  | a :: _ => a

/-- `vector_heap_mod::_remove_max`: pop the maximum, discarding it. -/
def removeMax (M : VectorHeap) (idx : Nat) : Int × VectorHeap :=
  match popMaxIndex (M.col idx) with
  | (m, rest) => (m, M.setCol idx rest)

/-- `vector_heap_mod::_push_index`: `push_back` then `push_heap`. -/
def pushIndex (M : VectorHeap) (idx : Nat) (entry : Int) : VectorHeap :=
  M.setCol idx (heapPush entry (M.col idx))

/-- `vector_heap_mod::_heapify_col`. -/
def heapifyCol (M : VectorHeap) (idx : Nat) : VectorHeap :=
  M.setCol idx (makeHeapCol (M.col idx))

/-- `vector_heap_mod::_finalize` = `_prune`. -/
def finalizeCol (M : VectorHeap) (idx : Nat) : VectorHeap :=
  M.prune idx

/-- `vector_heap_mod::_clear`. -/
def clearCol (M : VectorHeap) (idx : Nat) : VectorHeap :=
  M.setCol idx []

/-- `vector_heap_mod::_add_to`: push every raw entry of column `source` onto
column `target` (re-heapifying after each push), bump the insert counter, and
prune when `2 * inserts > size`. -/
def addTo (M : VectorHeap) (source target : Nat) : VectorHeap :=
  let src := M.col source
  let M' := (M.setCol target (src.foldl (fun c v => heapPush v c) (M.col target))).setDirty
      target (M.dirty target + src.length)
  if 2 * M'.dirty target > ((M'.col target).length : Int) then M'.prune target else M'

/-- `vector_heap_mod::_add_to_popped`: as `_add_to` but the source's raw entry
at position 0 (its pivot, stored at the heap's front) is skipped, and the
insert counter grows by `size - 1`. -/
def addToPopped (M : VectorHeap) (source target : Nat) : VectorHeap :=
  let src := M.col source
  let M' := (M.setCol target ((src.drop 1).foldl (fun c v => heapPush v c) (M.col target))).setDirty
      target (M.dirty target + src.length - 1)
  if 2 * M'.dirty target > ((M'.col target).length : Int) then M'.prune target else M'

end VectorHeap

/-- Mod-2 multiplicity of row `r` in a heap column: the column logically
contains `r` iff `r` occurs an odd number of times. -/
def semCol (c : Column) (r : Int) : ZMod 2 :=
  (c.count r : ZMod 2)

/-- Descending (non-strict) order: the canonical heap layout invariant. -/
abbrev ColSorted (c : Column) : Prop :=
  c.Pairwise (fun a b => b ≤ a)

/-- Strictly descending, duplicate-free: the layout of a finalized column. -/
abbrev ColFinalized (c : Column) : Prop :=
  c.Pairwise (fun a b => b < a)

/-! ### The linked-list column store (`map_matrix.cpp`) -/

/-- A column of `MapMatrix_Base`: the chain of `MapMatrixNode`s, i.e. a list
of row indices kept in strictly decreasing order. -/
abbrev NodeCol := List Nat

/-- The error conditions raised by `map_matrix.cpp` via `std::runtime_error`. -/
inductive MatrixError where
  | indexOutOfRange
  | selfAddition
  deriving Repr, DecidableEq

/-- The node-insertion walk of `MapMatrix_Base::set` (after its bounds
checks): return unchanged if the row is already present, otherwise splice a
new node at the position that keeps the chain strictly decreasing. -/
def insertNode (i : Nat) : NodeCol → NodeCol
  | [] => [i]
  | r :: rest =>
    if r = i then r :: rest
    else if r < i then i :: r :: rest
    else r :: insertNode i rest

/-- The traversal of `MapMatrix_Base::entry` (after its bounds checks):
early-out `false` once a node below `i` is seen. -/
def entryWalk (i : Nat) : NodeCol → Bool
  | [] => false
  | r :: rest =>
    if r < i then false
    else if r = i then true
    else entryWalk i rest

/-- The traversal of `MapMatrix_Base::clear` (after its bounds checks). -/
def clearWalk (i : Nat) : NodeCol → NodeCol
  | [] => []
  | r :: rest =>
    if r < i then r :: rest
    else if r = i then rest
    else r :: clearWalk i rest

/-- The inner traversal of `MapMatrix_Base::add_column` for one source node
`j`: walk the target chain, removing the node equal to `j` (1+1=0) or
splicing a new node at the position that keeps the chain decreasing. -/
def addOneNode (j : Nat) : NodeCol → NodeCol
  | [] => [j]
  | a :: ks =>
    if a = j then ks
    else if a < j then j :: a :: ks
    else a :: addOneNode j ks

/-- The merge of `MapMatrix_Base::add_column` (after its checks): process
the source nodes in order, inserting or cancelling each into the target
chain (mod-2 addition of strictly-decreasing columns; the C++ `khandle`
resume pointer is a pure optimization of this walk). -/
def addColMerge : NodeCol → NodeCol → NodeCol
  | [], tgt => tgt
  | j :: js, tgt => addColMerge js (addOneNode j tgt)

/-- `MapMatrix_Base` (also the data of `MapMatrix`): a vector of column
chains plus the number of rows. -/
structure MMBase where
  numRows : Nat
  columns : List NodeCol
  deriving Repr, DecidableEq

namespace MMBase

/-- `MapMatrix_Base::set` with its two bounds checks, mirroring the order of
the `throw` statements in the source. -/
def setE (M : MMBase) (i j : Nat) : Except MatrixError MMBase :=
  if M.columns.length ≤ j then .error .indexOutOfRange
  else if M.numRows ≤ i then .error .indexOutOfRange
  else .ok { M with columns := M.columns.set j (insertNode i (M.columns.getD j [])) }

/-- `MapMatrix_Base::clear` with its bounds checks. -/
def clearE (M : MMBase) (i j : Nat) : Except MatrixError MMBase :=
  if M.columns.length ≤ j then .error .indexOutOfRange
  else if M.numRows ≤ i then .error .indexOutOfRange
  else .ok { M with columns := M.columns.set j (clearWalk i (M.columns.getD j [])) }

/-- `MapMatrix_Base::entry` with its bounds checks. -/
def entryE (M : MMBase) (i j : Nat) : Except MatrixError Bool :=
  if M.columns.length ≤ j then .error .indexOutOfRange
  else if M.numRows ≤ i then .error .indexOutOfRange
  else .ok (entryWalk i (M.columns.getD j []))

/-- `MapMatrix_Base::add_column` with its checks: out-of-range columns and
self-addition are the two failure modes. -/
def addColumnE (M : MMBase) (j k : Nat) : Except MatrixError MMBase :=
  if M.columns.length ≤ j ∨ M.columns.length ≤ k then .error .indexOutOfRange
  else if j = k then .error .selfAddition
  else .ok { M with
    columns := M.columns.set k (addColMerge (M.columns.getD j []) (M.columns.getD k [])) }

/-- `MapMatrix::low` with its bounds check: the head of the chain (the
largest row index), `-1` on an empty column. -/
def lowE (M : MMBase) (j : Nat) : Except MatrixError Int :=
  if M.columns.length ≤ j then .error .indexOutOfRange
  else .ok (match M.columns.getD j [] with
    | [] => -1
    | r :: _ => (r : Int))

end MMBase

/-! ### `MapMatrix_Perm` and `MapMatrix_RowPriority_Perm` (`map_matrix.cpp`) -/

/-- `MapMatrix_Perm`: a `MapMatrix` together with the row permutation `perm`,
its inverse `mrep`, the (broken, unused) `low_col` cache and the
testing-only column permutation `col_perm`. -/
structure MMPerm where
  numRows : Nat
  columns : List NodeCol
  perm : List Nat
  mrep : List Nat
  lowCol : List Int
  colPerm : List Nat
  deriving Repr, DecidableEq

namespace MMPerm

/-- The `MapMatrix_Perm(rows, cols)` constructor: empty matrix, identity
permutations, `low_col` all `-1`. -/
def mk0 (rows cols : Nat) : MMPerm :=
  { numRows := rows
    columns := List.replicate cols []
    perm := List.range rows
    mrep := List.range rows
    lowCol := List.replicate rows (-1)
    colPerm := List.range cols }

/-- `MapMatrix_Perm::set` (construction only): `MapMatrix::set(mrep[i], j)`,
without the `Except` plumbing (callers construct in bounds). -/
def set (M : MMPerm) (i j : Nat) : MMPerm :=
  { M with columns :=
      M.columns.set j (insertNode (M.mrep.getD i 0) (M.columns.getD j [])) }

/-- `MapMatrix_Perm::entry`: `MapMatrix::entry(mrep[i], j)`. -/
def entry (M : MMPerm) (i j : Nat) : Bool :=
  entryWalk (M.mrep.getD i 0) (M.columns.getD j [])

/-- `MapMatrix_Perm::low`: linear scan of the chain maximizing `perm[row]`;
`-1` on an empty column (the cached `low_col` path is commented out as
broken in the source). -/
def low (M : MMPerm) (j : Nat) : Int :=
  match M.columns.getD j [] with
  | [] => -1
  | r :: rest =>
    ((rest.foldl (fun acc x => max acc (M.perm.getD x 0)) (M.perm.getD r 0) : Nat) : Int)

/-- `MapMatrix_Perm::swap_rows`: swap `perm[mrep[i]]` with `perm[mrep[i+1]]`
and exchange `mrep[i]`, `mrep[i+1]`.  The matrix chains are untouched. -/
def swapRows (M : MMPerm) (i : Nat) : MMPerm :=
  let a := M.mrep.getD i 0
  let b := M.mrep.getD (i + 1) 0
  let temp := M.perm.getD a 0
  { M with
    perm := (M.perm.set a (M.perm.getD b 0)).set b temp
    mrep := (M.mrep.set i b).set (i + 1) a }

end MMPerm

/-- `MapMatrix_RowPriority_Perm`: a `MapMatrix_Base` of size `size × size`
whose base columns are read as rows, with a column permutation pair. -/
structure MMRowPri where
  size : Nat
  columns : List NodeCol
  perm : List Nat
  mrep : List Nat
  deriving Repr, DecidableEq

namespace MMRowPri

/-- The `MapMatrix_RowPriority_Perm(size)` constructor: the square identity
matrix (`MapMatrix_Base(size)` puts a single node `i` in base column `i`),
identity permutations. -/
def identity (n : Nat) : MMRowPri :=
  { size := n
    columns := (List.range n).map (fun i => [i])
    perm := List.range n
    mrep := List.range n }

/-- `MapMatrix_RowPriority_Perm::add_row(j, k)` = `MapMatrix_Base::add_column(j, k)`:
base column `k` (row `k` of the matrix) gains base column `j` mod 2. -/
def addRow (U : MMRowPri) (j k : Nat) : MMRowPri :=
  { U with columns :=
      U.columns.set k (addColMerge (U.columns.getD j []) (U.columns.getD k [])) }

/-- `MapMatrix_RowPriority_Perm::entry(i, j)` = `MapMatrix_Base::entry(mrep[j], i)`:
row `i` of the matrix is base column `i`. -/
def entry (U : MMRowPri) (i j : Nat) : Bool :=
  entryWalk (U.mrep.getD j 0) (U.columns.getD i [])

end MMRowPri

/-! ### `MapMatrix_Perm::decompose_RU` (`map_matrix.cpp`) -/

/-- The inner `while` loop of `decompose_RU` for column `j`, with fuel (each
iteration cancels the current pivot against a registered column, strictly
lowering `low(j)`, so `numRows + 2` fuel always suffices): while `low(j) ≥ 0`
and `low_col[low(j)] ≥ 0`, add column `c = low_col[low(j)]` of the matrix to
column `j` and perform the opposite row operation `add_row(j, c)` on `U`. -/
def ruWhile : Nat → MMPerm → MMRowPri → Nat → MMPerm × MMRowPri
  | 0, M, U, _ => (M, U)
  | fuel + 1, M, U, j =>
    let l := M.low j
    if 0 ≤ l ∧ 0 ≤ M.lowCol.getD l.toNat (-1) then
      let c := (M.lowCol.getD l.toNat (-1)).toNat
      let M' := { M with
        columns := M.columns.set j (addColMerge (M.columns.getD c []) (M.columns.getD j [])) }
      let U' := U.addRow j c
      ruWhile fuel M' U' j
    else (M, U)

/-- The body of `decompose_RU` for one column `j`: run the collision loop,
then register the surviving pivot in `low_col`. -/
def ruColumn (M : MMPerm) (U : MMRowPri) (j : Nat) : MMPerm × MMRowPri :=
  let (M', U') := ruWhile (M.numRows + 2) M U j
  let l := M'.low j
  if 0 ≤ l then ({ M' with lowCol := M'.lowCol.set l.toNat (j : Int) }, U')
  else (M', U')

/-- `MapMatrix_Perm::decompose_RU`: create `U` as the size-`cols` identity
row-priority matrix, scan the columns left to right, and return the reduced
matrix together with `U`. -/
def decomposeRU (M : MMPerm) : MMPerm × MMRowPri :=
  (List.range M.columns.length).foldl
    (fun st j => ruColumn st.1 st.2 j)
    (M, MMRowPri.identity M.columns.length)

/-! ### `IndexMatrix` and the heap-backed `MapMatrix` wrapper

`index_matrix.cpp` and the heap-backed `map_matrix.h` are not part of src/;
only their callers (`bigraded_matrix.cpp`) are.  They are modelled from the
spec below. -/

/-- Modelled from the spec: `IndexMatrix` (src/math/index_matrix.cpp is
missing from src/) stores an `H × W` table of signed column indices with
`get`, `set` and `start_index`.  Initial entries are never read by the
kernel before being written, so the initial fill value 0 is immaterial. -/
structure IndexMatrix where
  height : Nat
  width : Nat
  data : List (List Int)
  deriving Repr, DecidableEq

namespace IndexMatrix

/-- Fresh `H × W` index matrix. -/
def mk0 (h w : Nat) : IndexMatrix :=
  { height := h, width := w, data := List.replicate h (List.replicate w 0) }

/-- `IndexMatrix::get(y, x)`. -/
def get (ind : IndexMatrix) (y x : Nat) : Int :=
  (ind.data.getD y []).getD x 0

/-- `IndexMatrix::set(y, x, v)`. -/
def set (ind : IndexMatrix) (y x : Nat) (v : Int) : IndexMatrix :=
  { ind with data := ind.data.set y ((ind.data.getD y []).set x v) }

/-- Modelled from the spec (section 3, colex layout): `start_index(y, x)` is
`ind[y][x-1]+1` when `x > 0`, else `ind[y-1][W-1]+1` when `y > 0`, else 0. -/
def startIndex (ind : IndexMatrix) (y x : Nat) : Int :=
  if 0 < x then ind.get y (x - 1) + 1
  else if 0 < y then ind.get (y - 1) (ind.width - 1) + 1
  else 0

/-- Modelled from the spec (section 4.3, "symmetric for lex layout"): the
`start_index` of the lex-layout index matrix follows the lex predecessor of
the bigrade `(x, y)`, namely `(x, y-1)`. -/
def startIndexLex (ind : IndexMatrix) (y x : Nat) : Int :=
  if 0 < y then ind.get (y - 1) x + 1
  else if 0 < x then ind.get (ind.height - 1) (x - 1) + 1
  else 0

end IndexMatrix

/-- Modelled from the spec (sections 4.1 and 6): the heap-backed `MapMatrix`
used by `BigradedMatrix` (its header `map_matrix.h` is missing from src/) is
a `vector_heap_mod` store together with the number of rows; every method
delegates to the corresponding `_`-prefixed store operation of
`vector_heap_mod.h`. -/
structure MapMatrixHeap where
  numRows : Nat
  store : VectorHeap
  deriving Repr, DecidableEq

namespace MapMatrixHeap

/-- `MapMatrix(rows, cols)`: all columns empty. -/
def mk0 (rows cols : Nat) : MapMatrixHeap :=
  { numRows := rows, store := VectorHeap.setNumCols cols }

/-- `MapMatrix(size)`: the square identity matrix (`_set_entry(i, i)` for
each `i`, as in the `vector_heap_perm` identity constructor). -/
def identity (n : Nat) : MapMatrixHeap :=
  { numRows := n
    store := { matrix := (List.range n).map (fun j => ([Int.ofNat j] : Column))
               insertsSinceLastPrune := List.replicate n 0 } }

/-- `MapMatrix::width`. -/
def width (M : MapMatrixHeap) : Nat :=
  M.store.numCols

/-- `MapMatrix::height`. -/
def height (M : MapMatrixHeap) : Nat :=
  M.numRows

/-- `MapMatrix::low_finalized` = `_get_max_index_finalized`. -/
def lowFinalized (M : MapMatrixHeap) (j : Nat) : Int :=
  M.store.getMaxIndexFinalized j

/-- `MapMatrix::remove_low` = `_remove_max`. -/
def removeLow (M : MapMatrixHeap) (j : Nat) : Int × MapMatrixHeap :=
  match M.store.removeMax j with
  | (l, st) => (l, { M with store := st })

/-- `MapMatrix::add_column` = `_add_to`. -/
def addColumn (M : MapMatrixHeap) (c j : Nat) : MapMatrixHeap :=
  { M with store := M.store.addTo c j }

/-- `MapMatrix::add_column_popped` = `_add_to_popped`. -/
def addColumnPopped (M : MapMatrixHeap) (c j : Nat) : MapMatrixHeap :=
  { M with store := M.store.addToPopped c j }

/-- `MapMatrix::push_index` = `_push_index`. -/
def pushIndex (M : MapMatrixHeap) (j : Nat) (l : Int) : MapMatrixHeap :=
  { M with store := M.store.pushIndex j l }

/-- `MapMatrix::finalize` = `_finalize`. -/
def finalize (M : MapMatrixHeap) (j : Nat) : MapMatrixHeap :=
  { M with store := M.store.finalizeCol j }

/-- `MapMatrix::set_entry` = `_set_entry`. -/
def setEntry (M : MapMatrixHeap) (row : Int) (j : Nat) : MapMatrixHeap :=
  { M with store := M.store.setEntry row j }

/-- `MapMatrix::heapify_col` = `_heapify_col`. -/
def heapifyCol (M : MapMatrixHeap) (j : Nat) : MapMatrixHeap :=
  { M with store := M.store.heapifyCol j }

/-- `MapMatrix::append_col(other, j)`: append a copy of column `j` of
`other` to the back of this matrix and zero out the source column
(`_append_col` plus the documented clearing of the slave column). -/
def appendColFrom (M other : MapMatrixHeap) (j : Nat) :
    MapMatrixHeap × MapMatrixHeap :=
  ({ M with store := M.store.appendCol (other.store.col j) },
   { other with store := other.store.setCol j [] })

/-- `MapMatrix::move_col(other, j, dst)` = `_move_col(column&, index)`: write
column `j` of `other` into slot `dst`, clearing the source column and the
destination insert counter. -/
def moveColFrom (M other : MapMatrixHeap) (j dst : Nat) :
    MapMatrixHeap × MapMatrixHeap :=
  ({ M with store := (M.store.setCol dst (other.store.col j)).setDirty dst 0 },
   { other with store := other.store.setCol j [] })

end MapMatrixHeap

/-! ### `BigradedMatrix::kernel` (`bigraded_matrix.cpp`) -/

/-- A bigraded matrix: a heap-backed `MapMatrix` paired with an
`IndexMatrix` (`BigradedMatrix` and `BigradedMatrixLex` share this shape;
the layout only changes which `start_index` is meaningful). -/
structure Bigraded where
  mat : MapMatrixHeap
  ind : IndexMatrix
  deriving Repr, DecidableEq

/-- The mutable state of one `kernel()` call: the input matrix being
reduced, the slave, the growing lex-ordered kernel, and the `lows` array. -/
structure KerState where
  mat : MapMatrixHeap
  slave : MapMatrixHeap
  kerMat : MapMatrixHeap
  kerInd : IndexMatrix
  lows : List Int
  deriving Repr, DecidableEq

/-- The `while` loop of `kernel_one_bigrade`, with fuel (each iteration pops
a strictly smaller pivot, so `numRows + 2` fuel always suffices): while
`l ≠ -1` and `lows[l]` names an earlier column, do
`add_column_popped(c, j)` on the input, `add_column(c, j)` on the slave, and
pop the next pivot. -/
def kerWhile : Nat → Nat → KerState → Int → KerState × Int
  | 0, _, st, l => (st, l)
  | fuel + 1, j, st, l =>
    if l ≠ -1 ∧ st.lows.getD l.toNat (-1) ≠ -1 ∧ st.lows.getD l.toNat (-1) < (j : Int) then
      let c := (st.lows.getD l.toNat (-1)).toNat
      let mat' := st.mat.addColumnPopped c j
      let slave' := st.slave.addColumn c j
      match mat'.removeLow j with
      | (l', mat'') => kerWhile fuel j { st with mat := mat'', slave := slave' } l'
    else (st, l)

/-- The body of `kernel_one_bigrade` for one column `j`: compute the
finalized pivot, decide `changing_column` (and pop the pivot if so), run the
collision loop, then either record the new pivot (restoring and finalizing a
changed column) or emit the slave column into the kernel. -/
def kerColumn (rows : Nat) (firstColCurr : Int) (j : Nat) (st : KerState) : KerState :=
  let l0 := st.mat.lowFinalized j
  let changing := l0 ≠ -1 ∧ st.lows.getD l0.toNat (-1) ≠ -1 ∧
    st.lows.getD l0.toNat (-1) < (j : Int)
  let st1 := if changing then { st with mat := (st.mat.removeLow j).2 } else st
  match kerWhile (rows + 2) j st1 l0 with
  | (st2, l) =>
    if l ≠ -1 then
      let st3 := { st2 with lows := st2.lows.set l.toNat (j : Int) }
      if changing then
        { st3 with mat := (st3.mat.pushIndex j l).finalize j }
      else st3
    else
      if changing then
        let slave' := st2.slave.finalize j
        match st2.kerMat.appendColFrom slave' j with
        | (ker', slave'') => { st2 with slave := slave'', kerMat := ker' }
      else if firstColCurr ≤ (j : Int) then
        match st2.kerMat.appendColFrom st2.slave j with
        | (ker', slave') => { st2 with slave := slave', kerMat := ker' }
      else st2

/-- Run `kerColumn` on `count` consecutive columns starting at `j`. -/
def kerColumns (rows : Nat) (firstColCurr : Int) : Nat → Nat → KerState → KerState
  | 0, _, st => st
  | count + 1, j, st => kerColumns rows firstColCurr count (j + 1) (kerColumn rows firstColCurr j st)

/-- `BigradedMatrix::kernel_one_bigrade(slave, ker_lex, x, y, lows)`: reduce
the columns `first_col .. last_col` of row `y` (through bigrade `(x, y)`),
then record `ker.ind[y][x] = ker.width() - 1`. -/
def kernelOneBigrade (bind : IndexMatrix) (rows : Nat) (x y : Nat) (st : KerState) : KerState :=
  let firstCol := bind.startIndex y 0
  let firstColCurr := bind.startIndex y x
  let lastCol := bind.get y x
  let count := (lastCol - firstCol + 1).toNat
  let st' := kerColumns rows firstColCurr count firstCol.toNat st
  { st' with kerInd := st'.kerInd.set y x ((st'.kerMat.width : Int) - 1) }

/-- The column-moving run of the `BigradedMatrix(BigradedMatrixLex&)`
conversion constructor: move `count` consecutive source columns starting at
`jStart` into consecutive destination slots starting at `cur`. -/
def convMoveRun : Nat → Nat → MapMatrixHeap → MapMatrixHeap → Nat →
    MapMatrixHeap × MapMatrixHeap × Nat
  | 0, _, dst, src, cur => (dst, src, cur)
  | count + 1, jStart, dst, src, cur =>
    match dst.moveColFrom src jStart cur with
    | (d', s') => convMoveRun count (jStart + 1) d' s' (cur + 1)

/-- One bigrade of the conversion constructor: move the lex run of bigrade
`(x, y)` into the colex position and record the destination index entry. -/
def convBigrade (lexInd : IndexMatrix) (y x : Nat)
    (st : MapMatrixHeap × MapMatrixHeap × Nat × IndexMatrix) :
    MapMatrixHeap × MapMatrixHeap × Nat × IndexMatrix :=
  match st with
  | (dst, src, cur, dind) =>
    let first := lexInd.startIndexLex y x
    let last := lexInd.get y x
    let count := (last - first + 1).toNat
    match convMoveRun count first.toNat dst src cur with
    | (d', s', cur') => (d', s', cur', dind.set y x ((cur' : Int) - 1))

/-- The `BigradedMatrix(BigradedMatrixLex& lex_mat)` conversion constructor:
walk the bigrades in colex order (`y` outer, `x` inner), moving each lex run
into place (the trivialized source is discarded). -/
def convertLex (lex : Bigraded) : Bigraded :=
  let h := lex.ind.height
  let w := lex.ind.width
  let init : MapMatrixHeap × MapMatrixHeap × Nat × IndexMatrix :=
    (MapMatrixHeap.mk0 lex.mat.numRows lex.mat.width, lex.mat, 0, IndexMatrix.mk0 h w)
  let res := (List.range h).foldl
    (fun st y => (List.range w).foldl (fun st x => convBigrade lex.ind y x st) st) init
  { mat := res.1, ind := res.2.2.2 }

/-- `BigradedMatrix::kernel()`: run the bigraded reduction over all bigrades
in lex order (`x` outer, `y` inner), collecting zeroed slave columns into a
lex-ordered kernel, then convert it to colex order. -/
def Bigraded.kernel (B : Bigraded) : Bigraded :=
  let w := B.ind.width
  let h := B.ind.height
  let rows := B.mat.height
  let st0 : KerState :=
    { mat := B.mat
      slave := MapMatrixHeap.identity B.mat.width
      kerMat := MapMatrixHeap.mk0 B.mat.width 0
      kerInd := IndexMatrix.mk0 h w
      lows := List.replicate rows (-1) }
  let stF := (List.range w).foldl
    (fun st x => (List.range h).foldl (fun st y => kernelOneBigrade B.ind rows x y st) st) st0
  convertLex { mat := stF.kerMat, ind := stF.kerInd }

/-! ### Mod-2 semantics used in the statements -/

/-- Entry `(r, j)` of a heap-backed matrix, mod 2 (row `r` is logically
present in column `j` iff its multiplicity is odd). -/
def heapEntry (M : MapMatrixHeap) (r : Int) (j : Nat) : ZMod 2 :=
  ((M.store.col j).count r : ZMod 2)

/-- Entry `(i, j)` of a linked-list column matrix, raw (unpermuted) rows. -/
def nodeEntry (cols : List NodeCol) (i j : Nat) : ZMod 2 :=
  if i ∈ cols.getD j [] then 1 else 0

/-- Observable entry of a `MapMatrix_Perm` (as `MapMatrix_Perm::entry`:
stored row `mrep[i]`). -/
def permEntry (M : MMPerm) (i j : Nat) : ZMod 2 :=
  nodeEntry M.columns (M.mrep.getD i 0) j

/-- Entry of a `MapMatrix_RowPriority_Perm` (as its `entry`: base column `i`
holds row `i`; column permutation via `mrep`). -/
def rowPriEntry (U : MMRowPri) (i j : Nat) : ZMod 2 :=
  nodeEntry U.columns (U.mrep.getD j 0) i

/-- Mod-2 matrix product of two entry functions, inner dimension `n`. -/
def mulFun (A B : Nat → Nat → ZMod 2) (n : Nat) (i j : Nat) : ZMod 2 :=
  ∑ k ∈ Finset.range n, A i k * B k j

/-- A finite sequence of `swap_rows` operations applied in order. -/
def applySwaps (M : MMPerm) (ops : List Nat) : MMPerm :=
  ops.foldl MMPerm.swapRows M

/-- Concrete 3-row, 3-column `MapMatrix_Perm` (raw columns
`{0,2}, {1,2}, {0,1}`, identity permutation, fresh `low_col`) on which
`decompose_RU` performs the dependent column operations `(0,1)` then
`(1,2)`. -/
def exM3 : MMPerm :=
  { numRows := 3
    columns := [[2, 0], [2, 1], [1, 0]]
    perm := [0, 1, 2]
    mrep := [0, 1, 2]
    lowCol := [-1, -1, -1]
    colPerm := [0, 1, 2] }

/-- The scenario S2 input: `M = [[1,1,0],[1,1,0],[0,0,0]]` (columns
`{0,1}, {0,1}, {}`), all three columns at bigrade `(0,0)`. -/
def exS2 : Bigraded :=
  { mat := { numRows := 3
             store := { matrix := [[1, 0], [1, 0], []]
                        insertsSinceLastPrune := [0, 0, 0] } }
    ind := { height := 1, width := 1, data := [[2]] } }

/-- The loop invariant of `decompose_RU` relative to the starting matrix
`M0` with `n` columns: dimensions are stable, all column chains stay
strictly descending, every registered `low_col` entry names a column below
`bound`, the permutation data is untouched, and the original matrix always
equals the current matrix times the accumulated `U`. -/
def RuInv (M0 : MMPerm) (n : Nat) (bound : Nat) (M : MMPerm) (U : MMRowPri) : Prop :=
  M.columns.length = n ∧
  U.columns.length = n ∧
  (∀ k, (M.columns.getD k []).Pairwise (fun a b => b < a)) ∧
  (∀ k, (U.columns.getD k []).Pairwise (fun a b => b < a)) ∧
  (∀ l : Nat, M.lowCol.getD l (-1) = -1 ∨
    (0 ≤ M.lowCol.getD l (-1) ∧ M.lowCol.getD l (-1) < (bound : Int))) ∧
  (∀ i j', nodeEntry M0.columns i j' =
    mulFun (fun a k => nodeEntry M.columns a k)
      (fun k b => nodeEntry U.columns b k) n i j') ∧
  M.perm = M0.perm ∧ M.mrep = M0.mrep ∧ M.numRows = M0.numRows

/-! ### Invariants for the bigraded kernel computation -/

/-- Column `k` of the matrix being reduced inside `kernel()`. -/
def matCol (st : KerState) (k : Nat) : Column :=
  st.mat.store.col k

/-- Column `k` of the slave (reduction) matrix inside `kernel()`. -/
def slvCol (st : KerState) (k : Nat) : Column :=
  st.slave.store.col k

/-- Column `q` of the growing lex-ordered kernel inside `kernel()`. -/
def kerCol (st : KerState) (q : Nat) : Column :=
  st.kerMat.store.col q

/-- Well-formedness of the index matrix of a colex `BigradedMatrix` with `w`
columns: every entry is in `[-1, w)` and entries are nondecreasing along
colex order (adjacent within a row of the index matrix, and from the last
entry of one row to the first entry of the next). -/
def IndWF (ind : IndexMatrix) (w : Nat) : Prop :=
  (∀ y, y < ind.height → ∀ x, x < ind.width →
    -1 ≤ ind.get y x ∧ ind.get y x < (w : Int)) ∧
  (∀ y, y < ind.height → ∀ x, x + 1 < ind.width → ind.get y x ≤ ind.get y (x + 1)) ∧
  (∀ y, y + 1 < ind.height → ind.get y (ind.width - 1) ≤ ind.get (y + 1) 0)

/-- The largest column index of row-`y'` bigrades that has already been
scanned when the double loop of `kernel()` stands at bigrade `(x, y)`
(`-1` when no bigrade of that row has been scanned yet). -/
def deadBound (ind : IndexMatrix) (x y y' : Nat) : Int :=
  if y' < y then ind.get y' x
  else if 0 < x then ind.get y' (x - 1)
  else -1

/-- Every column whose slave column has been zeroed (i.e. that was emitted
into the kernel) lies within the already-scanned part of its row group. -/
def DeadOK (ind : IndexMatrix) (h : Nat) (x y : Nat) (st : KerState) : Prop :=
  ∀ k : Nat, slvCol st k = [] → ∀ y' : Nat, y' < h →
    ind.startIndex y' 0 ≤ (k : Int) → (k : Int) ≤ ind.get y' (ind.width - 1) →
    (k : Int) ≤ deadBound ind x y y'

/-- The kernel columns collected so far form an echelon family: each has a
leading original-column index (odd multiplicity there, even above), the
leading indices are distinct, the corresponding slave columns have been
zeroed, and every kernel column is annihilated by the original matrix. -/
def KerEchelon (A0 : Int → Nat → ZMod 2) (w : Nat) (st : KerState) : Prop :=
  ∃ leads : List Nat, leads.length = st.kerMat.width ∧ leads.Nodup ∧
    ∀ q, q < st.kerMat.width →
      leads.getD q 0 < w ∧
      slvCol st (leads.getD q 0) = [] ∧
      (kerCol st q).count ((leads.getD q 0 : Nat) : Int) % 2 = 1 ∧
      (∀ k' : Nat, leads.getD q 0 < k' → (kerCol st q).count ((k' : Nat) : Int) % 2 = 0) ∧
      (∀ r : Int, ∑ k' ∈ Finset.range w, A0 r k' * semCol (kerCol st q) ((k' : Nat) : Int) = 0)

/-- The state invariant of `kernel()` between column reductions, relative to
the mod-2 entries `A0` of the original matrix (`w` columns, `rows` rows):
dimensions are stable; every matrix column is finalized with nonnegative
entries; slave columns are sorted with nonnegative entries and are either
zeroed or unitriangular; zeroed slave columns go with zeroed matrix columns;
each matrix column is the original matrix times its slave column; each
non-`-1` entry of `lows` names a column whose finalized pivot is that row;
and the collected kernel columns form an echelon family. -/
def KerInv (A0 : Int → Nat → ZMod 2) (w rows : Nat) (st : KerState) : Prop :=
  st.mat.store.numCols = w ∧
  st.slave.store.numCols = w ∧
  st.lows.length = rows ∧
  (∀ k, ColFinalized (matCol st k) ∧ ∀ x ∈ matCol st k, 0 ≤ x) ∧
  (∀ k, ColSorted (slvCol st k) ∧ ∀ x ∈ slvCol st k, 0 ≤ x) ∧
  (∀ k, k < w → slvCol st k = [] ∨
    ((slvCol st k).count ((k : Nat) : Int) % 2 = 1 ∧
     ∀ k' : Nat, k < k' → (slvCol st k).count ((k' : Nat) : Int) % 2 = 0)) ∧
  (∀ k, slvCol st k = [] → matCol st k = []) ∧
  (∀ k r, semCol (matCol st k) r =
    ∑ k' ∈ Finset.range w, A0 r k' * semCol (slvCol st k) ((k' : Nat) : Int)) ∧
  (∀ l : Nat, st.lows.getD l (-1) = -1 ∨
    ∃ c : Nat, st.lows.getD l (-1) = (c : Int) ∧ c < w ∧
      ∃ t, matCol st c = ((l : Nat) : Int) :: t) ∧
  KerEchelon A0 w st

/-- The mid-loop invariant of the `while` loop of `kernel_one_bigrade` while
column `j` is being reduced with current pivot candidate `l`: all the
bigrade-boundary facts for the untouched columns, no `lows` entry points to
`j`, and column `j` is in the popped state (its heap content plus one copy
of `l` is the original matrix times its slave column), or is empty with an
annihilated slave column when `l = -1`. -/
def LoopInv (A0 : Int → Nat → ZMod 2) (w rows j : Nat) (st : KerState) (l : Int) : Prop :=
  st.mat.store.numCols = w ∧
  st.slave.store.numCols = w ∧
  st.lows.length = rows ∧
  j < w ∧
  (∀ k, k ≠ j → ColFinalized (matCol st k) ∧ ∀ x ∈ matCol st k, 0 ≤ x) ∧
  (∀ k, ColSorted (slvCol st k) ∧ ∀ x ∈ slvCol st k, 0 ≤ x) ∧
  (∀ k, k < w → slvCol st k = [] ∨
    ((slvCol st k).count ((k : Nat) : Int) % 2 = 1 ∧
     ∀ k' : Nat, k < k' → (slvCol st k).count ((k' : Nat) : Int) % 2 = 0)) ∧
  (∀ k, k ≠ j → slvCol st k = [] → matCol st k = []) ∧
  (∀ k, k ≠ j → ∀ r, semCol (matCol st k) r =
    ∑ k' ∈ Finset.range w, A0 r k' * semCol (slvCol st k) ((k' : Nat) : Int)) ∧
  (∀ l' : Nat, st.lows.getD l' (-1) = -1 ∨
    ∃ c : Nat, st.lows.getD l' (-1) = (c : Int) ∧ c < w ∧
      ∃ t, matCol st c = ((l' : Nat) : Int) :: t) ∧
  (∀ l' : Nat, st.lows.getD l' (-1) ≠ ((j : Nat) : Int)) ∧
  KerEchelon A0 w st ∧
  slvCol st j ≠ [] ∧
  ColSorted (matCol st j) ∧ (∀ x ∈ matCol st j, 0 ≤ x) ∧
  ((l = -1 ∧ matCol st j = [] ∧
     (∀ r : Int, ∑ k' ∈ Finset.range w, A0 r k' * semCol (slvCol st j) ((k' : Nat) : Int) = 0)) ∨
   (0 ≤ l ∧ (∀ x ∈ matCol st j, x < l) ∧
     (∀ r : Int, semCol (matCol st j) r + (if r = l then 1 else 0) =
       ∑ k' ∈ Finset.range w, A0 r k' * semCol (slvCol st j) ((k' : Nat) : Int))))

/-- Progress of the kernel's index-matrix bookkeeping after `N` bigrades
(in the loop order of `kernel()`: `x` outer, `y` inner, flat index
`i = x * h + y`): dimensions are those of a fresh `h × wp` matrix, the
already-written entries are `≥ -1` and nondecreasing in loop order, and the
last written entry is the current kernel width minus one. -/
def KerIndProg (h wp : Nat) (N : Nat) (st : KerState) : Prop :=
  st.kerInd.height = h ∧
  st.kerInd.width = wp ∧
  st.kerInd.data.length = h ∧
  (∀ row ∈ st.kerInd.data, row.length = wp) ∧
  (∀ i : Nat, i + 1 < N →
    st.kerInd.get (i % h) (i / h) ≤ st.kerInd.get ((i + 1) % h) ((i + 1) / h)) ∧
  (∀ i : Nat, i < N → -1 ≤ st.kerInd.get (i % h) (i / h)) ∧
  (N = 0 → st.kerMat.width = 0) ∧
  (∀ m : Nat, N = m + 1 → st.kerInd.get (m % h) (m / h) = (st.kerMat.width : Int) - 1)

/-- The combined invariant carried through the double bigrade loop of
`kernel()`, standing at bigrade `(x, y)`. -/
def KerBigInv (A0 : Int → Nat → ZMod 2) (w rows : Nat) (ind : IndexMatrix)
    (x y : Nat) (st : KerState) : Prop :=
  KerInv A0 w rows st ∧ DeadOK ind ind.height x y st ∧
  KerIndProg ind.height ind.width (x * ind.height + y) st

/-- Concrete 1-row, 1-column bigraded matrix (one empty column at bigrade
`(0, 0)`) on which `kernel()` emits the single kernel generator `e0`. -/
def exC1 : Bigraded :=
  { mat := { numRows := 1
             store := { matrix := [[]]
                        insertsSinceLastPrune := [0] } }
    ind := { height := 1, width := 1, data := [[0]] } }

/-- The entry of an index matrix at the `i`-th bigrade in the loop order of
`kernel()` (`x` outer, `y` inner, flat index `i = x * height + y`). -/
def indVal (kin : IndexMatrix) (i : Nat) : Int :=
  kin.get (i % kin.height) (i / kin.height)

/-- The previous such entry (`-1` before the first bigrade). -/
def indValPrev (kin : IndexMatrix) (i : Nat) : Int :=
  if i = 0 then -1 else indVal kin (i - 1)

/-- The number of columns belonging to the `i`-th bigrade (the length of its
half-open run of column indices). -/
def runCount (kin : IndexMatrix) (i : Nat) : Nat :=
  (indVal kin i - indValPrev kin i).toNat

/-- The set of flat bigrade indices already visited when the colex walk of
the conversion constructor stands at `(y, x)`. -/
def scanned (kin : IndexMatrix) (y x : Nat) : Finset Nat :=
  (Finset.range (kin.width * kin.height)).filter
    (fun i => i % kin.height < y ∨ (i % kin.height = y ∧ i / kin.height < x))

/-- The invariant of the column-moving walk of the conversion constructor
`BigradedMatrix(BigradedMatrixLex&)`, standing at colex position `(y, x)`:
the destination holds, in its first `cur` slots, distinct source columns
(recorded in some assignment list), the later slots are still empty, the
unmoved source columns are intact, and the assigned sources are exactly the
runs of the already-visited bigrades. -/
def ConvInv (M0 : MapMatrixHeap) (kin : IndexMatrix) (y x : Nat)
    (dst src : MapMatrixHeap) (cur : Nat) : Prop :=
  dst.store.numCols = M0.width ∧
  src.store.numCols = M0.width ∧
  cur = ∑ i ∈ scanned kin y x, runCount kin i ∧
  ∃ asgn : List Nat, asgn.length = cur ∧ asgn.Nodup ∧
    (∀ t, t < cur → dst.store.col t = M0.store.col (asgn.getD t 0) ∧ asgn.getD t 0 < M0.width) ∧
    (∀ t, cur ≤ t → dst.store.col t = []) ∧
    (∀ s : Nat, s ∉ asgn → src.store.col s = M0.store.col s) ∧
    (∀ s : Nat, s ∈ asgn ↔ ∃ i, i ∈ scanned kin y x ∧
      indValPrev kin i < (s : Int) ∧ (s : Int) ≤ indVal kin i)

/-- The tail of `kernel_one_bigrade`'s per-column body, applied to the
state and pivot produced by the collision loop: record the pivot (restoring
and finalizing a changed column) or emit the slave column into the kernel. -/
def kerColumnAfter (fcc : Int) (j : Nat) (changing : Prop) [Decidable changing]
    (st2 : KerState) (l : Int) : KerState :=
  if l ≠ -1 then
    let st3 := { st2 with lows := st2.lows.set l.toNat ((j : Nat) : Int) }
    if changing then { st3 with mat := (st3.mat.pushIndex j l).finalize j }
    else st3
  else
    if changing then
      { st2 with
        slave := ((st2.kerMat.appendColFrom (st2.slave.finalize j) j)).2
        kerMat := ((st2.kerMat.appendColFrom (st2.slave.finalize j) j)).1 }
    else if fcc ≤ (j : Int) then
      { st2 with
        slave := ((st2.kerMat.appendColFrom st2.slave j)).2
        kerMat := ((st2.kerMat.appendColFrom st2.slave j)).1 }
    else st2

/-! ### Lemmas about the canonical heap layout -/

theorem heapPush_count (v : Int) (c : Column) (r : Int) :
    (heapPush v c).count r = c.count r + if v = r then 1 else 0 := by
  induction c with
  | nil => simp [heapPush, List.count_cons, List.count_nil]
  | cons a t ih =>
    by_cases h : v ≤ a
    · simp only [heapPush, if_pos h, List.count_cons, ih]
      ring
    · simp only [heapPush, if_neg h, List.count_cons]
      simp [beq_iff_eq]

theorem heapPush_mem {x v : Int} {c : Column} :
    x ∈ heapPush v c ↔ x = v ∨ x ∈ c := by
  induction c with
  | nil => simp [heapPush]
  | cons a t ih =>
    by_cases h : v ≤ a
    · simp only [heapPush, if_pos h, List.mem_cons, ih]
      tauto
    · simp only [heapPush, if_neg h, List.mem_cons]

theorem heapPush_length (v : Int) (c : Column) :
    (heapPush v c).length = c.length + 1 := by
  induction c with
  | nil => simp [heapPush]
  | cons a t ih =>
    by_cases h : v ≤ a
    · simp [heapPush, if_pos h, ih]
    · simp [heapPush, if_neg h]

theorem colSorted_cons_le' {a : Int} {t : Column} (hs : ColSorted (a :: t)) :
    ∀ x ∈ t, x ≤ a :=
  fun x hx => (List.pairwise_cons.mp hs).1 x hx

theorem colSorted_tail' {a : Int} {t : Column} (hs : ColSorted (a :: t)) :
    ColSorted t :=
  (List.pairwise_cons.mp hs).2

theorem heapPush_sorted {c : Column} (hs : ColSorted c) (v : Int) :
    ColSorted (heapPush v c) := by
  induction c with
  | nil => simp [heapPush, ColSorted]
  | cons a t ih =>
    have h1 : ∀ x ∈ t, x ≤ a := colSorted_cons_le' hs
    have h2 : ColSorted t := colSorted_tail' hs
    by_cases h : v ≤ a
    · simp only [heapPush, if_pos h]
      refine List.pairwise_cons.mpr ⟨fun b hb => ?_, ih h2⟩
      rcases heapPush_mem.mp hb with hb | hb
      · exact hb ▸ h
      · exact h1 b hb
    · simp only [heapPush, if_neg h]
      push_neg at h
      refine List.pairwise_cons.mpr ⟨fun b hb => ?_, hs⟩
      rcases List.mem_cons.mp hb with hb | hb
      · exact hb ▸ h.le
      · exact (h1 b hb).trans h.le

theorem makeHeapCol_count (c : Column) (r : Int) :
    (makeHeapCol c).count r = c.count r := by
  induction c with
  | nil => rfl
  | cons a t ih =>
    simp only [makeHeapCol, List.foldr_cons] at *
    rw [heapPush_count, ih, List.count_cons]
    by_cases h : a = r <;> simp [h]

theorem makeHeapCol_sorted (c : Column) : ColSorted (makeHeapCol c) := by
  induction c with
  | nil => simp [makeHeapCol, ColSorted]
  | cons a t ih =>
    simpa only [makeHeapCol, List.foldr_cons] using heapPush_sorted ih a

theorem foldl_heapPush_count (l : List Int) (acc : Column) (r : Int) :
    (l.foldl (fun c v => heapPush v c) acc).count r = acc.count r + l.count r := by
  induction l generalizing acc with
  | nil => simp
  | cons a t ih =>
    rw [List.foldl_cons, ih, heapPush_count, List.count_cons]
    by_cases h : a = r
    · simp only [if_pos h, h, beq_self_eq_true, if_true]
      ring
    · simp [h, Ne.symm h]

theorem foldl_heapPush_sorted (l : List Int) {acc : Column} (hs : ColSorted acc) :
    ColSorted (l.foldl (fun c v => heapPush v c) acc) := by
  induction l generalizing acc with
  | nil => exact hs
  | cons a t ih => exact ih (heapPush_sorted hs a)

theorem foldl_heapPush_length (l : List Int) (acc : Column) :
    (l.foldl (fun c v => heapPush v c) acc).length = acc.length + l.length := by
  induction l generalizing acc with
  | nil => simp
  | cons a t ih =>
    rw [List.foldl_cons, ih, heapPush_length]
    simp only [List.length_cons]
    omega

theorem colSorted_cons_le {a : Int} {t : Column} (hs : ColSorted (a :: t)) :
    ∀ x ∈ t, x ≤ a :=
  fun x hx => (List.pairwise_cons.mp hs).1 x hx


theorem colSorted_tail {a : Int} {t : Column} (hs : ColSorted (a :: t)) :
    ColSorted t :=
  (List.pairwise_cons.mp hs).2

/-- Characterization of `_pop_max_index` on a column in heap layout whose
entries are at least `-1` (every column reachable through the API has this
shape): either every multiplicity apart from that of the sentinel `-1` is
even and the result is `(-1, [])`, or there is a largest row index `m` of odd
multiplicity, it is returned, and exactly the entries below it survive. -/
theorem popMaxIndex_spec_aux : ∀ (n : Nat) (col : Column), col.length = n →
    ColSorted col → (∀ x ∈ col, -1 ≤ x) →
    ((∀ r : Int, r ≠ -1 → col.count r % 2 = 0) ∧ popMaxIndex col = (-1, [])) ∨
    (∃ m : Int, 0 ≤ m ∧ col.count m % 2 = 1 ∧
      (∀ r : Int, m < r → col.count r % 2 = 0) ∧
      popMaxIndex col = (m, col.filter (fun x => decide (x < m)))) := by
  intro n
  induction n using Nat.strong_induction_on with
  | _ n ih =>
  intro col hn hs hge
  rcases col with _ | ⟨a, t⟩
  · exact Or.inl ⟨fun r _ => by simp, rfl⟩
  rcases t with _ | ⟨b, r⟩
  · -- singleton column
    have ha : -1 ≤ a := hge a (by simp)
    rcases eq_or_lt_of_le ha with ha' | ha'
    · refine Or.inl ⟨fun x hx => ?_, ?_⟩
      · rw [List.count_singleton', if_neg (by omega)]
      · simp only [popMaxIndex]
        rw [popLoop.eq_def]
        simp [← ha']
    · refine Or.inr ⟨a, by omega, by simp, fun x hx => ?_, ?_⟩
      · rw [List.count_singleton', if_neg (by omega)]
      · have hfa : [a].filter (fun x => decide (x < a)) = [] := by simp
        rw [hfa]
        simp only [popMaxIndex]
        rw [popLoop.eq_def]
  -- column with at least two entries
  have hba : b ≤ a := colSorted_cons_le hs b (by simp)
  by_cases hab : b = a
  · -- leading duplicate pair: both copies of `a` cancel
    subst hab
    rcases r with _ | ⟨c, r2⟩
    · refine Or.inl ⟨fun x hx => ?_, ?_⟩
      · by_cases hbx : x = b
        · subst hbx; simp [List.count_cons]
        · simp [List.count_cons, hbx]
      · simp only [popMaxIndex]
        rw [popLoop.eq_def]
        simp
    · have hs2 : ColSorted (c :: r2) := colSorted_tail (colSorted_tail hs)
      have hge2 : ∀ x ∈ c :: r2, -1 ≤ x := fun x hx => hge x (by simp [hx])
      have hlen : (c :: r2).length < n := by simp at hn ⊢; omega
      have hcount : ∀ x : Int,
          (b :: b :: c :: r2).count x = (c :: r2).count x + if x = b then 2 else 0 := by
        intro x
        by_cases hbx : x = b
        · subst hbx; simp [List.count_cons]
        · simp [List.count_cons, hbx]
      have hpop : popMaxIndex (b :: b :: c :: r2) = popMaxIndex (c :: r2) := by
        simp only [popMaxIndex]
        rw [popLoop.eq_def]
        simp
      rcases ih _ hlen (c :: r2) rfl hs2 hge2 with ⟨heven, heq⟩ | ⟨m, hm0, hodd, habove, heq⟩
      · refine Or.inl ⟨fun x hx => ?_, by rw [hpop, heq]⟩
        have h1 := heven x hx
        rw [hcount x]
        by_cases hbx : x = b
        · rw [if_pos hbx]; omega
        · rw [if_neg hbx]; omega
      · have hmem : m ∈ c :: r2 := by
          by_contra hmem
          rw [List.count_eq_zero_of_not_mem hmem] at hodd
          omega
        have hmb : m ≤ b := colSorted_cons_le (colSorted_tail hs) m hmem
        refine Or.inr ⟨m, hm0, ?_, fun x hx => ?_, ?_⟩
        · rw [hcount m]
          by_cases hbm : m = b
          · rw [if_pos hbm]; omega
          · rw [if_neg hbm]; omega
        · have h1 := habove x hx
          rw [hcount x]
          by_cases hbx : x = b
          · rw [if_pos hbx]; omega
          · rw [if_neg hbx]; omega
        · rw [hpop, heq]
          have hnotlt : ¬ b < m := not_lt.mpr hmb
          have hf : (b :: b :: c :: r2).filter (fun x => decide (x < m)) =
              (c :: r2).filter (fun x => decide (x < m)) := by
            rw [List.filter_cons, List.filter_cons]
            simp [hnotlt]
          rw [hf]
  · -- strict drop after the head: the head has multiplicity one
    have hblt : b < a := lt_of_le_of_ne hba hab
    have hrb : ∀ x ∈ r, x ≤ b := colSorted_cons_le (colSorted_tail hs)
    have hlt : ∀ x ∈ b :: r, x < a := by
      intro x hx
      rcases List.mem_cons.mp hx with h | h
      · exact h ▸ hblt
      · exact lt_of_le_of_lt (hrb x h) hblt
    have hnotmem : a ∉ b :: r := fun hmem => lt_irrefl a (hlt a hmem)
    have ha0 : 0 ≤ a := by
      have := hge b (by simp)
      omega
    refine Or.inr ⟨a, ha0, ?_, fun x hx => ?_, ?_⟩
    · rw [List.count_cons, List.count_eq_zero_of_not_mem hnotmem]
      simp
    · have hxnot : x ∉ a :: b :: r := by
        intro hmem
        rcases List.mem_cons.mp hmem with h | h
        · omega
        · exact absurd (hlt x h) (by omega)
      rw [List.count_eq_zero_of_not_mem hxnot]
    · have h1 : popMaxIndex (a :: b :: r) = (a, b :: r) := by
        simp only [popMaxIndex]
        rw [popLoop.eq_def]
        simp [hab]
      have h2 : (a :: b :: r).filter (fun x => decide (x < a)) = b :: r := by
        have hself : (b :: r).filter (fun x => decide (x < a)) = b :: r :=
          List.filter_eq_self.mpr fun x hx => decide_eq_true (hlt x hx)
        rw [List.filter_cons, if_neg (by simp)]
        exact hself
      rw [h1, h2]

theorem popMaxIndex_spec (col : Column) (hs : ColSorted col)
    (hge : ∀ x ∈ col, -1 ≤ x) :
    ((∀ r : Int, r ≠ -1 → col.count r % 2 = 0) ∧ popMaxIndex col = (-1, [])) ∨
    (∃ m : Int, 0 ≤ m ∧ col.count m % 2 = 1 ∧
      (∀ r : Int, m < r → col.count r % 2 = 0) ∧
      popMaxIndex col = (m, col.filter (fun x => decide (x < m)))) :=
  popMaxIndex_spec_aux col.length col rfl hs hge

theorem popAllGo_nil (fuel : Nat) : popAllGo fuel [] = [] := by
  cases fuel <;> rfl

/-- Characterization of the popping loop of `_prune`: with sufficient fuel it
extracts, in strictly descending order, exactly one copy of every
odd-multiplicity entry other than the sentinel `-1`. -/
theorem popAllGo_spec : ∀ (n : Nat) (fuel : Nat) (col : Column), col.length = n →
    n ≤ fuel → ColSorted col → (∀ x ∈ col, -1 ≤ x) →
    (∀ r : Int, (popAllGo fuel col).count r =
      if 0 ≤ r ∧ col.count r % 2 = 1 then 1 else 0) ∧
    ColFinalized (popAllGo fuel col) ∧
    (∀ x ∈ popAllGo fuel col, x ∈ col) := by
  intro n
  induction n using Nat.strong_induction_on with
  | _ n ih =>
  intro fuel col hn hfuel hs hge
  rcases col with _ | ⟨a, t⟩
  · rw [popAllGo_nil]
    refine ⟨fun r => ?_, by simp, by simp⟩
    rw [if_neg (by simp)]
    simp
  -- nonempty column, so fuel is positive
  rcases fuel with _ | f
  · simp at hn
    omega
  rcases popMaxIndex_spec (a :: t) hs hge with ⟨heven, heq⟩ | ⟨m, hm0, hodd, habove, heq⟩
  · have hrun : popAllGo (f + 1) (a :: t) = [] := by
      simp [popAllGo, heq]
    rw [hrun]
    refine ⟨fun r => ?_, by simp, by simp⟩
    rcases eq_or_ne r (-1) with hr | hr
    · rw [if_neg (by omega)]
      simp
    · rw [if_neg (by simp [heven r hr])]
      simp
  · have hmne : m ≠ -1 := by omega
    have hrun : popAllGo (f + 1) (a :: t) =
        m :: popAllGo f ((a :: t).filter (fun x => decide (x < m))) := by
      simp [popAllGo, heq, hmne]
    set rest := (a :: t).filter (fun x => decide (x < m)) with hrest
    have hmem : m ∈ a :: t := by
      by_contra hmem
      rw [List.count_eq_zero_of_not_mem hmem] at hodd
      omega
    have hmnotr : m ∉ rest := by
      intro hmr
      rcases List.mem_filter.mp hmr with ⟨_, hcond⟩
      exact absurd (of_decide_eq_true hcond) (lt_irrefl m)
    have hsub : rest.Sublist (a :: t) := List.filter_sublist _
    have hlt : rest.length < (a :: t).length := by
      rcases lt_or_eq_of_le hsub.length_le with h | h
      · exact h
      · exact absurd (hsub.eq_of_length h ▸ hmem) hmnotr
    have hcount_rest : ∀ r : Int, rest.count r =
        if r < m then (a :: t).count r else 0 := by
      intro r
      by_cases h : r < m
      · rw [if_pos h, hrest, List.count_filter (by simpa using h)]
      · rw [if_neg h, List.count_eq_zero]
        intro hmem2
        rw [hrest] at hmem2
        exact h (by simpa using (List.mem_filter.mp hmem2).2)
    have hrec := ih rest.length (by omega) f rest rfl (by omega)
      (List.Pairwise.filter _ hs)
      (fun x hx => hge x (List.mem_filter.mp hx).1)
    obtain ⟨hcounts, hfin, hsubmem⟩ := hrec
    rw [hrun]
    refine ⟨fun r => ?_, ?_, fun x hx => ?_⟩
    · rw [List.count_cons, hcounts r]
      simp only [beq_iff_eq]
      rcases eq_or_ne r m with hrm | hrm
      · subst hrm
        have hzero : List.count r rest = 0 := by
          rw [hcount_rest]
          simp
        rw [hzero]
        simp [hm0, hodd]
      · rw [if_neg (Ne.symm hrm)]
        rcases lt_or_gt_of_ne hrm with h | h
        · rw [hcount_rest r, if_pos h]
          simp
        · have hev := habove r h
          have hone : List.count r rest = 0 := by
            rw [hcount_rest r, if_neg (by omega)]
          rw [hone, if_neg (by simp), if_neg (by simp [hev])]
    · refine List.pairwise_cons.mpr ⟨fun x hx => ?_, hfin⟩
      have hxr : x ∈ rest := hsubmem x hx
      exact of_decide_eq_true (List.mem_filter.mp hxr).2
    · rcases List.mem_cons.mp hx with h | h
      · exact h ▸ hmem
      · exact (List.mem_filter.mp (hsubmem x h)).1

theorem popAll_spec (col : Column) (hs : ColSorted col) (hge : ∀ x ∈ col, -1 ≤ x) :
    (∀ r : Int, (popAll col).count r =
      if 0 ≤ r ∧ col.count r % 2 = 1 then 1 else 0) ∧
    ColFinalized (popAll col) ∧
    (∀ x ∈ popAll col, x ∈ col) :=
  popAllGo_spec col.length col.length col rfl le_rfl hs hge

theorem colFinalized_of_sorted_count {c : Column} (hs : ColSorted c)
    (hcount : ∀ r : Int, c.count r ≤ 1) : ColFinalized c := by
  induction c with
  | nil => simp
  | cons a t ih =>
    refine List.pairwise_cons.mpr ⟨fun x hx => ?_, ?_⟩
    · have hle : x ≤ a := colSorted_cons_le' hs x hx
      rcases lt_or_eq_of_le hle with h | h
      · exact h
      · exfalso
        subst h
        have h1 : 1 ≤ t.count x := List.one_le_count_iff.mpr hx
        have h2 : (x :: t).count x = t.count x + 1 := List.count_cons_self x t
        have h3 := hcount x
        omega
    · refine ih (colSorted_tail' hs) fun r => ?_
      have h3 := hcount r
      have h4 : t.count r ≤ (a :: t).count r := by
        rw [List.count_cons]
        exact Nat.le_add_right _ _
      omega

/-- Characterization of `_prune` on one column: the result is strictly
descending and keeps exactly one copy of each non-sentinel entry of odd
multiplicity. -/
theorem pruneCol_spec (col : Column) (hs : ColSorted col)
    (hge : ∀ x ∈ col, -1 ≤ x) :
    (∀ r : Int, (pruneCol col).count r =
      if 0 ≤ r ∧ col.count r % 2 = 1 then 1 else 0) ∧
    ColFinalized (pruneCol col) ∧
    (∀ x ∈ pruneCol col, x ∈ col) := by
  obtain ⟨hcounts, _, hsub⟩ := popAll_spec col hs hge
  have hc : ∀ r : Int, (pruneCol col).count r =
      if 0 ≤ r ∧ col.count r % 2 = 1 then 1 else 0 := by
    intro r
    rw [pruneCol, makeHeapCol_count, List.count_reverse, hcounts r]
  refine ⟨hc, ?_, fun x hx => ?_⟩
  · refine colFinalized_of_sorted_count (makeHeapCol_sorted _) fun r => ?_
    rw [hc r]
    by_cases h : 0 ≤ r ∧ col.count r % 2 = 1
    · rw [if_pos h]
    · rw [if_neg h]
      omega
  · have : 0 < (pruneCol col).count x := List.one_le_count_iff.mpr hx
    rw [hc x] at this
    by_cases h : 0 ≤ x ∧ col.count x % 2 = 1
    · have : 0 < col.count x := by omega
      exact List.one_le_count_iff.mp (by omega)
    · rw [if_neg h] at this
      omega


/-! ### List plumbing -/

theorem getD_set_self {α : Type} (l : List α) (i : Nat) (a d : α)
    (h : i < l.length) : (l.set i a).getD i d = a := by
  rw [List.getD_eq_getElem?_getD, List.getElem?_set_self (by simpa using h)]
  rfl

theorem getD_set_ne {α : Type} (l : List α) (i j : Nat) (a d : α)
    (h : j ≠ i) : (l.set i a).getD j d = l.getD j d := by
  rw [List.getD_eq_getElem?_getD, List.getElem?_set_ne (by omega),
    ← List.getD_eq_getElem?_getD]

theorem set_getD_self {α : Type} (l : List α) (j : Nat) (d : α)
    (h : j < l.length) : l.set j (l.getD j d) = l := by
  induction l generalizing j with
  | nil => simp at h
  | cons a t ih =>
    cases j with
    | zero => simp [List.getD]
    | succ n =>
      simp only [List.set_cons_succ]
      rw [show (a :: t).getD (n + 1) d = t.getD n d from rfl, ih n (by simpa using h)]

/-! ### Matrix-level plumbing for the heap store -/

namespace VectorHeap

theorem numCols_setCol (M : VectorHeap) (i : Nat) (c : Column) :
    (M.setCol i c).numCols = M.numCols := by
  simp [numCols, setCol]

theorem numCols_setDirty (M : VectorHeap) (i : Nat) (v : Int) :
    (M.setDirty i v).numCols = M.numCols := rfl

theorem col_setCol_self (M : VectorHeap) (i : Nat) (c : Column)
    (h : i < M.numCols) : (M.setCol i c).col i = c :=
  getD_set_self _ _ _ _ h

theorem col_setCol_ne (M : VectorHeap) (i j : Nat) (c : Column)
    (h : j ≠ i) : (M.setCol i c).col j = M.col j :=
  getD_set_ne _ _ _ _ _ h

theorem col_setDirty (M : VectorHeap) (i : Nat) (v : Int) (j : Nat) :
    (M.setDirty i v).col j = M.col j := rfl

theorem numCols_prune (M : VectorHeap) (i : Nat) :
    (M.prune i).numCols = M.numCols := by
  rw [prune, numCols_setDirty, numCols_setCol]

theorem col_prune_self (M : VectorHeap) (i : Nat) (h : i < M.numCols) :
    (M.prune i).col i = pruneCol (M.col i) := by
  rw [prune, col_setDirty, col_setCol_self _ _ _ h]

theorem getMaxIndex_eq (M : VectorHeap) (idx : Nat) :
    M.getMaxIndex idx = ((popMaxIndex (M.col idx)).1,
      M.setCol idx (heapPush (popMaxIndex (M.col idx)).1 (popMaxIndex (M.col idx)).2)) := rfl

theorem removeMax_eq (M : VectorHeap) (idx : Nat) :
    M.removeMax idx = ((popMaxIndex (M.col idx)).1,
      M.setCol idx (popMaxIndex (M.col idx)).2) := rfl

end VectorHeap

theorem count_filter_lt (col : Column) (m r : Int) :
    (col.filter (fun x => decide (x < m))).count r =
      if r < m then col.count r else 0 := by
  by_cases h : r < m
  · rw [if_pos h, List.count_filter (by simpa using h)]
  · rw [if_neg h, List.count_eq_zero]
    intro hmem
    exact h (by simpa using (List.mem_filter.mp hmem).2)

theorem foldl_heapPush_mem (l : List Int) (acc : Column) (x : Int) :
    x ∈ l.foldl (fun c v => heapPush v c) acc ↔ x ∈ acc ∨ x ∈ l := by
  constructor
  · intro hx
    have h1 : 0 < (l.foldl (fun c v => heapPush v c) acc).count x :=
      List.count_pos_iff.mpr hx
    rw [foldl_heapPush_count] at h1
    rcases Nat.lt_or_ge 0 (acc.count x) with h | h
    · exact Or.inl (List.count_pos_iff.mp h)
    · exact Or.inr (List.count_pos_iff.mp (by omega))
  · intro hx
    have h1 : 0 < acc.count x + l.count x := by
      rcases hx with h | h
      · have := List.count_pos_iff.mpr h
        omega
      · have := List.count_pos_iff.mpr h
        omega
    rw [← foldl_heapPush_count] at h1
    exact List.count_pos_iff.mp h1

/-- The effect of `_add_to` on the target column: its mod-2 content is the
sum of the two columns, it stays in heap layout, and its entries stay row
indices, whether or not the pruning threshold fires. -/
theorem addTo_col_spec (M : VectorHeap) (src tgt : Nat)
    (htgt : tgt < M.numCols)
    (hsorted : ColSorted (M.col tgt))
    (hget : ∀ x ∈ M.col tgt, 0 ≤ x) (hges : ∀ x ∈ M.col src, 0 ≤ x) :
    (∀ r : Int, ((M.addTo src tgt).col tgt).count r % 2 =
      ((M.col tgt).count r + (M.col src).count r) % 2) ∧
    ColSorted ((M.addTo src tgt).col tgt) ∧
    (∀ x ∈ (M.addTo src tgt).col tgt, 0 ≤ x) := by
  rw [VectorHeap.addTo]
  set merged := (M.col src).foldl (fun c v => heapPush v c) (M.col tgt) with hmerged
  set M' := (M.setCol tgt merged).setDirty tgt (M.dirty tgt + (M.col src).length) with hM'
  have hcolM' : M'.col tgt = merged := by
    rw [hM', VectorHeap.col_setDirty, VectorHeap.col_setCol_self _ _ _ htgt]
  have hncM' : M'.numCols = M.numCols := by
    rw [hM', VectorHeap.numCols_setDirty, VectorHeap.numCols_setCol]
  have hmc : ∀ r : Int, merged.count r = (M.col tgt).count r + (M.col src).count r :=
    fun r => foldl_heapPush_count _ _ r
  have hms : ColSorted merged := foldl_heapPush_sorted _ hsorted
  have hmge : ∀ x ∈ merged, 0 ≤ x := by
    intro x hx
    rcases (foldl_heapPush_mem _ _ x).mp hx with h | h
    · exact hget x h
    · exact hges x h
  by_cases hcond : 2 * M'.dirty tgt > ((M'.col tgt).length : Int)
  · rw [if_pos hcond]
    have hcol : (M'.prune tgt).col tgt = pruneCol merged := by
      rw [VectorHeap.col_prune_self M' tgt (by rw [hncM']; exact htgt), hcolM']
    obtain ⟨hpc, hpf, hpm⟩ := pruneCol_spec merged hms
      (fun x hx => le_trans (by omega) (hmge x hx))
    refine ⟨fun r => ?_, ?_, fun x hx => ?_⟩
    · rw [hcol, hpc r, ← hmc r]
      by_cases h : 0 ≤ r ∧ merged.count r % 2 = 1
      · rw [if_pos h]
        omega
      · rw [if_neg h]
        rcases Nat.even_or_odd (merged.count r) with he | ho
        · have := Nat.even_iff.mp he
          omega
        · have h1 : merged.count r % 2 = 1 := Nat.odd_iff.mp ho
          have h0 : ¬ 0 ≤ r := fun hge0 => h ⟨hge0, h1⟩
          have : merged.count r = 0 := by
            rw [List.count_eq_zero]
            intro hmem
            exact h0 (hmge r hmem)
          omega
    · rw [hcol]
      exact List.Pairwise.imp le_of_lt hpf
    · rw [hcol] at hx
      exact hmge x (hpm x hx)
  · rw [if_neg hcond]
    refine ⟨fun r => ?_, ?_, fun x hx => ?_⟩
    · rw [hcolM', hmc r]
    · rw [hcolM']
      exact hms
    · rw [hcolM'] at hx
      exact hmge x hx

/-! ### Mod-2 column semantics: casts and small algebra -/

theorem semCol_congr_mod {c d : Column} (r : Int)
    (h : c.count r % 2 = d.count r % 2) : semCol c r = semCol d r := by
  rw [semCol, semCol, ← ZMod.natCast_mod (c.count r) 2,
    ← ZMod.natCast_mod (d.count r) 2, h]

theorem semCol_eq_one {c : Column} {r : Int} (h : c.count r % 2 = 1) :
    semCol c r = 1 := by
  rw [semCol, ← ZMod.natCast_mod (c.count r) 2, h]
  rfl

theorem semCol_eq_zero {c : Column} {r : Int} (h : c.count r % 2 = 0) :
    semCol c r = 0 := by
  rw [semCol, ← ZMod.natCast_mod (c.count r) 2, h]
  rfl

theorem semCol_nil (r : Int) : semCol [] r = 0 := rfl

theorem semCol_cons (a : Int) (c : Column) (r : Int) :
    semCol (a :: c) r = semCol c r + (if a = r then 1 else 0) := by
  rw [semCol, semCol, List.count_cons]
  by_cases h : a = r
  · rw [if_pos h, if_pos (by simp [h])]
    push_cast
    ring
  · rw [if_neg h, if_neg (by simp [h])]
    simp

theorem semCol_mod_two_eq {c d : Column} {r : Int}
    (h : semCol c r = semCol d r) : c.count r % 2 = d.count r % 2 := by
  have h1 : ((c.count r % 2 : Nat) : ZMod 2) = ((d.count r % 2 : Nat) : ZMod 2) := by
    rw [ZMod.natCast_mod, ZMod.natCast_mod]
    exact h
  have h2 : c.count r % 2 < 2 := Nat.mod_lt _ (by omega)
  have h3 : d.count r % 2 < 2 := Nat.mod_lt _ (by omega)
  interval_cases h4 : c.count r % 2 <;> interval_cases h5 : d.count r % 2 <;>
    simp_all <;> exact absurd h1 (by decide)

/-! ### The canonical heap layout: a few more facts -/

theorem heapPush_gt {v : Int} {c : Column} (h : ∀ x ∈ c, x < v) :
    heapPush v c = v :: c := by
  cases c with
  | nil => rfl
  | cons a t =>
    rw [heapPush, if_neg (by have := h a (List.mem_cons_self a t); omega)]

theorem popLoop_ne {m : Int} {b : Int} {rest : Column} (h : b ≠ m) :
    popLoop m (b :: rest) = (m, b :: rest) := by
  rw [popLoop.eq_def]
  simp [h]

theorem popMaxIndex_finalized {a : Int} {t : Column}
    (h : ColFinalized (a :: t)) : popMaxIndex (a :: t) = (a, t) := by
  rw [popMaxIndex]
  cases t with
  | nil => rfl
  | cons b r =>
    have hba : b < a := (List.pairwise_cons.mp h).1 b (List.mem_cons_self b r)
    exact popLoop_ne (by omega)

theorem head_of_finalized {c : Column} {x : Int} (hf : ColFinalized c)
    (hx : x ∈ c) (hmax : ∀ y ∈ c, y ≤ x) : ∃ t, c = x :: t := by
  cases c with
  | nil => simp at hx
  | cons a t =>
    rcases List.mem_cons.mp hx with h | h
    · exact ⟨t, by rw [h]⟩
    · have h1 : x < a := (List.pairwise_cons.mp hf).1 x h
      have h2 : a ≤ x := hmax a (List.mem_cons_self a t)
      omega

/-! ### More single-store plumbing -/

namespace VectorHeap

theorem addTo_numCols (M : VectorHeap) (src tgt : Nat) :
    (M.addTo src tgt).numCols = M.numCols := by
  rw [addTo]
  by_cases h : 2 * (((M.setCol tgt ((M.col src).foldl (fun c v => heapPush v c) (M.col tgt))).setDirty
      tgt (M.dirty tgt + (M.col src).length)).dirty tgt) >
      ((((M.setCol tgt ((M.col src).foldl (fun c v => heapPush v c) (M.col tgt))).setDirty
      tgt (M.dirty tgt + (M.col src).length)).col tgt).length : Int)
  · simp only [h, if_pos, numCols_prune, numCols_setDirty, numCols_setCol]
  · simp only [h, if_neg, not_false_iff, numCols_setDirty, numCols_setCol]

theorem col_prune_other (M : VectorHeap) (i k : Nat) (h : k ≠ i) :
    (M.prune i).col k = M.col k := by
  rw [prune, col_setDirty, col_setCol_ne _ _ _ _ h]

theorem addTo_col_other (M : VectorHeap) (src tgt k : Nat) (h : k ≠ tgt) :
    (M.addTo src tgt).col k = M.col k := by
  rw [addTo]
  set M' := (M.setCol tgt ((M.col src).foldl (fun c v => heapPush v c) (M.col tgt))).setDirty
      tgt (M.dirty tgt + (M.col src).length) with hM'
  have hcol : M'.col k = M.col k := by
    rw [hM', col_setDirty, col_setCol_ne _ _ _ _ h]
  by_cases hc : 2 * M'.dirty tgt > ((M'.col tgt).length : Int)
  · rw [if_pos hc, col_prune_other _ _ _ h, hcol]
  · rw [if_neg hc, hcol]

theorem addToPopped_numCols (M : VectorHeap) (src tgt : Nat) :
    (M.addToPopped src tgt).numCols = M.numCols := by
  rw [addToPopped]
  set M' := (M.setCol tgt (((M.col src).drop 1).foldl (fun c v => heapPush v c) (M.col tgt))).setDirty
      tgt (M.dirty tgt + (M.col src).length - 1) with hM'
  have h1 : M'.numCols = M.numCols := by
    rw [hM', numCols_setDirty, numCols_setCol]
  by_cases hc : 2 * M'.dirty tgt > ((M'.col tgt).length : Int)
  · rw [if_pos hc, numCols_prune, h1]
  · rw [if_neg hc, h1]

theorem addToPopped_col_other (M : VectorHeap) (src tgt k : Nat) (h : k ≠ tgt) :
    (M.addToPopped src tgt).col k = M.col k := by
  rw [addToPopped]
  set M' := (M.setCol tgt (((M.col src).drop 1).foldl (fun c v => heapPush v c) (M.col tgt))).setDirty
      tgt (M.dirty tgt + (M.col src).length - 1) with hM'
  have hcol : M'.col k = M.col k := by
    rw [hM', col_setDirty, col_setCol_ne _ _ _ _ h]
  by_cases hc : 2 * M'.dirty tgt > ((M'.col tgt).length : Int)
  · rw [if_pos hc, col_prune_other _ _ _ h, hcol]
  · rw [if_neg hc, hcol]

/-- The effect of `_add_to_popped` on the target column: its mod-2 content
is the target plus the source without the source's front entry, it stays in
heap layout, and its entries come from those two lists, whether or not the
pruning threshold fires. -/
theorem addToPopped_col_spec (M : VectorHeap) (src tgt : Nat)
    (htgt : tgt < M.numCols)
    (hsorted : ColSorted (M.col tgt))
    (hget : ∀ x ∈ M.col tgt, 0 ≤ x)
    (hges : ∀ x ∈ (M.col src).drop 1, 0 ≤ x) :
    (∀ r : Int, ((M.addToPopped src tgt).col tgt).count r % 2 =
      ((M.col tgt).count r + ((M.col src).drop 1).count r) % 2) ∧
    ColSorted ((M.addToPopped src tgt).col tgt) ∧
    (∀ x ∈ (M.addToPopped src tgt).col tgt, x ∈ M.col tgt ∨ x ∈ (M.col src).drop 1) := by
  rw [VectorHeap.addToPopped]
  set merged := ((M.col src).drop 1).foldl (fun c v => heapPush v c) (M.col tgt) with hmerged
  set M' := (M.setCol tgt merged).setDirty tgt (M.dirty tgt + (M.col src).length - 1) with hM'
  have hcolM' : M'.col tgt = merged := by
    rw [hM', VectorHeap.col_setDirty, VectorHeap.col_setCol_self _ _ _ htgt]
  have hncM' : M'.numCols = M.numCols := by
    rw [hM', VectorHeap.numCols_setDirty, VectorHeap.numCols_setCol]
  have hmc : ∀ r : Int, merged.count r = (M.col tgt).count r + ((M.col src).drop 1).count r :=
    fun r => foldl_heapPush_count _ _ r
  have hms : ColSorted merged := foldl_heapPush_sorted _ hsorted
  have hmge : ∀ x ∈ merged, x ∈ M.col tgt ∨ x ∈ (M.col src).drop 1 := by
    intro x hx
    exact (foldl_heapPush_mem _ _ x).mp hx
  have hmge0 : ∀ x ∈ merged, 0 ≤ x := by
    intro x hx
    rcases hmge x hx with h | h
    · exact hget x h
    · exact hges x h
  by_cases hcond : 2 * M'.dirty tgt > ((M'.col tgt).length : Int)
  · rw [if_pos hcond]
    have hcol : (M'.prune tgt).col tgt = pruneCol merged := by
      rw [VectorHeap.col_prune_self M' tgt (by rw [hncM']; exact htgt), hcolM']
    obtain ⟨hpc, hpf, hpm⟩ := pruneCol_spec merged hms
      (fun x hx => le_trans (by omega) (hmge0 x hx))
    refine ⟨fun r => ?_, ?_, fun x hx => ?_⟩
    · rw [hcol, hpc r, ← hmc r]
      by_cases h : 0 ≤ r ∧ merged.count r % 2 = 1
      · rw [if_pos h]
        omega
      · rw [if_neg h]
        rcases Nat.even_or_odd (merged.count r) with he | ho
        · have := Nat.even_iff.mp he
          omega
        · have h1 : merged.count r % 2 = 1 := Nat.odd_iff.mp ho
          have h0 : ¬ 0 ≤ r := fun hge0 => h ⟨hge0, h1⟩
          have : merged.count r = 0 := by
            rw [List.count_eq_zero]
            intro hmem
            exact h0 (hmge0 r hmem)
          omega
    · rw [hcol]
      exact List.Pairwise.imp le_of_lt hpf
    · rw [hcol] at hx
      exact hmge x (hpm x hx)
  · rw [if_neg hcond]
    refine ⟨fun r => ?_, ?_, fun x hx => ?_⟩
    · rw [hcolM', hmc r]
    · rw [hcolM']
      exact hms
    · rw [hcolM'] at hx
      exact hmge x hx

theorem pushIndex_numCols (M : VectorHeap) (idx : Nat) (v : Int) :
    (M.pushIndex idx v).numCols = M.numCols :=
  numCols_setCol _ _ _

theorem pushIndex_col_self (M : VectorHeap) (idx : Nat) (v : Int)
    (h : idx < M.numCols) : (M.pushIndex idx v).col idx = heapPush v (M.col idx) :=
  col_setCol_self _ _ _ h

theorem pushIndex_col_other (M : VectorHeap) (idx : Nat) (v : Int) (k : Nat)
    (h : k ≠ idx) : (M.pushIndex idx v).col k = M.col k :=
  col_setCol_ne _ _ _ _ h

theorem appendCol_numCols (M : VectorHeap) (c : Column) :
    (M.appendCol c).numCols = M.numCols + 1 := by
  simp [appendCol, numCols]

theorem appendCol_col_lt (M : VectorHeap) (c : Column) (q : Nat)
    (h : q < M.numCols) : (M.appendCol c).col q = M.col q := by
  rw [appendCol, col, col]
  show (M.matrix ++ [c]).getD q [] = M.matrix.getD q []
  rw [List.getD_eq_getElem?_getD, List.getElem?_append_left h, ← List.getD_eq_getElem?_getD]

theorem appendCol_col_last (M : VectorHeap) (c : Column) :
    (M.appendCol c).col M.numCols = c := by
  rw [appendCol, col]
  show (M.matrix ++ [c]).getD M.matrix.length [] = c
  rw [List.getD_eq_getElem?_getD]
  simp

end VectorHeap

/-! ### The spec-modelled `MapMatrix` wrapper: reading the store -/

theorem MapMatrixHeap.identity_col_lt (n k : Nat) (h : k < n) :
    (MapMatrixHeap.identity n).store.col k = [((k : Nat) : Int)] := by
  rw [MapMatrixHeap.identity, VectorHeap.col]
  rw [List.getD_eq_getElem?_getD, List.getElem?_map, List.getElem?_range h]
  rfl

theorem MapMatrixHeap.identity_col_ge (n k : Nat) (h : n ≤ k) :
    (MapMatrixHeap.identity n).store.col k = [] := by
  rw [MapMatrixHeap.identity, VectorHeap.col]
  refine List.getD_eq_default _ _ ?_
  rw [List.length_map, List.length_range]
  exact h

theorem MapMatrixHeap.identity_numCols (n : Nat) :
    (MapMatrixHeap.identity n).store.numCols = n := by
  simp [MapMatrixHeap.identity, VectorHeap.numCols]

theorem MapMatrixHeap.mk0_col (rows cols k : Nat) :
    (MapMatrixHeap.mk0 rows cols).store.col k = [] := by
  rw [MapMatrixHeap.mk0, VectorHeap.setNumCols, VectorHeap.col]
  rcases Nat.lt_or_ge k cols with h | h
  · show (List.replicate cols []).getD k [] = []
    rw [List.getD_eq_getElem?_getD, List.getElem?_replicate]
    simp [h]
  · exact List.getD_eq_default _ _ (by simpa using h)

theorem MapMatrixHeap.mk0_numCols (rows cols : Nat) :
    (MapMatrixHeap.mk0 rows cols).store.numCols = cols := by
  simp [MapMatrixHeap.mk0, VectorHeap.setNumCols, VectorHeap.numCols]

theorem MapMatrixHeap.width_def (M : MapMatrixHeap) :
    M.width = M.store.numCols := rfl


/-! ### Unfolding the kernel loop -/

theorem semCol_eq_add_of_mod {c : Column} {r : Int} {a b : Nat}
    (h : c.count r % 2 = (a + b) % 2) :
    semCol c r = (a : ZMod 2) + (b : ZMod 2) := by
  rw [semCol, ← ZMod.natCast_mod (c.count r) 2, h, ZMod.natCast_mod]
  push_cast
  ring

theorem sum_mul_split (A : Nat → ZMod 2) (f g : Nat → ZMod 2) (w : Nat) :
    ∑ k' ∈ Finset.range w, A k' * (f k' + g k') =
      (∑ k' ∈ Finset.range w, A k' * f k') + ∑ k' ∈ Finset.range w, A k' * g k' := by
  rw [← Finset.sum_add_distrib]
  exact Finset.sum_congr rfl fun k _ => mul_add _ _ _

theorem MapMatrixHeap.lowFinalized_nil (M : MapMatrixHeap) (j : Nat)
    (h : M.store.col j = []) : M.lowFinalized j = -1 := by
  rw [MapMatrixHeap.lowFinalized, VectorHeap.getMaxIndexFinalized, h]

theorem MapMatrixHeap.lowFinalized_cons (M : MapMatrixHeap) (j : Nat)
    {a : Int} {t : Column} (h : M.store.col j = a :: t) :
    M.lowFinalized j = a := by
  rw [MapMatrixHeap.lowFinalized, VectorHeap.getMaxIndexFinalized, h]

theorem MapMatrixHeap.removeLow_eq (M : MapMatrixHeap) (j : Nat) :
    M.removeLow j = ((popMaxIndex (M.store.col j)).1,
      { M with store := M.store.setCol j (popMaxIndex (M.store.col j)).2 }) := rfl

theorem kerWhile_succ (fuel j : Nat) (st : KerState) (l : Int) :
    kerWhile (fuel + 1) j st l =
      if l ≠ -1 ∧ st.lows.getD l.toNat (-1) ≠ -1 ∧ st.lows.getD l.toNat (-1) < (j : Int) then
        kerWhile fuel j
          { st with
            mat := ((st.mat.addColumnPopped (st.lows.getD l.toNat (-1)).toNat j).removeLow j).2
            slave := st.slave.addColumn (st.lows.getD l.toNat (-1)).toNat j }
          ((st.mat.addColumnPopped (st.lows.getD l.toNat (-1)).toNat j).removeLow j).1
      else (st, l) := rfl

/-! ### Claim theorems: the lazy-heap column store -/

/-- C5: on a lazy-heap column (heap layout, row-index entries), `pivot`
(`_get_max_index`) returns the largest row index of odd multiplicity, `-1`
when no index has odd multiplicity, and when the result is not `-1` the
column's logical (mod-2) content is unchanged by the call. -/
theorem rivet_c5 (M : VectorHeap) (idx : Nat) (hidx : idx < M.numCols)
    (hs : ColSorted (M.col idx)) (hge : ∀ x ∈ M.col idx, 0 ≤ x) :
    ((M.getMaxIndex idx).1 = -1 ∧ ∀ r : Int, (M.col idx).count r % 2 = 0) ∨
    ((M.getMaxIndex idx).1 ≠ -1 ∧
      (M.col idx).count ((M.getMaxIndex idx).1) % 2 = 1 ∧
      (∀ r : Int, (M.getMaxIndex idx).1 < r → (M.col idx).count r % 2 = 0) ∧
      (∀ r : Int, (((M.getMaxIndex idx).2).col idx).count r % 2 =
        (M.col idx).count r % 2)) := by
  have hge1 : ∀ x ∈ M.col idx, -1 ≤ x := fun x hx => by
    have := hge x hx
    omega
  rcases popMaxIndex_spec (M.col idx) hs hge1 with ⟨heven, heq⟩ | ⟨m, hm0, hodd, hab, heq⟩
  · left
    rw [VectorHeap.getMaxIndex_eq, heq]
    refine ⟨rfl, fun r => ?_⟩
    rcases eq_or_ne r (-1) with hr | hr
    · subst hr
      rw [List.count_eq_zero.mpr (fun hmem => by have := hge _ hmem; omega)]
    · exact heven r hr
  · right
    rw [VectorHeap.getMaxIndex_eq, heq]
    refine ⟨by simpa using (by omega : m ≠ -1), hodd, hab, fun r => ?_⟩
    rw [VectorHeap.col_setCol_self _ _ _ hidx, heapPush_count, count_filter_lt]
    rcases lt_trichotomy r m with h | h | h
    · rw [if_pos h, if_neg (by omega)]
      omega
    · subst h
      rw [if_neg (by omega), if_pos rfl]
      omega
    · rw [if_neg (by omega), if_neg (by omega)]
      have := hab r h
      omega

/-- C5 witness: the characterization applied to the single-column matrix
`[[5, 3, 3, 2]]` (pivot 5; entries 3 cancel pairwise, 2 survives). -/
theorem rivet_c5_witness :
    ((VectorHeap.getMaxIndex ⟨[[5, 3, 3, 2]], [0]⟩ 0).1 = -1 ∧
      ∀ r : Int, ((VectorHeap.col ⟨[[5, 3, 3, 2]], [0]⟩ 0).count r) % 2 = 0) ∨
    ((VectorHeap.getMaxIndex ⟨[[5, 3, 3, 2]], [0]⟩ 0).1 ≠ -1 ∧
      ((VectorHeap.col ⟨[[5, 3, 3, 2]], [0]⟩ 0).count
        ((VectorHeap.getMaxIndex ⟨[[5, 3, 3, 2]], [0]⟩ 0).1)) % 2 = 1 ∧
      (∀ r : Int, (VectorHeap.getMaxIndex ⟨[[5, 3, 3, 2]], [0]⟩ 0).1 < r →
        ((VectorHeap.col ⟨[[5, 3, 3, 2]], [0]⟩ 0).count r) % 2 = 0) ∧
      (∀ r : Int,
        (((VectorHeap.getMaxIndex ⟨[[5, 3, 3, 2]], [0]⟩ 0).2).col 0).count r % 2 =
        ((VectorHeap.col ⟨[[5, 3, 3, 2]], [0]⟩ 0).count r) % 2)) :=
  rivet_c5 ⟨[[5, 3, 3, 2]], [0]⟩ 0 (by decide) (by decide) (by decide)

/-- C8: the scenario S4 column build — `set_entry(5,0); set_entry(3,0);
set_entry(5,0); heapify_col(0); finalize(0)` — yields
`pivot_finalized(0) = 3`: the two entries 5 cancel mod 2. -/
theorem rivet_c8 :
    ((((((VectorHeap.setNumCols 1).setEntry 5 0).setEntry 3 0).setEntry 5 0).heapifyCol
      0).finalizeCol 0).getMaxIndexFinalized 0 = 3 := by
  decide

/-- C6: if two distinct columns of a lazy-heap matrix have the same pivot
`p ≠ -1`, then after `add_to(src, tgt)` the pivot of `tgt` is strictly
below `p` (possibly `-1`). -/
theorem rivet_c6 (M : VectorHeap) (src tgt : Nat) (p : Int)
    (hne : src ≠ tgt) (hsrcb : src < M.numCols) (htgtb : tgt < M.numCols)
    (hssort : ColSorted (M.col src)) (htsort : ColSorted (M.col tgt))
    (hsge : ∀ x ∈ M.col src, 0 ≤ x) (htge : ∀ x ∈ M.col tgt, 0 ≤ x)
    (hp : p ≠ -1)
    (hpivs : (M.getMaxIndex src).1 = p) (hpivt : (M.getMaxIndex tgt).1 = p) :
    ((M.addTo src tgt).getMaxIndex tgt).1 < p := by
  have hsge1 : ∀ x ∈ M.col src, -1 ≤ x := fun x hx => by have := hsge x hx; omega
  have htge1 : ∀ x ∈ M.col tgt, -1 ≤ x := fun x hx => by have := htge x hx; omega
  -- characterize the two pivots
  have hsrc := popMaxIndex_spec (M.col src) hssort hsge1
  have htgt := popMaxIndex_spec (M.col tgt) htsort htge1
  rw [VectorHeap.getMaxIndex_eq] at hpivs hpivt
  simp only at hpivs hpivt
  rcases hsrc with ⟨_, heqs⟩ | ⟨ms, hms0, hsodd, hsab, heqs⟩
  · rw [heqs] at hpivs
    exact absurd hpivs.symm hp
  rcases htgt with ⟨_, heqt⟩ | ⟨mt, hmt0, htodd, htab, heqt⟩
  · rw [heqt] at hpivt
    exact absurd hpivt.symm hp
  rw [heqs] at hpivs
  rw [heqt] at hpivt
  simp only at hpivs hpivt
  -- the sum column has even multiplicity at and above the common pivot
  obtain ⟨hac, has, hage⟩ := addTo_col_spec M src tgt htgtb htsort htge hsge
  have hage1 : ∀ x ∈ (M.addTo src tgt).col tgt, -1 ≤ x := fun x hx => by
    have := hage x hx
    omega
  have hsum_even : ∀ r : Int, p ≤ r → ((M.addTo src tgt).col tgt).count r % 2 = 0 := by
    intro r hr
    rw [hac r]
    rcases eq_or_lt_of_le hr with h | h
    · have h1 : (M.col src).count p % 2 = 1 := by
        rw [← hpivs]
        exact hsodd
      have h2 : (M.col tgt).count p % 2 = 1 := by
        rw [← hpivt]
        exact htodd
      rw [← h]
      omega
    · have h1 := hsab r (by rw [hpivs]; exact h)
      have h2 := htab r (by rw [hpivt]; exact h)
      omega
  rw [VectorHeap.getMaxIndex_eq]
  simp only
  rcases popMaxIndex_spec ((M.addTo src tgt).col tgt) has hage1 with
    ⟨_, heq⟩ | ⟨m, hm0, hodd, _, heq⟩
  · rw [heq]
    omega
  · rw [heq]
    simp only
    by_contra hcon
    push_neg at hcon
    have := hsum_even m hcon
    omega

/-- C6 witness: columns `{7,3}` and `{7,2}` share pivot 7; after the
addition the target's pivot drops to 3. -/
theorem rivet_c6_witness :
    ((VectorHeap.addTo ⟨[[7, 3], [7, 2]], [0, 0]⟩ 0 1).getMaxIndex 1).1 < 7 :=
  rivet_c6 ⟨[[7, 3], [7, 2]], [0, 0]⟩ 0 1 7 (by decide) (by decide) (by decide)
    (by decide) (by decide) (by decide) (by decide) (by decide) (by decide) (by decide)

/-- C10 counterexample: the reachable lazy-heap column `[-1]` (the state
left behind by a pivot query on a physically empty column) has empty
logical content, yet a pivot query on it returns `-1` and leaves the store
— including the physical column vector — completely unchanged, refuting
"the physical column is not left unchanged by a pivot query on an empty
column". -/
theorem rivet_c10_cex :
    pruneCol (VectorHeap.col ⟨[[-1]], [0]⟩ 0) = [] ∧
    (VectorHeap.getMaxIndex ⟨[[-1]], [0]⟩ 0).1 = -1 ∧
    (VectorHeap.getMaxIndex ⟨[[-1]], [0]⟩ 0).2 = (⟨[[-1]], [0]⟩ : VectorHeap) := by
  decide

/-- C10 (amended): on a lazy-heap column with empty logical content, every
pivot query returns `-1` and leaves the backing vector equal to the single
sentinel entry `[-1]`; hence the first query on a sentinel-free column
physically changes it, while repeated queries are physical no-ops at the
fixed point `[-1]`. -/
theorem rivet_c10 (M : VectorHeap) (idx : Nat) (hidx : idx < M.numCols)
    (hs : ColSorted (M.col idx)) (hge : ∀ x ∈ M.col idx, -1 ≤ x)
    (hempty : ∀ r : Int, 0 ≤ r → (M.col idx).count r % 2 = 0) :
    (M.getMaxIndex idx).1 = -1 ∧
    ((M.getMaxIndex idx).2).col idx = [-1] ∧
    (((M.getMaxIndex idx).2).getMaxIndex idx).1 = -1 ∧
    ((((M.getMaxIndex idx).2).getMaxIndex idx).2).col idx = [-1] := by
  rcases popMaxIndex_spec (M.col idx) hs hge with ⟨_, heq⟩ | ⟨m, hm0, hodd, _, heq⟩
  · have h1 : M.getMaxIndex idx = (-1, M.setCol idx [-1]) := by
      rw [VectorHeap.getMaxIndex_eq, heq]
      rfl
    have hcol : (M.setCol idx [-1]).col idx = [-1] :=
      VectorHeap.col_setCol_self _ _ _ hidx
    have h2 : (M.setCol idx [-1]).getMaxIndex idx =
        (-1, (M.setCol idx [-1]).setCol idx [-1]) := by
      rw [VectorHeap.getMaxIndex_eq, hcol]
      rfl
    have hcol2 : ((M.setCol idx [-1]).setCol idx [-1]).col idx = [-1] := by
      apply VectorHeap.col_setCol_self
      rw [VectorHeap.numCols_setCol]
      exact hidx
    rw [h1]
    exact ⟨rfl, hcol, by rw [h2], by rw [h2]; exact hcol2⟩
  · exact absurd (hempty m hm0) (by omega)

/-- C10 witness: the amended statement applied to a physically empty
column. -/
theorem rivet_c10_witness :
    (VectorHeap.getMaxIndex ⟨[[]], [0]⟩ 0).1 = -1 ∧
    ((VectorHeap.getMaxIndex ⟨[[]], [0]⟩ 0).2).col 0 = [-1] ∧
    (((VectorHeap.getMaxIndex ⟨[[]], [0]⟩ 0).2).getMaxIndex 0).1 = -1 ∧
    ((((VectorHeap.getMaxIndex ⟨[[]], [0]⟩ 0).2).getMaxIndex 0).2).col 0 = [-1] :=
  rivet_c10 ⟨[[]], [0]⟩ 0 (by decide) (by decide) (by decide)
    (fun r _ => by rw [List.count_eq_zero.mpr (by simp [VectorHeap.col])])

/-! ### Claim theorems: error handling of the two stores -/

/-- C4 counterexample: `vector_heap_mod::_set_entry` performs no bounds
check whatsoever — pushing row 10 into a 3-row store succeeds and appends
the entry instead of failing with `IndexOutOfRange`. -/
theorem rivet_c4_cex :
    (((MapMatrixHeap.mk0 3 1).setEntry 10 0).store.col 0 = [10]) ∧
    (MapMatrixHeap.mk0 3 1).height < 10 := by
  decide

/-- C4 (amended): the sorted-list store's entry-level operations (`set`,
`clear`, `entry`, `add_column`, `low`) fail with `IndexOutOfRange` exactly
when a row or column index exceeds the stored dimensions, while the
lazy-heap store's `_set_entry` performs no bounds check: for any in-range
column it simply appends the row, whatever its value. -/
theorem rivet_c4 :
    (∀ (M : MMBase) (i j : Nat),
      M.setE i j = .error .indexOutOfRange ↔
        M.columns.length ≤ j ∨ M.numRows ≤ i) ∧
    (∀ (M : MMBase) (i j : Nat),
      M.clearE i j = .error .indexOutOfRange ↔
        M.columns.length ≤ j ∨ M.numRows ≤ i) ∧
    (∀ (M : MMBase) (i j : Nat),
      M.entryE i j = .error .indexOutOfRange ↔
        M.columns.length ≤ j ∨ M.numRows ≤ i) ∧
    (∀ (M : MMBase) (j k : Nat),
      M.addColumnE j k = .error .indexOutOfRange ↔
        M.columns.length ≤ j ∨ M.columns.length ≤ k) ∧
    (∀ (M : MMBase) (j : Nat),
      M.lowE j = .error .indexOutOfRange ↔ M.columns.length ≤ j) ∧
    (∀ (V : VectorHeap) (row : Int) (c : Nat), c < V.numCols →
      (V.setEntry row c).col c = V.col c ++ [row]) := by
  refine ⟨fun M i j => ?_, fun M i j => ?_, fun M i j => ?_,
    fun M j k => ?_, fun M j => ?_, fun V row c hc => ?_⟩
  · rw [MMBase.setE]
    by_cases h1 : M.columns.length ≤ j
    · simp [h1]
    · by_cases h2 : M.numRows ≤ i <;> simp [h1, h2]
  · rw [MMBase.clearE]
    by_cases h1 : M.columns.length ≤ j
    · simp [h1]
    · by_cases h2 : M.numRows ≤ i <;> simp [h1, h2]
  · rw [MMBase.entryE]
    by_cases h1 : M.columns.length ≤ j
    · simp [h1]
    · by_cases h2 : M.numRows ≤ i <;> simp [h1, h2]
  · rw [MMBase.addColumnE]
    by_cases h1 : M.columns.length ≤ j ∨ M.columns.length ≤ k
    · simp [h1]
    · by_cases h2 : j = k <;> simp [h1, h2]
  · rw [MMBase.lowE]
    by_cases h1 : M.columns.length ≤ j <;> simp [h1]
  · exact VectorHeap.col_setCol_self _ _ _ hc

/-- C4 witness: the set operation rejects row 5 of a 2-row matrix, and the
heap store appends row 10 to an in-range column without complaint. -/
theorem rivet_c4_witness :
    (⟨2, [[]]⟩ : MMBase).setE 5 0 = .error .indexOutOfRange ∧
    (VectorHeap.setEntry ⟨[[3]], [0]⟩ 10 0).col 0 = [3, 10] :=
  ⟨(rivet_c4.1 ⟨2, [[]]⟩ 5 0).mpr (Or.inr (by decide)),
    by rw [rivet_c4.2.2.2.2.2 ⟨[[3]], [0]⟩ 10 0 (by decide)]; rfl⟩

/-! ### Claim theorems: the sorted-list store -/

/-- `MapMatrix_Base::set` leaves a strictly descending column unchanged when
the row is already present. -/
theorem insertNode_of_mem (i : Nat) (c : NodeCol)
    (hfin : c.Pairwise (fun a b => b < a)) (hmem : entryWalk i c = true) :
    insertNode i c = c := by
  induction c with
  | nil => simp [entryWalk] at hmem
  | cons r rest ih =>
    rw [entryWalk] at hmem
    by_cases h1 : r < i
    · rw [if_pos h1] at hmem
      exact absurd hmem (by simp)
    · rw [if_neg h1] at hmem
      by_cases h2 : r = i
      · rw [insertNode, if_pos h2]
      · rw [if_neg h2] at hmem
        rw [insertNode, if_neg h2, if_neg h1,
          ih (List.pairwise_cons.mp hfin).2 hmem]

/-- C9: on a sorted-list matrix, an in-bounds `set(i, j)` whose entry is
already 1 succeeds and leaves the matrix completely unchanged — `set` is
idempotent and never creates a duplicate node, even though the caller
contract says the entry must not already be present. -/
theorem rivet_c9 (M : MMBase) (i j : Nat)
    (hj : j < M.columns.length) (hi : i < M.numRows)
    (hfin : (M.columns.getD j []).Pairwise (fun a b => b < a))
    (hmem : entryWalk i (M.columns.getD j []) = true) :
    M.setE i j = .ok M := by
  rw [MMBase.setE, if_neg (by omega), if_neg (by omega),
    insertNode_of_mem i _ hfin hmem, set_getD_self _ _ _ hj]

/-- C9 witness: setting the already-present entry (0, 0) of the column
`{0, 1}` returns the matrix unchanged. -/
theorem rivet_c9_witness :
    (⟨2, [[1, 0]]⟩ : MMBase).setE 0 0 = .ok (⟨2, [[1, 0]]⟩ : MMBase) :=
  rivet_c9 ⟨2, [[1, 0]]⟩ 0 0 (by decide) (by decide) (by decide) (by decide)

/-! ### Claim theorems: scenario S2 and the kernel -/

/-- C2 counterexample: on the S2 input the kernel does not have exactly one
column — the third input column is zero, so `e2` is a kernel generator too
and the returned kernel has width 2. -/
theorem rivet_c2_cex : (exS2.kernel).mat.width ≠ 1 := by
  decide

/-- C2 (amended): on the S2 input `M = [[1,1,0],[1,1,0],[0,0,0]]` (all
columns at bigrade `(0,0)`), `M.kernel()` returns exactly two columns — the
first equal to `(1,1,0)` and the second equal to `(0,0,1)` — and
`ker.ind[0][0] = 1`. -/
theorem rivet_c2 :
    (exS2.kernel).mat.width = 2 ∧
    heapEntry (exS2.kernel).mat 0 0 = 1 ∧
    heapEntry (exS2.kernel).mat 1 0 = 1 ∧
    heapEntry (exS2.kernel).mat 2 0 = 0 ∧
    heapEntry (exS2.kernel).mat 0 1 = 0 ∧
    heapEntry (exS2.kernel).mat 1 1 = 0 ∧
    heapEntry (exS2.kernel).mat 2 1 = 1 ∧
    (exS2.kernel).ind.get 0 0 = 1 := by
  decide

/-! ### Claim theorems: permutation consistency -/

/-- One `swap_rows` step preserves the permutation-pair invariant of
`MapMatrix_Perm`. -/
theorem swapRows_invariant (M : MMPerm) (rows : Nat) (s : Nat)
    (hs : s + 1 < rows)
    (hpl : M.perm.length = rows) (hml : M.mrep.length = rows)
    (hmb : ∀ i, i < rows → M.mrep.getD i 0 < rows)
    (hinv : ∀ i, i < rows → M.perm.getD (M.mrep.getD i 0) 0 = i) :
    (M.swapRows s).perm.length = rows ∧ (M.swapRows s).mrep.length = rows ∧
    (∀ i, i < rows → (M.swapRows s).mrep.getD i 0 < rows) ∧
    (∀ i, i < rows → (M.swapRows s).perm.getD ((M.swapRows s).mrep.getD i 0) 0 = i) := by
  have hinj : ∀ i i', i < rows → i' < rows →
      M.mrep.getD i 0 = M.mrep.getD i' 0 → i = i' := by
    intro i i' hi hi' h
    have h1 := hinv i hi
    have h2 := hinv i' hi'
    rw [h] at h1
    omega
  set a := M.mrep.getD s 0 with hadef
  set b := M.mrep.getD (s + 1) 0 with hbdef
  have ha : a < rows := hmb s (by omega)
  have hb : b < rows := hmb (s + 1) hs
  have hab : a ≠ b := by
    intro h
    have := hinj s (s + 1) (by omega) hs h
    omega
  have hswap : M.swapRows s =
      { M with
        perm := (M.perm.set a (M.perm.getD b 0)).set b (M.perm.getD a 0)
        mrep := (M.mrep.set s b).set (s + 1) a } := rfl
  rw [hswap]
  have hpl2 : ((M.perm.set a (M.perm.getD b 0)).set b (M.perm.getD a 0)).length = rows := by
    simp [hpl]
  have hml2 : ((M.mrep.set s b).set (s + 1) a).length = rows := by
    simp [hml]
  have hpb : ((M.perm.set a (M.perm.getD b 0)).set b (M.perm.getD a 0)).getD b 0 =
      M.perm.getD a 0 := by
    apply getD_set_self
    simp [hpl]
    omega
  have hpa : ((M.perm.set a (M.perm.getD b 0)).set b (M.perm.getD a 0)).getD a 0 =
      M.perm.getD b 0 := by
    rw [getD_set_ne _ _ _ _ _ hab]
    apply getD_set_self
    simp [hpl]
    omega
  have hpother : ∀ x, x ≠ a → x ≠ b →
      ((M.perm.set a (M.perm.getD b 0)).set b (M.perm.getD a 0)).getD x 0 =
      M.perm.getD x 0 := by
    intro x hxa hxb
    rw [getD_set_ne _ _ _ _ _ hxb, getD_set_ne _ _ _ _ _ hxa]
  have hms : ((M.mrep.set s b).set (s + 1) a).getD s 0 = b := by
    rw [getD_set_ne _ _ _ _ _ (by omega)]
    apply getD_set_self
    simp [hml]
    omega
  have hms1 : ((M.mrep.set s b).set (s + 1) a).getD (s + 1) 0 = a := by
    apply getD_set_self
    simp [hml]
    omega
  have hmother : ∀ i, i ≠ s → i ≠ s + 1 →
      ((M.mrep.set s b).set (s + 1) a).getD i 0 = M.mrep.getD i 0 := by
    intro i h1 h2
    rw [getD_set_ne _ _ _ _ _ h2, getD_set_ne _ _ _ _ _ h1]
  refine ⟨hpl2, hml2, fun i hi => ?_, fun i hi => ?_⟩
  · rcases eq_or_ne i s with h | h
    · rw [h, hms]
      exact hb
    · rcases eq_or_ne i (s + 1) with h' | h'
      · rw [h', hms1]
        exact ha
      · rw [hmother i h h']
        exact hmb i hi
  · rcases eq_or_ne i s with h | h
    · rw [h, hms, hpb, hadef, hinv s (by omega)]
    · rcases eq_or_ne i (s + 1) with h' | h'
      · rw [h', hms1, hpa, hbdef, hinv (s + 1) hs]
      · rw [hmother i h h']
        have hxa : M.mrep.getD i 0 ≠ a := fun hcon => h (hinj i s hi (by omega) hcon)
        have hxb : M.mrep.getD i 0 ≠ b := fun hcon => h' (hinj i (s + 1) hi hs hcon)
        rw [hpother _ hxa hxb]
        exact hinv i hi

/-- The permutation-pair invariant survives any valid sequence of
`swap_rows` operations. -/
theorem applySwaps_invariant (rows : Nat) (ops : List Nat)
    (hops : ∀ s ∈ ops, s + 1 < rows) :
    ∀ M : MMPerm, M.perm.length = rows → M.mrep.length = rows →
      (∀ i, i < rows → M.mrep.getD i 0 < rows) →
      (∀ i, i < rows → M.perm.getD (M.mrep.getD i 0) 0 = i) →
      (applySwaps M ops).perm.length = rows ∧
      (applySwaps M ops).mrep.length = rows ∧
      (∀ i, i < rows → (applySwaps M ops).mrep.getD i 0 < rows) ∧
      (∀ i, i < rows →
        (applySwaps M ops).perm.getD ((applySwaps M ops).mrep.getD i 0) 0 = i) := by
  induction ops with
  | nil => exact fun M h1 h2 h3 h4 => ⟨h1, h2, h3, h4⟩
  | cons s rest ih =>
    intro M h1 h2 h3 h4
    obtain ⟨g1, g2, g3, g4⟩ := swapRows_invariant M rows s (hops s (by simp)) h1 h2 h3 h4
    exact ih (fun x hx => hops x (by simp [hx])) (M.swapRows s) g1 g2 g3 g4

/-- C7: starting from the identity permutation, after any finite sequence of
valid `swap_rows` operations the `MapMatrix_Perm` invariant
`perm[mrep[i]] = i` holds for every row index `i`. -/
theorem rivet_c7 (rows cols : Nat) (ops : List Nat)
    (hops : ∀ s ∈ ops, s + 1 < rows) :
    ∀ i, i < rows →
      (applySwaps (MMPerm.mk0 rows cols) ops).perm.getD
        ((applySwaps (MMPerm.mk0 rows cols) ops).mrep.getD i 0) 0 = i := by
  have hrange : ∀ i, i < rows → (List.range rows).getD i 0 = i := by
    intro i hi
    rw [List.getD_eq_getElem?_getD, List.getElem?_range hi]
    rfl
  exact (applySwaps_invariant rows ops hops (MMPerm.mk0 rows cols)
    (by simp [MMPerm.mk0]) (by simp [MMPerm.mk0])
    (fun i hi => by simp only [MMPerm.mk0]; rw [hrange i hi]; exact hi)
    (fun i hi => by simp only [MMPerm.mk0]; rw [hrange i hi, hrange i hi])).2.2.2

/-- C7 witness: a 4-row matrix after the swap sequence `[0, 2, 1]` still
satisfies `perm[mrep[2]] = 2`. -/
theorem rivet_c7_witness :
    (applySwaps (MMPerm.mk0 4 2) [0, 2, 1]).perm.getD
      ((applySwaps (MMPerm.mk0 4 2) [0, 2, 1]).mrep.getD 2 0) 0 = 2 :=
  rivet_c7 4 2 [0, 2, 1] (by decide) 2 (by decide)

/-! ### The mod-2 merge of strictly descending columns -/

theorem nodeSorted_head_lt {x : Nat} {l : NodeCol}
    (h : (x :: l).Pairwise (fun a b => b < a)) : ∀ y ∈ l, y < x :=
  (List.pairwise_cons.mp h).1

theorem nodeSorted_head_notMem {x : Nat} {l : NodeCol}
    (h : (x :: l).Pairwise (fun a b => b < a)) : x ∉ l :=
  fun hmem => lt_irrefl x (nodeSorted_head_lt h x hmem)

/-- The single-node walk toggles membership of `j` and keeps the chain
strictly descending. -/
theorem addOneNode_spec (j : Nat) (t : NodeCol)
    (ht : t.Pairwise (fun a b => b < a)) :
    (addOneNode j t).Pairwise (fun a b => b < a) ∧
    (∀ x : Nat, x ∈ addOneNode j t ↔ ((x = j ∧ x ∉ t) ∨ (x ≠ j ∧ x ∈ t))) := by
  induction t with
  | nil =>
    refine ⟨List.pairwise_singleton _ _, fun x => ?_⟩
    simp [addOneNode]
  | cons a ks ih =>
    have hks : ks.Pairwise (fun a b => b < a) := (List.pairwise_cons.mp ht).2
    have halt : ∀ y ∈ ks, y < a := nodeSorted_head_lt ht
    obtain ⟨ihs, ihm⟩ := ih hks
    rcases lt_trichotomy a j with haj | haj | haj
    · -- a < j : j goes in front
      have hrun : addOneNode j (a :: ks) = j :: a :: ks := by
        rw [addOneNode, if_neg (by omega), if_pos haj]
      rw [hrun]
      have hnot : j ∉ a :: ks := by
        intro hmem
        rcases List.mem_cons.mp hmem with h | h
        · omega
        · have := halt j h
          omega
      refine ⟨List.pairwise_cons.mpr ⟨fun y hy => ?_, ht⟩, fun x => ?_⟩
      · rcases List.mem_cons.mp hy with h | h
        · omega
        · have := halt y h
          omega
      · constructor
        · intro hx
          rcases List.mem_cons.mp hx with h | h
          · exact Or.inl ⟨h, by rw [h]; exact hnot⟩
          · by_cases hxj : x = j
            · exact Or.inl ⟨hxj, by rw [hxj]; exact hnot⟩
            · exact Or.inr ⟨hxj, h⟩
        · rintro (⟨h1, _⟩ | ⟨_, h2⟩)
          · rw [h1]
            exact List.mem_cons_self _ _
          · exact List.mem_cons_of_mem _ h2
    · -- a = j : the head cancels
      have hrun : addOneNode j (a :: ks) = ks := by
        rw [addOneNode, if_pos haj]
      rw [hrun]
      have hjnot : j ∉ ks := by
        rw [← haj]
        exact nodeSorted_head_notMem ht
      refine ⟨hks, fun x => ?_⟩
      constructor
      · intro hx
        refine Or.inr ⟨fun hxj => hjnot (hxj ▸ hx), List.mem_cons_of_mem _ hx⟩
      · rintro (⟨h1, h2⟩ | ⟨h1, h2⟩)
        · exact absurd (by rw [h1, ← haj]; exact List.mem_cons_self a ks) h2
        · rcases List.mem_cons.mp h2 with h | h
          · exact absurd (h.trans haj) h1
          · exact h
    · -- j < a : keep the head, recurse
      have hrun : addOneNode j (a :: ks) = a :: addOneNode j ks := by
        rw [addOneNode, if_neg (by omega), if_neg (by omega)]
      rw [hrun]
      refine ⟨List.pairwise_cons.mpr ⟨fun y hy => ?_, ihs⟩, fun x => ?_⟩
      · rcases ((ihm y).mp hy) with ⟨h1, _⟩ | ⟨_, h2⟩
        · omega
        · exact halt y h2
      · constructor
        · intro hx
          rcases List.mem_cons.mp hx with h | h
          · exact Or.inr ⟨by omega, by rw [h]; exact List.mem_cons_self a ks⟩
          · rcases (ihm x).mp h with ⟨h1, h2⟩ | ⟨h1, h2⟩
            · exact Or.inl ⟨h1, fun hc => by
                rcases List.mem_cons.mp hc with hc | hc
                · omega
                · exact h2 hc⟩
            · exact Or.inr ⟨h1, List.mem_cons_of_mem _ h2⟩
        · rintro (⟨h1, h2⟩ | ⟨h1, h2⟩)
          · refine List.mem_cons_of_mem _ ((ihm x).mpr (Or.inl ⟨h1, ?_⟩))
            intro hc
            exact h2 (List.mem_cons_of_mem _ hc)
          · rcases List.mem_cons.mp h2 with h | h
            · rw [h]
              exact List.mem_cons_self _ _
            · exact List.mem_cons_of_mem _ ((ihm x).mpr (Or.inr ⟨h1, h⟩))

/-- The structural merge of `MapMatrix_Base::add_column` computes the mod-2
sum: on strictly descending chains, it returns a strictly descending chain
whose members are exactly the rows present in exactly one input. -/
theorem addColMerge_spec : ∀ (s t : NodeCol),
    s.Pairwise (fun a b => b < a) → t.Pairwise (fun a b => b < a) →
    (addColMerge s t).Pairwise (fun a b => b < a) ∧
    (∀ x : Nat, x ∈ addColMerge s t ↔ ((x ∈ s ∧ x ∉ t) ∨ (x ∉ s ∧ x ∈ t))) := by
  intro s
  induction s with
  | nil =>
    intro t _ ht
    rw [show addColMerge [] t = t from rfl]
    exact ⟨ht, fun x => by simp⟩
  | cons j js ih =>
    intro t hs ht
    have hjs : js.Pairwise (fun a b => b < a) := (List.pairwise_cons.mp hs).2
    have hjnot : j ∉ js := nodeSorted_head_notMem hs
    obtain ⟨h1s, h1m⟩ := addOneNode_spec j t ht
    obtain ⟨ihs, ihm⟩ := ih (addOneNode j t) hjs h1s
    rw [show addColMerge (j :: js) t = addColMerge js (addOneNode j t) from rfl]
    refine ⟨ihs, fun x => ?_⟩
    rw [ihm x]
    constructor
    · rintro (⟨ha, hb⟩ | ⟨ha, hb⟩)
      · -- x ∈ js, x ∉ addOneNode j t : x ≠ j, and x ∈ t would force x ∈ addOne
        have hxj : x ≠ j := fun hc => hjnot (hc ▸ ha)
        refine Or.inl ⟨List.mem_cons_of_mem _ ha, fun hc => hb ((h1m x).mpr (Or.inr ⟨hxj, hc⟩))⟩
      · rcases (h1m x).mp hb with ⟨hc, hd⟩ | ⟨hc, hd⟩
        · exact Or.inl ⟨by rw [hc]; exact List.mem_cons_self _ _, hd⟩
        · refine Or.inr ⟨fun hmem => ?_, hd⟩
          rcases List.mem_cons.mp hmem with h | h
          · exact hc h
          · exact ha h
    · rintro (⟨ha, hb⟩ | ⟨ha, hb⟩)
      · rcases List.mem_cons.mp ha with h | h
        · exact Or.inr ⟨fun hc => hjnot (h ▸ hc), (h1m x).mpr (Or.inl ⟨h, hb⟩)⟩
        · have hxj : x ≠ j := fun hc => hjnot (hc ▸ h)
          exact Or.inl ⟨h, fun hc => by
            rcases (h1m x).mp hc with ⟨hd, _⟩ | ⟨_, hd⟩
            · exact hxj hd
            · exact hb hd⟩
      · have hxj : x ≠ j := fun hc => ha (by rw [hc]; exact List.mem_cons_self _ _)
        have hxjs : x ∉ js := fun hc => ha (List.mem_cons_of_mem _ hc)
        exact Or.inr ⟨hxjs, (h1m x).mpr (Or.inr ⟨hxj, hb⟩)⟩

/-- Mod-2 reading of the merge: indicators add. -/
theorem addColMerge_indicator (s t : NodeCol)
    (hs : s.Pairwise (fun a b => b < a)) (ht : t.Pairwise (fun a b => b < a))
    (x : Nat) :
    (if x ∈ addColMerge s t then (1 : ZMod 2) else 0) =
    (if x ∈ s then (1 : ZMod 2) else 0) + (if x ∈ t then (1 : ZMod 2) else 0) := by
  obtain ⟨_, hmem⟩ := addColMerge_spec s t hs ht
  by_cases h1 : x ∈ s <;> by_cases h2 : x ∈ t
  · rw [if_pos h1, if_pos h2, if_neg (fun hc => by
      rcases (hmem x).mp hc with ⟨_, h⟩ | ⟨h, _⟩ <;> exact h (by assumption))]
    decide
  · rw [if_pos h1, if_neg h2, if_pos ((hmem x).mpr (Or.inl ⟨h1, h2⟩))]
    decide
  · rw [if_neg h1, if_pos h2, if_pos ((hmem x).mpr (Or.inr ⟨h1, h2⟩))]
    decide
  · rw [if_neg h1, if_neg h2, if_neg (fun hc => by
      rcases (hmem x).mp hc with ⟨h, _⟩ | ⟨_, h⟩ <;> exact absurd h (by assumption))]
    decide

/-! ### The RU-decomposition invariant -/

/-- One paired operation — add matrix column `c` to column `j`, add row `j`
to row `c` of `U` — preserves the product, because the two elementary
factors cancel in characteristic 2. -/
theorem mulFun_pair_step (n : Nat) (A B : Nat → Nat → ZMod 2) (c j : Nat)
    (hcj : c ≠ j) (hc : c < n) (hj : j < n) (i j' : Nat) :
    (∑ k ∈ Finset.range n, (A i k + if k = j then A i c else 0) *
      (B k j' + if k = c then B j j' else 0)) =
    ∑ k ∈ Finset.range n, A i k * B k j' := by
  have hexp : ∀ k ∈ Finset.range n,
      (A i k + if k = j then A i c else 0) * (B k j' + if k = c then B j j' else 0) =
      A i k * B k j' + ((if k = j then A i c * B k j' else 0) +
        (if k = c then A i k * B j j' else 0)) := by
    intro k _
    by_cases h1 : k = j <;> by_cases h2 : k = c
    · exact absurd (h2.symm.trans h1) hcj
    · rw [if_pos h1, if_neg h2, if_pos h1, if_neg h2]
      ring
    · rw [if_neg h1, if_pos h2, if_neg h1, if_pos h2]
      ring
    · rw [if_neg h1, if_neg h2, if_neg h1, if_neg h2]
      ring
  rw [Finset.sum_congr rfl hexp, Finset.sum_add_distrib, Finset.sum_add_distrib]
  have h2 : (∑ k ∈ Finset.range n, if k = j then A i c * B k j' else 0) =
      A i c * B j j' := by
    rw [Finset.sum_ite_eq' (Finset.range n) j (fun k => A i c * B k j'),
      if_pos (Finset.mem_range.mpr hj)]
  have h3 : (∑ k ∈ Finset.range n, if k = c then A i k * B j j' else 0) =
      A i c * B j j' := by
    rw [Finset.sum_ite_eq' (Finset.range n) c (fun k => A i k * B j j'),
      if_pos (Finset.mem_range.mpr hc)]
  rw [h2, h3, CharTwo.add_self_eq_zero, add_zero]

/-- The paired column/row operation of the RU loop preserves the matrix
product clause of the invariant. -/
theorem mul_clause_step (n : Nat) (Mcols Ucols : List NodeCol) (c j : Nat)
    (hcj : c ≠ j) (hc : c < n) (hj : j < n)
    (hlenM : Mcols.length = n) (hlenU : Ucols.length = n)
    (hsM : ∀ k, (Mcols.getD k []).Pairwise (fun a b => b < a))
    (hsU : ∀ k, (Ucols.getD k []).Pairwise (fun a b => b < a))
    (i j' : Nat) :
    mulFun
      (fun a k => nodeEntry (Mcols.set j (addColMerge (Mcols.getD c []) (Mcols.getD j []))) a k)
      (fun k b => nodeEntry (Ucols.set c (addColMerge (Ucols.getD j []) (Ucols.getD c []))) b k)
      n i j' =
    mulFun (fun a k => nodeEntry Mcols a k) (fun k b => nodeEntry Ucols b k) n i j' := by
  have hA : ∀ k, k < n →
      nodeEntry (Mcols.set j (addColMerge (Mcols.getD c []) (Mcols.getD j []))) i k =
      nodeEntry Mcols i k + (if k = j then nodeEntry Mcols i c else 0) := by
    intro k hk
    by_cases h : k = j
    · subst h
      rw [if_pos rfl, nodeEntry, getD_set_self _ _ _ _ (by omega),
        addColMerge_indicator _ _ (hsM c) (hsM k) i, nodeEntry, nodeEntry, add_comm]
    · rw [if_neg h, add_zero, nodeEntry, nodeEntry, getD_set_ne _ _ _ _ _ h]
  have hB : ∀ k, k < n →
      nodeEntry (Ucols.set c (addColMerge (Ucols.getD j []) (Ucols.getD c []))) j' k =
      nodeEntry Ucols j' k + (if k = c then nodeEntry Ucols j' j else 0) := by
    intro k hk
    by_cases h : k = c
    · subst h
      rw [if_pos rfl, nodeEntry, getD_set_self _ _ _ _ (by omega),
        addColMerge_indicator _ _ (hsU j) (hsU k) j', nodeEntry, nodeEntry, add_comm]
    · rw [if_neg h, add_zero, nodeEntry, nodeEntry, getD_set_ne _ _ _ _ _ h]
  rw [mulFun, mulFun,
    Finset.sum_congr rfl (fun k hk => by
      rw [hA k (Finset.mem_range.mp hk), hB k (Finset.mem_range.mp hk)])]
  exact mulFun_pair_step n (fun a k => nodeEntry Mcols a k)
    (fun k b => nodeEntry Ucols b k) c j hcj hc hj i j'

/-- Zeta-reduced unfolding of the successor case of `ruWhile`. -/
theorem ruWhile_succ (fuel : Nat) (M : MMPerm) (U : MMRowPri) (j : Nat) :
    ruWhile (fuel + 1) M U j =
      if 0 ≤ M.low j ∧ 0 ≤ M.lowCol.getD (M.low j).toNat (-1) then
        ruWhile fuel
          { M with
            columns := M.columns.set j
              (addColMerge
                (M.columns.getD ((M.lowCol.getD (M.low j).toNat (-1)).toNat) [])
                (M.columns.getD j [])) }
          (U.addRow j ((M.lowCol.getD (M.low j).toNat (-1)).toNat)) j
      else (M, U) := rfl

/-- Zeta-reduced unfolding of `ruColumn`. -/
theorem ruColumn_eq (M : MMPerm) (U : MMRowPri) (j : Nat) :
    ruColumn M U j =
      if 0 ≤ (ruWhile (M.numRows + 2) M U j).1.low j then
        ({ (ruWhile (M.numRows + 2) M U j).1 with
            lowCol := (ruWhile (M.numRows + 2) M U j).1.lowCol.set
              ((ruWhile (M.numRows + 2) M U j).1.low j).toNat (j : Int) },
          (ruWhile (M.numRows + 2) M U j).2)
      else ruWhile (M.numRows + 2) M U j := rfl

/-- The collision loop of `decompose_RU` preserves the invariant and leaves
`low_col` untouched. -/
theorem ruWhile_inv (M0 : MMPerm) (n : Nat) : ∀ (fuel : Nat) (M : MMPerm)
    (U : MMRowPri) (j : Nat), j < n → RuInv M0 n j M U →
    RuInv M0 n j (ruWhile fuel M U j).1 (ruWhile fuel M U j).2 ∧
    (ruWhile fuel M U j).1.lowCol = M.lowCol := by
  intro fuel
  induction fuel with
  | zero => exact fun M U j hj hinv => ⟨hinv, rfl⟩
  | succ fuel ih =>
    intro M U j hj hinv
    obtain ⟨hlM, hlU, hsM, hsU, hlow, hmul, hperm, hmrep, hrows⟩ := hinv
    rw [ruWhile_succ]
    by_cases hcond : 0 ≤ M.low j ∧ 0 ≤ M.lowCol.getD (M.low j).toNat (-1)
    · rw [if_pos hcond]
      set c := (M.lowCol.getD (M.low j).toNat (-1)).toNat with hcdef
      have hcj : c < j := by
        rcases hlow (M.low j).toNat with h | ⟨h1, h2⟩
        · rw [hcdef, h]
          omega
        · omega
      have hc : c < n := by omega
      set M' : MMPerm := { M with
        columns := M.columns.set j
          (addColMerge (M.columns.getD c []) (M.columns.getD j [])) } with hM'
      set U' := U.addRow j c with hU'
      have hlowCol' : M'.lowCol = M.lowCol := rfl
      have hinv' : RuInv M0 n j M' U' := by
        refine ⟨by rw [hM']; simpa using hlM,
          by rw [hU', MMRowPri.addRow]; simpa using hlU, ?_, ?_,
          fun l => hlow l, ?_, hperm, hmrep, hrows⟩
        · intro k
          rw [hM']
          show ((M.columns.set j
            (addColMerge (M.columns.getD c []) (M.columns.getD j []))).getD k
              []).Pairwise _
          by_cases h : k = j
          · subst h
            rw [getD_set_self _ _ _ _ (by omega)]
            exact (addColMerge_spec _ _ (hsM c) (hsM k)).1
          · rw [getD_set_ne _ _ _ _ _ h]
            exact hsM k
        · intro k
          rw [hU', MMRowPri.addRow]
          show ((U.columns.set c
            (addColMerge (U.columns.getD j []) (U.columns.getD c []))).getD k
              []).Pairwise _
          by_cases h : k = c
          · subst h
            rw [getD_set_self _ _ _ _ (by omega)]
            exact (addColMerge_spec _ _ (hsU j) (hsU c)).1
          · rw [getD_set_ne _ _ _ _ _ h]
            exact hsU k
        · intro i j'
          rw [hmul i j']
          exact (mul_clause_step n M.columns U.columns c j (by omega) hc hj
            hlM hlU hsM hsU i j').symm
      obtain ⟨g1, g2⟩ := ih M' U' j hj hinv'
      exact ⟨g1, by rw [g2, hlowCol']⟩
    · rw [if_neg hcond]
      exact ⟨⟨hlM, hlU, hsM, hsU, hlow, hmul, hperm, hmrep, hrows⟩, rfl⟩

/-- One column step of `decompose_RU` moves the invariant bound from `j` to
`j + 1`. -/
theorem ruColumn_inv (M0 : MMPerm) (n : Nat) (M : MMPerm) (U : MMRowPri)
    (j : Nat) (hj : j < n) (hinv : RuInv M0 n j M U) :
    RuInv M0 n (j + 1) (ruColumn M U j).1 (ruColumn M U j).2 := by
  obtain ⟨⟨hlM, hlU, hsM, hsU, hlow, hmul, hperm, hmrep, hrows⟩, hlc⟩ :=
    ruWhile_inv M0 n (M.numRows + 2) M U j hj hinv
  rw [ruColumn_eq]
  by_cases hcond : 0 ≤ (ruWhile (M.numRows + 2) M U j).1.low j
  · rw [if_pos hcond]
    refine ⟨hlM, hlU, hsM, hsU, fun l => ?_, hmul, hperm, hmrep, hrows⟩
    by_cases h : l = ((ruWhile (M.numRows + 2) M U j).1.low j).toNat
    · subst h
      by_cases hlen : ((ruWhile (M.numRows + 2) M U j).1.low j).toNat <
          (ruWhile (M.numRows + 2) M U j).1.lowCol.length
      · right
        rw [getD_set_self _ _ _ _ hlen]
        constructor
        · exact Int.ofNat_nonneg j
        · exact_mod_cast Nat.lt_succ_self j
      · left
        have hset : (ruWhile (M.numRows + 2) M U j).1.lowCol.set
            ((ruWhile (M.numRows + 2) M U j).1.low j).toNat (j : Int) =
            (ruWhile (M.numRows + 2) M U j).1.lowCol :=
          List.set_eq_of_length_le (by omega)
        have hgd : (ruWhile (M.numRows + 2) M U j).1.lowCol.getD
            ((ruWhile (M.numRows + 2) M U j).1.low j).toNat (-1) = -1 :=
          List.getD_eq_default _ _ (by omega)
        rw [hset]
        exact hgd
    · rw [getD_set_ne _ _ _ _ _ h]
      rcases hlow l with hl | ⟨hl1, hl2⟩
      · exact Or.inl hl
      · refine Or.inr ⟨hl1, ?_⟩
        have : ((j : Int)) < ((j : Nat) + 1 : Nat) := by exact_mod_cast Nat.lt_succ_self j
        omega
  · rw [if_neg hcond]
    refine ⟨hlM, hlU, hsM, hsU, fun l => ?_, hmul, hperm, hmrep, hrows⟩
    rcases hlow l with hl | ⟨hl1, hl2⟩
    · exact Or.inl hl
    · refine Or.inr ⟨hl1, by omega⟩

theorem identityCols_getD (n k : Nat) :
    ((List.range n).map (fun i => [i])).getD k [] =
      if k < n then [k] else [] := by
  by_cases h : k < n
  · rw [if_pos h, List.getD_eq_getElem?_getD, List.getElem?_map,
      List.getElem?_range h]
    rfl
  · rw [if_neg h, List.getD_eq_default]
    simp
    omega

/-- The invariant holds at the start of `decompose_RU`: the accumulated `U`
is the identity. -/
theorem ruInv_init (M : MMPerm)
    (hstrict : ∀ k, (M.columns.getD k []).Pairwise (fun a b => b < a))
    (hfresh : ∀ l : Nat, M.lowCol.getD l (-1) = -1) :
    RuInv M M.columns.length 0 M (MMRowPri.identity M.columns.length) := by
  set n := M.columns.length with hn
  refine ⟨rfl, by simp [MMRowPri.identity], hstrict, ?_, fun l => Or.inl (hfresh l),
    ?_, rfl, rfl, rfl⟩
  · intro k
    show (((List.range n).map (fun i => [i])).getD k []).Pairwise _
    rw [identityCols_getD]
    by_cases h : k < n
    · rw [if_pos h]
      exact List.pairwise_singleton _ _
    · rw [if_neg h]
      exact List.Pairwise.nil
  · intro i j'
    rw [mulFun]
    have hterm : ∀ k ∈ Finset.range n,
        nodeEntry M.columns i k *
          nodeEntry (MMRowPri.identity n).columns j' k =
        if k = j' then nodeEntry M.columns i k else 0 := by
      intro k hk
      have hid : (MMRowPri.identity n).columns.getD k [] = [k] := by
        show ((List.range n).map (fun i => [i])).getD k [] = [k]
        rw [identityCols_getD, if_pos (Finset.mem_range.mp hk)]
      rw [nodeEntry, nodeEntry, hid]
      by_cases h : k = j'
      · subst h
        simp
      · simp [h, Ne.symm h]
    rw [Finset.sum_congr rfl hterm, Finset.sum_ite_eq' (Finset.range n) j'
      (fun k => nodeEntry M.columns i k)]
    by_cases h : j' < n
    · rw [if_pos (Finset.mem_range.mpr h)]
    · rw [if_neg (by simp; omega), nodeEntry,
        List.getD_eq_default _ _ (by omega)]
      simp

/-- Processing the consecutive columns `start, …, start+count-1` carries the
invariant bound from `start` to `start + count`. -/
theorem ruFold_inv (M0 : MMPerm) (n : Nat) : ∀ (count start : Nat)
    (M : MMPerm) (U : MMRowPri), start + count = n → RuInv M0 n start M U →
    RuInv M0 n n
      (((List.range' start count).foldl (fun st j => ruColumn st.1 st.2 j) (M, U)).1)
      (((List.range' start count).foldl (fun st j => ruColumn st.1 st.2 j) (M, U)).2) := by
  intro count
  induction count with
  | zero => exact fun start M U hs hinv => by simpa [← hs] using hinv
  | succ c ih =>
    intro start M U hs hinv
    rw [List.range'_succ, List.foldl_cons]
    have hstep := ruColumn_inv M0 n M U start (by omega) hinv
    exact ih (start + 1) (ruColumn M U start).1 (ruColumn M U start).2 (by omega) hstep

/-- C3 counterexample: on the concrete 3×3 permuted matrix `exM3`,
`decompose_RU` performs the dependent operations `(0,1)` then `(1,2)` and
the returned pair violates `M_reduced = M · U` at entry `(0, 2)`. -/
theorem rivet_c3_cex :
    nodeEntry (decomposeRU exM3).1.columns 0 2 ≠
      mulFun (fun a k => nodeEntry exM3.columns a k)
        (fun k b => nodeEntry (decomposeRU exM3).2.columns b k) 3 0 2 := by
  decide

/-- C3 (amended): for every permuted matrix with strictly descending column
chains and a fresh `low_col` cache, `decompose_RU` reduces `M` in place to
`M_reduced` and returns a row-priority matrix `U` with
`M = M_reduced · U` (mod 2) — the product is taken in the other order than
the claim states.  The row permutation data is untouched, so the same
identity holds for the observable (permuted) entries. -/
theorem rivet_c3 (M : MMPerm)
    (hstrict : ∀ k, (M.columns.getD k []).Pairwise (fun a b => b < a))
    (hfresh : ∀ l : Nat, M.lowCol.getD l (-1) = -1) :
    (decomposeRU M).1.perm = M.perm ∧
    (decomposeRU M).1.mrep = M.mrep ∧
    (∀ i j : Nat, nodeEntry M.columns i j =
      mulFun (fun a k => nodeEntry (decomposeRU M).1.columns a k)
        (fun k b => nodeEntry (decomposeRU M).2.columns b k)
        M.columns.length i j) ∧
    (∀ i j : Nat, permEntry M i j =
      mulFun (fun a k => permEntry (decomposeRU M).1 a k)
        (fun k b => nodeEntry (decomposeRU M).2.columns b k)
        M.columns.length i j) := by
  have hrun : decomposeRU M =
      ((List.range' 0 M.columns.length).foldl (fun st j => ruColumn st.1 st.2 j)
        (M, MMRowPri.identity M.columns.length)) := by
    rw [decomposeRU, List.range_eq_range']
  obtain ⟨hlM, hlU, hsM, hsU, hlow, hmul, hperm, hmrep, hrows⟩ :=
    ruFold_inv M M.columns.length M.columns.length 0 M
      (MMRowPri.identity M.columns.length) (by omega)
      (ruInv_init M hstrict hfresh)
  rw [hrun]
  refine ⟨hperm, hmrep, fun i j => hmul i j, fun i j => ?_⟩
  rw [permEntry, hmul (M.mrep.getD i 0) j, mulFun, mulFun]
  refine Finset.sum_congr rfl fun k _ => ?_
  rw [permEntry, hmrep]

/-- C3 witness: the amended identity applied at the concrete matrix `exM3`,
entry `(0, 2)`. -/
theorem rivet_c3_witness :
    nodeEntry exM3.columns 0 2 =
      mulFun (fun a k => nodeEntry (decomposeRU exM3).1.columns a k)
        (fun k b => nodeEntry (decomposeRU exM3).2.columns b k)
        exM3.columns.length 0 2 :=
  (rivet_c3 exM3
    (fun k => by
      rcases k with _ | _ | _ | n
      · decide
      · decide
      · decide
      · rw [List.getD_eq_default _ _ (by simp [exM3])]
        exact List.Pairwise.nil)
    (fun l => by
      rcases l with _ | _ | _ | n
      · rfl
      · rfl
      · rfl
      · exact List.getD_eq_default _ _ (by simp [exM3]))).2.2.1 0 2

/-! ### The while loop of `kernel_one_bigrade` preserves the loop invariant -/

theorem zmod2_cancel (a b i : ZMod 2) : a + i + (b + i) = a + b := by
  have h : i + i = 0 := CharTwo.add_self_eq_zero i
  linear_combination h

/-- Running the collision loop from a state satisfying the mid-loop
invariant yields a state satisfying it again, with the loop guard false at
exit, and touches only column `j` of the matrix and the slave. -/
theorem kerWhile_inv (A0 : Int → Nat → ZMod 2) (w rows j : Nat) :
    ∀ (fuel : Nat) (st : KerState) (l : Int),
      LoopInv A0 w rows j st l →
      ((l : Int) < (rows : Int) → l + 2 ≤ (fuel : Int)) → 1 ≤ fuel →
      LoopInv A0 w rows j (kerWhile fuel j st l).1 (kerWhile fuel j st l).2 ∧
      ((kerWhile fuel j st l).2 = -1 ∨
        st.lows.getD ((kerWhile fuel j st l).2).toNat (-1) = -1 ∨
        (j : Int) ≤ st.lows.getD ((kerWhile fuel j st l).2).toNat (-1)) ∧
      (kerWhile fuel j st l).1.lows = st.lows ∧
      (kerWhile fuel j st l).1.kerMat = st.kerMat ∧
      (kerWhile fuel j st l).1.kerInd = st.kerInd ∧
      (∀ k, k ≠ j → matCol (kerWhile fuel j st l).1 k = matCol st k ∧
        slvCol (kerWhile fuel j st l).1 k = slvCol st k) := by
  intro fuel
  induction fuel with
  | zero => intro st l _ _ h1; omega
  | succ f ih =>
    intro st l hinv hfl _
    by_cases hg : l ≠ -1 ∧ st.lows.getD l.toNat (-1) ≠ -1 ∧ st.lows.getD l.toNat (-1) < (j : Int)
    · -- the guard holds: perform one column operation and recurse
      obtain ⟨hg1, hg2, hg3⟩ := hg
      obtain ⟨hNm, hNs, hLl, hjw, hFin, hSs, hLive, hDead, hProd, hLows, hNoJ, hEch,
        hSj, hSrt, hGe0, hMode⟩ := hinv
      rcases hMode with ⟨hl1, _, _⟩ | ⟨hl0, hBlt, hPP⟩
      · exact absurd hl1 hg1
      have hlt : ((l.toNat : Nat) : Int) = l := Int.toNat_of_nonneg hl0
      have hlrows : l.toNat < rows := by
        by_contra hc
        exact hg2 (List.getD_eq_default _ _ (by omega))
      have hfl2 : l + 2 ≤ (f : Int) + 1 := by
        have h := hfl (by omega)
        push_cast at h
        omega
      -- the registered source column c0
      rcases hLows l.toNat with hbad | ⟨c0, hc0eq, hc0w, t, hc0col⟩
      · exact absurd hbad hg2
      rw [hlt] at hc0col
      have hc0lt : c0 < j := by
        rw [hc0eq] at hg3
        exact_mod_cast hg3
      have hc0ne : c0 ≠ j := by omega
      have hc0nat : (st.lows.getD l.toNat (-1)).toNat = c0 := by
        rw [hc0eq]
        simp
      obtain ⟨hc0fin0, hc0ge0⟩ := hFin c0 hc0ne
      have hc0fin : ColFinalized (l :: t) := hc0col ▸ hc0fin0
      have hc0ge : ∀ x ∈ l :: t, 0 ≤ x := hc0col ▸ hc0ge0
      have htlt : ∀ x ∈ t, x < l := (List.pairwise_cons.mp hc0fin).1
      have htge : ∀ x ∈ t, 0 ≤ x := fun x hx => hc0ge x (List.mem_cons_of_mem _ hx)
      -- the merged matrix column j
      have hc0col' : st.mat.store.col c0 = l :: t := hc0col
      obtain ⟨hCnt, hSrt1, hMem1⟩ := VectorHeap.addToPopped_col_spec st.mat.store c0 j
        (hNm ▸ hjw) hSrt hGe0
        (by rw [hc0col']; exact fun x hx => htge x (by simpa using hx))
      rw [hc0col'] at hCnt hMem1
      simp only [List.drop_succ_cons, List.drop_zero] at hCnt hMem1
      set Mnew := (st.mat.store.addToPopped c0 j).col j with hMnew
      have hsem1 : ∀ r, semCol Mnew r = semCol (matCol st j) r + semCol t r :=
        fun r => semCol_eq_add_of_mod (hCnt r)
      have hMge : ∀ x ∈ Mnew, 0 ≤ x := by
        intro x hx
        rcases hMem1 x hx with h | h
        · exact hGe0 x h
        · exact htge x h
      have hMlt : ∀ x ∈ Mnew, x < l := by
        intro x hx
        rcases hMem1 x hx with h | h
        · exact hBlt x h
        · exact htlt x h
      -- the merged slave column j
      obtain ⟨hsCnt, hsSrt1, hsGe1⟩ := addTo_col_spec st.slave.store c0 j
        (hNs ▸ hjw) (hSs j).1 (hSs j).2 (hSs c0).2
      set Snew := (st.slave.store.addTo c0 j).col j with hSnew
      have hsCnt' : ∀ r : Int, Snew.count r % 2 =
          ((slvCol st j).count r + (slvCol st c0).count r) % 2 := hsCnt
      have hssem : ∀ r, semCol Snew r = semCol (slvCol st j) r + semCol (slvCol st c0) r :=
        fun r => semCol_eq_add_of_mod (hsCnt' r)
      -- the slave column of c0 is live
      have hc0slv : slvCol st c0 ≠ [] := by
        intro hnil
        rw [hDead c0 hc0ne hnil] at hc0col
        exact List.noConfusion hc0col
      have hc0live := (hLive c0 hc0w).resolve_left hc0slv
      have hjlive := (hLive j hjw).resolve_left hSj
      -- parity of the merged slave column
      have hSnewOdd : Snew.count ((j : Nat) : Int) % 2 = 1 := by
        have h := hsCnt' ((j : Nat) : Int)
        have h2 := hc0live.2 j hc0lt
        have h3 := hjlive.1
        omega
      have hSnewAbove : ∀ k' : Nat, j < k' → Snew.count ((k' : Nat) : Int) % 2 = 0 := by
        intro k' hk'
        have h := hsCnt' ((k' : Nat) : Int)
        have h2 := hc0live.2 k' (by omega)
        have h3 := hjlive.2 k' hk'
        omega
      have hSnewNe : Snew ≠ [] := by
        intro hnil
        rw [hnil] at hSnewOdd
        simp at hSnewOdd
      -- the product identity for the merged column
      have hite : ∀ r : Int, (if l = r then (1 : ZMod 2) else 0) = if r = l then 1 else 0 := by
        intro r
        by_cases h : r = l
        · rw [if_pos h, if_pos (by omega)]
        · rw [if_neg h, if_neg (by omega)]
      have hPP1 : ∀ r, semCol Mnew r =
          ∑ k' ∈ Finset.range w, A0 r k' * semCol Snew ((k' : Nat) : Int) := by
        intro r
        have hR : ∑ k' ∈ Finset.range w, A0 r k' * semCol Snew ((k' : Nat) : Int) =
            (∑ k' ∈ Finset.range w, A0 r k' * semCol (slvCol st j) ((k' : Nat) : Int)) +
            ∑ k' ∈ Finset.range w, A0 r k' * semCol (slvCol st c0) ((k' : Nat) : Int) := by
          rw [← sum_mul_split]
          exact Finset.sum_congr rfl fun k _ => by rw [hssem]
        rw [hR, ← hPP r, ← hProd c0 hc0ne r, hc0col, semCol_cons, hsem1 r, hite r]
        exact (zmod2_cancel _ _ _).symm
      -- the common part of the invariant for the post-operation state
      set stMid : KerState :=
        { st with
          mat := ((st.mat.addColumnPopped c0 j).removeLow j).2
          slave := st.slave.addColumn c0 j } with hstMid
      have hrun : kerWhile (f + 1) j st l =
          kerWhile f j stMid ((st.mat.addColumnPopped c0 j).removeLow j).1 := by
        rw [kerWhile_succ, if_pos ⟨hg1, hg2, hg3⟩, hc0nat]
      set lMid := ((st.mat.addColumnPopped c0 j).removeLow j).1 with hlMid
      have hlMid2 : lMid = (popMaxIndex Mnew).1 := rfl
      have hMidNm : stMid.mat.store.numCols = w := by
        show ((st.mat.store.addToPopped c0 j).setCol j (popMaxIndex Mnew).2).numCols = w
        rw [VectorHeap.numCols_setCol, VectorHeap.addToPopped_numCols, hNm]
      have hMidNs : stMid.slave.store.numCols = w := by
        show (st.slave.store.addTo c0 j).numCols = w
        rw [VectorHeap.addTo_numCols, hNs]
      have hMidCol : matCol stMid j = (popMaxIndex Mnew).2 := by
        show ((st.mat.store.addToPopped c0 j).setCol j (popMaxIndex Mnew).2).col j = _
        rw [VectorHeap.col_setCol_self]
        rw [VectorHeap.addToPopped_numCols, hNm]
        exact hjw
      have hMidColNe : ∀ k, k ≠ j → matCol stMid k = matCol st k := by
        intro k hk
        show ((st.mat.store.addToPopped c0 j).setCol j (popMaxIndex Mnew).2).col k = _
        rw [VectorHeap.col_setCol_ne _ _ _ _ hk, VectorHeap.addToPopped_col_other _ _ _ _ hk]
        rfl
      have hMidSlv : slvCol stMid j = Snew := rfl
      have hMidSlvNe : ∀ k, k ≠ j → slvCol stMid k = slvCol st k := by
        intro k hk
        show (st.slave.store.addTo c0 j).col k = _
        rw [VectorHeap.addTo_col_other _ _ _ _ hk]
        rfl
      have hMidLows : stMid.lows = st.lows := rfl
      have hMidKer : stMid.kerMat = st.kerMat := rfl
      have hMidInd : stMid.kerInd = st.kerInd := rfl
      -- invariant pieces common to both pop outcomes
      have hInvCommon :
          (∀ k, k ≠ j → ColFinalized (matCol stMid k) ∧ ∀ x ∈ matCol stMid k, 0 ≤ x) ∧
          (∀ k, ColSorted (slvCol stMid k) ∧ ∀ x ∈ slvCol stMid k, 0 ≤ x) ∧
          (∀ k, k < w → slvCol stMid k = [] ∨
            ((slvCol stMid k).count ((k : Nat) : Int) % 2 = 1 ∧
             ∀ k' : Nat, k < k' → (slvCol stMid k).count ((k' : Nat) : Int) % 2 = 0)) ∧
          (∀ k, k ≠ j → slvCol stMid k = [] → matCol stMid k = []) ∧
          (∀ k, k ≠ j → ∀ r, semCol (matCol stMid k) r =
            ∑ k' ∈ Finset.range w, A0 r k' * semCol (slvCol stMid k) ((k' : Nat) : Int)) ∧
          (∀ l' : Nat, stMid.lows.getD l' (-1) = -1 ∨
            ∃ c : Nat, stMid.lows.getD l' (-1) = (c : Int) ∧ c < w ∧
              ∃ t', matCol stMid c = ((l' : Nat) : Int) :: t') ∧
          (∀ l' : Nat, stMid.lows.getD l' (-1) ≠ ((j : Nat) : Int)) ∧
          KerEchelon A0 w stMid ∧
          slvCol stMid j ≠ [] := by
        refine ⟨?_, ?_, ?_, ?_, ?_, ?_, ?_, ?_, ?_⟩
        · intro k hk
          rw [hMidColNe k hk]
          exact hFin k hk
        · intro k
          by_cases hk : k = j
          · subst hk
            exact ⟨hsSrt1, hsGe1⟩
          · rw [hMidSlvNe k hk]
            exact hSs k
        · intro k hkw
          by_cases hk : k = j
          · subst hk
            exact Or.inr ⟨hSnewOdd, fun k' hk' => hSnewAbove k' hk'⟩
          · rw [hMidSlvNe k hk]
            exact hLive k hkw
        · intro k hk hnil
          rw [hMidSlvNe k hk] at hnil
          rw [hMidColNe k hk]
          exact hDead k hk hnil
        · intro k hk r
          rw [hMidColNe k hk, hMidSlvNe k hk]
          exact hProd k hk r
        · intro l'
          rw [hMidLows]
          rcases hLows l' with h | ⟨c, hceq, hcw, t', hcol⟩
          · exact Or.inl h
          · refine Or.inr ⟨c, hceq, hcw, t', ?_⟩
            have hcne : c ≠ j := by
              intro hcj
              exact hNoJ l' (by rw [hceq, hcj])
            rw [hMidColNe c hcne]
            exact hcol
        · intro l'
          rw [hMidLows]
          exact hNoJ l'
        · obtain ⟨leads, hlen, hnd, hq⟩ := hEch
          refine ⟨leads, by rw [hMidKer]; exact hlen, hnd, fun q hqw => ?_⟩
          have hqw' : q < st.kerMat.width := by rw [← hMidKer]; exact hqw
          obtain ⟨h1, h2, h3, h4, h5⟩ := hq q (by rw [hMidKer] at hqw; exact hqw)
          have hleadne : leads.getD q 0 ≠ j := by
            intro hlj
            exact hSj (hlj ▸ h2)
          refine ⟨h1, by rw [hMidSlvNe _ hleadne]; exact h2, h3, h4, h5⟩
        · rw [hMidSlv]
          exact hSnewNe
      obtain ⟨hFin2, hSs2, hLive2, hDead2, hProd2, hLows2, hNoJ2, hEch2, hSj2⟩ := hInvCommon
      -- pop the new maximum
      rcases popMaxIndex_spec Mnew hSrt1 (fun x hx => le_trans (by omega) (hMge x hx)) with
        ⟨hEv, hPop⟩ | ⟨m, hm0, hmOdd, hmAbove, hPop⟩
      · -- the column was zeroed: recurse in the empty mode
        have hlMid3 : lMid = -1 := by rw [hlMid2, hPop]
        have hMidColJ : matCol stMid j = [] := by rw [hMidCol, hPop]
        have hZero : ∀ r : Int,
            ∑ k' ∈ Finset.range w, A0 r k' * semCol (slvCol stMid j) ((k' : Nat) : Int) = 0 := by
          intro r
          rw [hMidSlv, ← hPP1 r]
          by_cases hr : r = -1
          · refine semCol_eq_zero ?_
            have : Mnew.count r = 0 := by
              rw [List.count_eq_zero]
              intro hmem
              have := hMge r hmem
              omega
            omega
          · exact semCol_eq_zero (hEv r hr)
        have hInvMid : LoopInv A0 w rows j stMid lMid := by
          refine ⟨hMidNm, hMidNs, by rw [hMidLows]; exact hLl, hjw, hFin2, hSs2, hLive2,
            hDead2, hProd2, hLows2, hNoJ2, hEch2, hSj2, ?_, ?_, ?_⟩
          · rw [hMidColJ]
            exact List.Pairwise.nil
          · rw [hMidColJ]
            intro x hx
            simp at hx
          · exact Or.inl ⟨hlMid3, hMidColJ, hZero⟩
        have hf1 : (1 : Nat) ≤ f := by omega
        obtain ⟨hI, hE, hL, hK, hD, hF⟩ := ih stMid lMid hInvMid
          (by rw [hlMid3]; intro _; push_cast; omega) hf1
        rw [hrun]
        refine ⟨hI, ?_, by rw [hL, hMidLows], by rw [hK, hMidKer], by rw [hD, hMidInd],
          fun k hk => ?_⟩
        · rcases hE with h | h | h
          · exact Or.inl h
          · rw [hMidLows] at h
            exact Or.inr (Or.inl h)
          · rw [hMidLows] at h
            exact Or.inr (Or.inr h)
        · obtain ⟨h1, h2⟩ := hF k hk
          exact ⟨h1.trans (hMidColNe k hk), h2.trans (hMidSlvNe k hk)⟩
      · -- a new pivot was found: recurse in the popped mode
        have hlMid3 : lMid = m := by rw [hlMid2, hPop]
        have hMidColJ : matCol stMid j = Mnew.filter (fun x => decide (x < m)) := by
          rw [hMidCol, hPop]
        have hmlt : m < l := by
          have hmem : m ∈ Mnew := by
            by_contra hmem
            rw [List.count_eq_zero_of_not_mem hmem] at hmOdd
            omega
          exact hMlt m hmem
        have hInvMid : LoopInv A0 w rows j stMid lMid := by
          refine ⟨hMidNm, hMidNs, by rw [hMidLows]; exact hLl, hjw, hFin2, hSs2, hLive2,
            hDead2, hProd2, hLows2, hNoJ2, hEch2, hSj2, ?_, ?_, ?_⟩
          · rw [hMidColJ]
            exact List.Pairwise.sublist (List.filter_sublist _) hSrt1
          · rw [hMidColJ]
            intro x hx
            exact hMge x ((List.mem_filter.mp hx).1)
          · refine Or.inr ⟨by rw [hlMid3]; exact hm0, ?_, ?_⟩
            · rw [hMidColJ, hlMid3]
              intro x hx
              exact of_decide_eq_true (List.mem_filter.mp hx).2
            · intro r
              rw [hMidColJ, hMidSlv, ← hPP1 r, hlMid3]
              have hfc : (Mnew.filter (fun x => decide (x < m))).count r =
                  if r < m then Mnew.count r else 0 := count_filter_lt Mnew m r
              rcases lt_trichotomy r m with h | h | h
              · rw [if_neg (by omega)]
                have : semCol (Mnew.filter (fun x => decide (x < m))) r = semCol Mnew r := by
                  refine semCol_congr_mod r ?_
                  rw [hfc, if_pos h]
                rw [this, add_zero]
              · subst h
                rw [if_pos rfl, semCol_eq_one hmOdd]
                have : semCol (Mnew.filter (fun x => decide (x < r))) r = 0 := by
                  refine semCol_eq_zero ?_
                  rw [hfc, if_neg (by omega)]
                rw [this, zero_add]
              · rw [if_neg (by omega), semCol_eq_zero (hmAbove r h)]
                have : semCol (Mnew.filter (fun x => decide (x < m))) r = 0 := by
                  refine semCol_eq_zero ?_
                  rw [hfc, if_neg (by omega)]
                rw [this, add_zero]
        have hf1 : (1 : Nat) ≤ f := by omega
        obtain ⟨hI, hE, hL, hK, hD, hF⟩ := ih stMid lMid hInvMid
          (by rw [hlMid3]; intro _; omega) hf1
        rw [hrun]
        refine ⟨hI, ?_, by rw [hL, hMidLows], by rw [hK, hMidKer], by rw [hD, hMidInd],
          fun k hk => ?_⟩
        · rcases hE with h | h | h
          · exact Or.inl h
          · rw [hMidLows] at h
            exact Or.inr (Or.inl h)
          · rw [hMidLows] at h
            exact Or.inr (Or.inr h)
        · obtain ⟨h1, h2⟩ := hF k hk
          exact ⟨h1.trans (hMidColNe k hk), h2.trans (hMidSlvNe k hk)⟩
    · -- the guard fails: the loop exits immediately
      rw [kerWhile_succ, if_neg hg]
      refine ⟨hinv, ?_, rfl, rfl, rfl, fun k _ => ⟨rfl, rfl⟩⟩
      show l = -1 ∨ st.lows.getD l.toNat (-1) = -1 ∨ (j : Int) ≤ st.lows.getD l.toNat (-1)
      by_cases h1 : l = -1
      · exact Or.inl h1
      by_cases h2 : st.lows.getD l.toNat (-1) = -1
      · exact Or.inr (Or.inl h2)
      · refine Or.inr (Or.inr ?_)
        by_contra h3
        exact hg ⟨h1, h2, by omega⟩


/-! ### One column of `kernel_one_bigrade` preserves the boundary invariant -/

theorem kerColumn_eq2 (rows : Nat) (fcc : Int) (j : Nat) (st : KerState) :
    kerColumn rows fcc j st =
      kerColumnAfter fcc j
        (st.mat.lowFinalized j ≠ -1 ∧
          st.lows.getD (st.mat.lowFinalized j).toNat (-1) ≠ -1 ∧
          st.lows.getD (st.mat.lowFinalized j).toNat (-1) < (j : Int))
        (kerWhile (rows + 2) j
          (if st.mat.lowFinalized j ≠ -1 ∧
              st.lows.getD (st.mat.lowFinalized j).toNat (-1) ≠ -1 ∧
              st.lows.getD (st.mat.lowFinalized j).toNat (-1) < (j : Int) then
            { st with mat := (st.mat.removeLow j).2 }
          else st) (st.mat.lowFinalized j)).1
        (kerWhile (rows + 2) j
          (if st.mat.lowFinalized j ≠ -1 ∧
              st.lows.getD (st.mat.lowFinalized j).toNat (-1) ≠ -1 ∧
              st.lows.getD (st.mat.lowFinalized j).toNat (-1) < (j : Int) then
            { st with mat := (st.mat.removeLow j).2 }
          else st) (st.mat.lowFinalized j)).2 := rfl

theorem semCol_pruneCol {c : Column} (hs : ColSorted c)
    (hge : ∀ x ∈ c, 0 ≤ x) : ∀ r, semCol (pruneCol c) r = semCol c r := by
  intro r
  obtain ⟨hcount, _, _⟩ := pruneCol_spec c hs (fun x hx => le_trans (by omega) (hge x hx))
  refine semCol_congr_mod r ?_
  rw [hcount r]
  by_cases h : 0 ≤ r ∧ c.count r % 2 = 1
  · rw [if_pos h]
    omega
  · rw [if_neg h]
    by_cases hr : 0 ≤ r
    · have h2 : c.count r % 2 = 0 := by
        rcases Nat.even_or_odd (c.count r) with he | ho
        · exact Nat.even_iff.mp he
        · exact absurd ⟨hr, Nat.odd_iff.mp ho⟩ h
      omega
    · have h2 : c.count r = 0 := by
        rw [List.count_eq_zero]
        intro hmem
        exact hr (hge r hmem)
      omega

/-- Reducing one column inside `kernel_one_bigrade` preserves the boundary
invariant; it can zero out only the slave column of `j` itself, never
touches the index matrix, and never shrinks the kernel. -/
theorem kerColumn_inv (A0 : Int → Nat → ZMod 2) (w rows : Nat) (st : KerState)
    (fcc : Int) (j : Nat)
    (hinv : KerInv A0 w rows st) (hj : j < w)
    (hdead : slvCol st j = [] → (j : Int) < fcc) :
    KerInv A0 w rows (kerColumn rows fcc j st) ∧
    (∀ k, k ≠ j → matCol (kerColumn rows fcc j st) k = matCol st k ∧
      slvCol (kerColumn rows fcc j st) k = slvCol st k) ∧
    (∀ k, slvCol (kerColumn rows fcc j st) k = [] → slvCol st k = [] ∨ k = j) ∧
    (kerColumn rows fcc j st).kerInd = st.kerInd ∧
    st.kerMat.width ≤ (kerColumn rows fcc j st).kerMat.width := by
  obtain ⟨hNm, hNs, hLl, hFin, hSs, hLive, hDead, hProd, hLows, hEch⟩ := hinv
  by_cases hch : st.mat.lowFinalized j ≠ -1 ∧
      st.lows.getD (st.mat.lowFinalized j).toNat (-1) ≠ -1 ∧
      st.lows.getD (st.mat.lowFinalized j).toNat (-1) < (j : Int)
  · -- changing column: pop the pivot and run the collision loop
    rcases hcolj : matCol st j with _ | ⟨a, t0⟩
    · exact absurd (MapMatrixHeap.lowFinalized_nil st.mat j hcolj) hch.1
    have hl0a : st.mat.lowFinalized j = a := MapMatrixHeap.lowFinalized_cons st.mat j hcolj
    have hch2 := hch
    rw [hl0a] at hch2
    have hfinj := (hFin j).1
    have hgej := (hFin j).2
    rw [hcolj] at hfinj hgej
    have ha0 : 0 ≤ a := hgej a (List.mem_cons_self a t0)
    have htlt : ∀ x ∈ t0, x < a := (List.pairwise_cons.mp hfinj).1
    have htge : ∀ x ∈ t0, 0 ≤ x := fun x hx => hgej x (List.mem_cons_of_mem _ hx)
    set st1 : KerState := { st with mat := (st.mat.removeLow j).2 } with hst1
    have hpopj : popMaxIndex (st.mat.store.col j) = (a, t0) := by
      rw [show st.mat.store.col j = a :: t0 from hcolj]
      exact popMaxIndex_finalized hfinj
    have hst1col : matCol st1 j = t0 := by
      show ((st.mat.store.setCol j (popMaxIndex (st.mat.store.col j)).2)).col j = t0
      rw [hpopj, VectorHeap.col_setCol_self _ _ _ (hNm ▸ hj)]
    have hst1colne : ∀ k, k ≠ j → matCol st1 k = matCol st k := by
      intro k hk
      show ((st.mat.store.setCol j (popMaxIndex (st.mat.store.col j)).2)).col k = _
      rw [VectorHeap.col_setCol_ne _ _ _ _ hk]
      rfl
    have hst1slv : ∀ k, slvCol st1 k = slvCol st k := fun k => rfl
    have hslvjne : slvCol st j ≠ [] := by
      intro hnil
      rw [hDead j hnil] at hcolj
      exact List.noConfusion hcolj
    have hNoJ1 : ∀ l' : Nat, st.lows.getD l' (-1) ≠ ((j : Nat) : Int) := by
      intro l' hl'
      rcases hLows l' with h | ⟨c, hceq, hcw, t', hcol'⟩
      · rw [hl'] at h
        omega
      · rw [hl'] at hceq
        have hcj : c = j := by exact_mod_cast hceq.symm
        subst hcj
        rw [hcolj] at hcol'
        injection hcol' with ha1 _
        have h3 := hch2.2.2
        have ha2 : a.toNat = l' := by
          rw [ha1]
          simp
        rw [ha2, hl'] at h3
        omega
    have hInv1 : LoopInv A0 w rows j st1 a := by
      refine ⟨?_, hNs, hLl, hj, ?_, ?_, ?_, ?_, ?_, ?_, hNoJ1, hEch, hslvjne, ?_, ?_, ?_⟩
      · show (st.mat.store.setCol j (popMaxIndex (st.mat.store.col j)).2).numCols = w
        rw [VectorHeap.numCols_setCol, hNm]
      · intro k hk
        rw [hst1colne k hk]
        exact hFin k
      · intro k
        rw [hst1slv k]
        exact hSs k
      · intro k hkw
        rw [hst1slv k]
        exact hLive k hkw
      · intro k hk hnil
        rw [hst1slv k] at hnil
        rw [hst1colne k hk]
        exact hDead k hnil
      · intro k hk r
        rw [hst1colne k hk, hst1slv k]
        exact hProd k r
      · intro l'
        rcases hLows l' with h | ⟨c, hceq, hcw, t', hcol'⟩
        · exact Or.inl h
        · have hcne : c ≠ j := by
            intro hcj
            exact hNoJ1 l' (by rw [hceq, hcj])
          exact Or.inr ⟨c, hceq, hcw, t', by rw [hst1colne c hcne]; exact hcol'⟩
      · rw [hst1col]
        exact List.Pairwise.imp le_of_lt (List.pairwise_cons.mp hfinj).2
      · rw [hst1col]
        exact htge
      · refine Or.inr ⟨ha0, by rw [hst1col]; exact htlt, fun r => ?_⟩
        rw [hst1col]
        have hpj := hProd j r
        rw [hcolj, semCol_cons] at hpj
        rw [show slvCol st1 j = slvCol st j from rfl, ← hpj]
        by_cases h : r = a
        · rw [if_pos h, if_pos (by omega)]
        · rw [if_neg h, if_neg (by omega)]
    have hW := kerWhile_inv A0 w rows j (rows + 2) st1 a hInv1
      (by intro h; push_cast; omega) (by omega)
    set K := kerWhile (rows + 2) j st1 a with hKdef
    obtain ⟨hI, hE, hL, hKer, hD, hF⟩ := hW
    obtain ⟨kNm, kNs, kLl, _, kFin, kSs, kLive, kDead, kProd, kLows, kNoJ, kEch,
      kSj, kSrt, kGe0, kMode⟩ := hI
    by_cases hl : K.2 ≠ -1
    · -- a new pivot was found for column j
      obtain ⟨hK20, hKlt, hKpp⟩ :
          (0 : Int) ≤ K.2 ∧ (∀ x ∈ matCol K.1 j, x < K.2) ∧
          (∀ r : Int, semCol (matCol K.1 j) r + (if r = K.2 then 1 else 0) =
            ∑ k' ∈ Finset.range w, A0 r k' * semCol (slvCol K.1 j) ((k' : Nat) : Int)) := by
        rcases kMode with ⟨h1, _, _⟩ | ⟨h1, h2, h3⟩
        · exact absurd h1 hl
        · exact ⟨h1, h2, h3⟩
      have hKnat : ((K.2.toNat : Nat) : Int) = K.2 := Int.toNat_of_nonneg hK20
      set Res : KerState :=
        { K.1 with
          lows := K.1.lows.set K.2.toNat ((j : Nat) : Int)
          mat := (K.1.mat.pushIndex j K.2).finalize j } with hResDef
      have hMain : kerColumn rows fcc j st = Res := by
        rw [kerColumn_eq2, if_pos hch, ← hst1, hl0a, ← hKdef]
        simp only [kerColumnAfter]
        rw [if_pos hl, if_pos hch2]
      have hconsSorted : ColSorted (K.2 :: matCol K.1 j) :=
        List.pairwise_cons.mpr ⟨fun y hy => le_of_lt (hKlt y hy), kSrt⟩
      have hconsGe : ∀ x ∈ K.2 :: matCol K.1 j, 0 ≤ x := by
        intro x hx
        rcases List.mem_cons.mp hx with h | h
        · omega
        · exact kGe0 x h
      have hResMat : matCol Res j = pruneCol (K.2 :: matCol K.1 j) := by
        show ((K.1.mat.store.setCol j (heapPush K.2 (K.1.mat.store.col j))).prune j).col j = _
        rw [VectorHeap.col_prune_self _ _ (by rw [VectorHeap.numCols_setCol, kNm]; exact hj),
          VectorHeap.col_setCol_self _ _ _ (by rw [kNm]; exact hj)]
        congr 1
        exact heapPush_gt hKlt
      have hResMatNe : ∀ k, k ≠ j → matCol Res k = matCol K.1 k := by
        intro k hk
        show ((K.1.mat.store.setCol j (heapPush K.2 (K.1.mat.store.col j))).prune j).col k = _
        rw [VectorHeap.col_prune_other _ _ _ hk, VectorHeap.col_setCol_ne _ _ _ _ hk]
        rfl
      have hResSlv : ∀ k, slvCol Res k = slvCol K.1 k := fun k => rfl
      obtain ⟨hpc, hpf, hpm⟩ := pruneCol_spec (K.2 :: matCol K.1 j) hconsSorted
        (fun x hx => le_trans (by omega) (hconsGe x hx))
      have hResFin : ColFinalized (matCol Res j) := by
        rw [hResMat]
        exact hpf
      have hResGe : ∀ x ∈ matCol Res j, 0 ≤ x := by
        rw [hResMat]
        exact fun x hx => hconsGe x (hpm x hx)
      have hResSem : ∀ r, semCol (matCol Res j) r = semCol (K.2 :: matCol K.1 j) r := by
        rw [hResMat]
        exact semCol_pruneCol hconsSorted hconsGe
      have hcnt1 : (K.2 :: matCol K.1 j).count K.2 = 1 := by
        rw [List.count_cons_self]
        have h0 : (matCol K.1 j).count K.2 = 0 := by
          rw [List.count_eq_zero]
          intro hm
          exact absurd (hKlt _ hm) (lt_irrefl _)
        omega
      have hResHead : ∃ t', matCol Res j = K.2 :: t' := by
        refine head_of_finalized hResFin ?_ ?_
        · rw [hResMat]
          have := hpc K.2
          rw [hcnt1, if_pos ⟨hK20, by omega⟩] at this
          have hpos : 0 < (pruneCol (K.2 :: matCol K.1 j)).count K.2 := by omega
          exact List.count_pos_iff.mp hpos
        · intro y hy
          rw [hResMat] at hy
          rcases List.mem_cons.mp (hpm y hy) with h | h
          · omega
          · exact le_of_lt (hKlt y h)
      refine ⟨⟨?_, ?_, ?_, ?_, ?_, ?_, ?_, ?_, ?_, ?_⟩, ?_, ?_, ?_, ?_⟩
      · -- numCols of the reduced matrix
        rw [hMain]
        show ((K.1.mat.store.setCol j (heapPush K.2 (K.1.mat.store.col j))).prune j).numCols = w
        rw [VectorHeap.numCols_prune, VectorHeap.numCols_setCol, kNm]
      · rw [hMain]
        exact kNs
      · rw [hMain]
        show (K.1.lows.set K.2.toNat ((j : Nat) : Int)).length = rows
        rw [List.length_set, kLl]
      · rw [hMain]
        intro k
        by_cases hk : k = j
        · rw [hk]
          exact ⟨hResFin, hResGe⟩
        · rw [hResMatNe k hk]
          exact kFin k hk
      · rw [hMain]
        intro k
        rw [hResSlv k]
        exact kSs k
      · rw [hMain]
        intro k hkw
        rw [hResSlv k]
        exact kLive k hkw
      · rw [hMain]
        intro k hnil
        rw [hResSlv k] at hnil
        by_cases hk : k = j
        · exact absurd hnil (hk ▸ kSj)
        · rw [hResMatNe k hk]
          exact kDead k hk hnil
      · rw [hMain]
        intro k r
        by_cases hk : k = j
        · rw [hk]
          rw [hResSlv j, hResSem r, semCol_cons, ← hKpp r]
          by_cases h : r = K.2
          · rw [if_pos h, if_pos (by omega)]
          · rw [if_neg h, if_neg (by omega)]
        · rw [hResMatNe k hk, hResSlv k]
          exact kProd k hk r
      · rw [hMain]
        intro l'
        show (K.1.lows.set K.2.toNat ((j : Nat) : Int)).getD l' (-1) = -1 ∨
          ∃ c : Nat, (K.1.lows.set K.2.toNat ((j : Nat) : Int)).getD l' (-1) = (c : Int) ∧
            c < w ∧ ∃ t3, matCol Res c = ((l' : Nat) : Int) :: t3
        by_cases heq : l' = K.2.toNat
        · by_cases hlen : K.2.toNat < rows
          · refine Or.inr ⟨j, ?_, hj, ?_⟩
            · rw [heq, getD_set_self _ _ _ _ (by rw [kLl]; exact hlen)]
            · obtain ⟨t', ht'⟩ := hResHead
              refine ⟨t', ?_⟩
              rw [ht', heq, hKnat]
          · rw [heq, List.set_eq_of_length_le (by rw [kLl]; omega)]
            rcases kLows K.2.toNat with h | ⟨c, hceq, hcw, t', hcol'⟩
            · exact Or.inl h
            · have hcne : c ≠ j := by
                intro hcj
                exact kNoJ K.2.toNat (by rw [hceq, hcj])
              exact Or.inr ⟨c, hceq, hcw, t', by rw [hResMatNe c hcne]; exact hcol'⟩
        · rw [getD_set_ne _ _ _ _ _ heq]
          rcases kLows l' with h | ⟨c, hceq, hcw, t', hcol'⟩
          · exact Or.inl h
          · have hcne : c ≠ j := by
              intro hcj
              exact kNoJ l' (by rw [hceq, hcj])
            exact Or.inr ⟨c, hceq, hcw, t', by rw [hResMatNe c hcne]; exact hcol'⟩
      · rw [hMain]
        exact kEch
      · intro k hk
        rw [hMain]
        obtain ⟨h1, h2⟩ := hF k hk
        exact ⟨(hResMatNe k hk).trans (h1.trans (hst1colne k hk)),
          (hResSlv k).trans (h2.trans (hst1slv k))⟩
      · intro k hnil
        rw [hMain, hResSlv k] at hnil
        by_cases hk : k = j
        · exact Or.inr hk
        · obtain ⟨_, h2⟩ := hF k hk
          rw [h2, hst1slv k] at hnil
          exact Or.inl hnil
      · rw [hMain]
        show K.1.kerInd = st.kerInd
        rw [hD]
      · rw [hMain]
        show st.kerMat.width ≤ K.1.kerMat.width
        rw [hKer]
    · -- column j was zeroed: emit its slave column after finalizing it
      have hKeq : K.2 = -1 := not_not.mp hl
      obtain ⟨hKcolj, hKzero⟩ :
          matCol K.1 j = [] ∧
          (∀ r : Int, ∑ k' ∈ Finset.range w, A0 r k' * semCol (slvCol K.1 j) ((k' : Nat) : Int) = 0) := by
        rcases kMode with ⟨_, h2, h3⟩ | ⟨h1, _, _⟩
        · exact ⟨h2, h3⟩
        · rw [hKeq] at h1
          omega
      set slvF := pruneCol (slvCol K.1 j) with hslvF
      set Res : KerState :=
        { K.1 with
          slave := ((K.1.kerMat.appendColFrom (K.1.slave.finalize j) j)).2
          kerMat := ((K.1.kerMat.appendColFrom (K.1.slave.finalize j) j)).1 } with hResDef
      have hMain : kerColumn rows fcc j st = Res := by
        rw [kerColumn_eq2, if_pos hch, ← hst1, hl0a, ← hKdef]
        simp only [kerColumnAfter]
        rw [if_neg hl, if_pos hch2]
      have hfinStore : (K.1.slave.finalize j).store.col j = slvF := by
        show ((K.1.slave.store.prune j)).col j = slvF
        rw [VectorHeap.col_prune_self _ _ (by rw [kNs]; exact hj)]
        rfl
      have hResSlvJ : slvCol Res j = [] := by
        show ((K.1.slave.store.prune j).setCol j []).col j = []
        rw [VectorHeap.col_setCol_self _ _ _ (by rw [VectorHeap.numCols_prune, kNs]; exact hj)]
      have hResSlvNe : ∀ k, k ≠ j → slvCol Res k = slvCol K.1 k := by
        intro k hk
        show ((K.1.slave.store.prune j).setCol j []).col k = _
        rw [VectorHeap.col_setCol_ne _ _ _ _ hk, VectorHeap.col_prune_other _ _ _ hk]
        rfl
      have hResMatAll : ∀ k, matCol Res k = matCol K.1 k := fun k => rfl
      have hsemF : ∀ r, semCol slvF r = semCol (slvCol K.1 j) r :=
        semCol_pruneCol (kSs j).1 (kSs j).2
      have hwid : Res.kerMat.width = K.1.kerMat.width + 1 := by
        show (K.1.kerMat.store.appendCol ((K.1.slave.finalize j).store.col j)).numCols = _
        rw [VectorHeap.appendCol_numCols]
        rfl
      have hkerLt : ∀ q, q < K.1.kerMat.width → kerCol Res q = kerCol K.1 q := by
        intro q hq
        show (K.1.kerMat.store.appendCol ((K.1.slave.finalize j).store.col j)).col q = _
        rw [VectorHeap.appendCol_col_lt _ _ _ hq]
        rfl
      have hkerLast : kerCol Res (K.1.kerMat.width) = slvF := by
        show (K.1.kerMat.store.appendCol ((K.1.slave.finalize j).store.col j)).col
            (K.1.kerMat.store.numCols) = slvF
        rw [VectorHeap.appendCol_col_last, hfinStore]
      have hjliveK := (kLive j hj).resolve_left kSj
      refine ⟨⟨?_, ?_, ?_, ?_, ?_, ?_, ?_, ?_, ?_, ?_⟩, ?_, ?_, ?_, ?_⟩
      · rw [hMain]
        exact kNm
      · rw [hMain]
        show ((K.1.slave.store.prune j).setCol j []).numCols = w
        rw [VectorHeap.numCols_setCol, VectorHeap.numCols_prune, kNs]
      · rw [hMain]
        exact kLl
      · rw [hMain]
        intro k
        by_cases hk : k = j
        · rw [hk]
          rw [hResMatAll j, hKcolj]
          exact ⟨List.Pairwise.nil, by intro x hx; simp at hx⟩
        · rw [hResMatAll k]
          exact kFin k hk
      · rw [hMain]
        intro k
        by_cases hk : k = j
        · rw [hk]
          rw [hResSlvJ]
          exact ⟨List.Pairwise.nil, by intro x hx; simp at hx⟩
        · rw [hResSlvNe k hk]
          exact kSs k
      · rw [hMain]
        intro k hkw
        by_cases hk : k = j
        · rw [hk]
          exact Or.inl hResSlvJ
        · rw [hResSlvNe k hk]
          exact kLive k hkw
      · rw [hMain]
        intro k hnil
        by_cases hk : k = j
        · rw [hk]
          rw [hResMatAll j, hKcolj]
        · rw [hResSlvNe k hk] at hnil
          rw [hResMatAll k]
          exact kDead k hk hnil
      · rw [hMain]
        intro k r
        by_cases hk : k = j
        · rw [hk]
          rw [hResMatAll j, hKcolj, hResSlvJ]
          rw [semCol_nil]
          refine (Finset.sum_eq_zero fun k' _ => ?_).symm
          rw [semCol_nil, mul_zero]
        · rw [hResMatAll k, hResSlvNe k hk]
          exact kProd k hk r
      · rw [hMain]
        intro l'
        show K.1.lows.getD l' (-1) = -1 ∨ _
        rcases kLows l' with h | ⟨c, hceq, hcw, t', hcol'⟩
        · exact Or.inl h
        · exact Or.inr ⟨c, hceq, hcw, t', by rw [hResMatAll c]; exact hcol'⟩
      · -- the extended echelon family
        rw [hMain]
        obtain ⟨leads, klen, knd, kq⟩ := kEch
        have hgetlt : ∀ q, q < leads.length → leads.getD q 0 ≠ j := by
          intro q hq hgj
          have := (kq q (by rw [← klen]; exact hq)).2.1
          rw [hgj] at this
          exact kSj this
        have hjleads : j ∉ leads := by
          intro hmem
          obtain ⟨q, hq, hgetq⟩ := List.getElem_of_mem hmem
          refine hgetlt q hq ?_
          rw [List.getD_eq_getElem?_getD, List.getElem?_eq_getElem hq, hgetq]
          rfl
        refine ⟨leads ++ [j], ?_, ?_, ?_⟩
        · rw [List.length_append, klen, hwid]
          rfl
        · refine List.Nodup.append knd (List.nodup_singleton j) ?_
          intro a1 ha1 ha2
          rw [List.mem_singleton] at ha2
          subst ha2
          exact hjleads ha1
        · intro q hq
          rw [hwid] at hq
          rcases Nat.lt_or_ge q K.1.kerMat.width with hqlt | hqge
          · have hqlen : q < leads.length := by rw [klen]; exact hqlt
            have hgetap : (leads ++ [j]).getD q 0 = leads.getD q 0 := by
              rw [List.getD_eq_getElem?_getD, List.getElem?_append_left hqlen,
                ← List.getD_eq_getElem?_getD]
            obtain ⟨c1, c2, c3, c4, c5⟩ := kq q hqlt
            have hlne : leads.getD q 0 ≠ j := hgetlt q hqlen
            rw [hgetap, hkerLt q hqlt, hResSlvNe _ hlne]
            exact ⟨c1, c2, c3, c4, c5⟩
          · have hqeq : q = K.1.kerMat.width := by omega
            subst hqeq
            have hgetap : (leads ++ [j]).getD K.1.kerMat.width 0 = j := by
              rw [← klen, List.getD_eq_getElem?_getD]
              simp
            rw [hgetap, hkerLast, hResSlvJ]
            refine ⟨hj, rfl, ?_, ?_, ?_⟩
            · have := semCol_mod_two_eq (hsemF ((j : Nat) : Int))
              have h2 := hjliveK.1
              omega
            · intro k' hk'
              have := semCol_mod_two_eq (hsemF ((k' : Nat) : Int))
              have h2 := hjliveK.2 k' hk'
              omega
            · intro r
              calc ∑ k' ∈ Finset.range w, A0 r k' * semCol slvF ((k' : Nat) : Int)
                  = ∑ k' ∈ Finset.range w, A0 r k' * semCol (slvCol K.1 j) ((k' : Nat) : Int) :=
                    Finset.sum_congr rfl fun k' _ => by rw [hsemF]
                _ = 0 := hKzero r
      · intro k hk
        rw [hMain]
        obtain ⟨h1, h2⟩ := hF k hk
        exact ⟨(hResMatAll k).trans (h1.trans (hst1colne k hk)),
          (hResSlvNe k hk).trans (h2.trans (hst1slv k))⟩
      · intro k hnil
        rw [hMain] at hnil
        by_cases hk : k = j
        · exact Or.inr hk
        · rw [hResSlvNe k hk] at hnil
          obtain ⟨_, h2⟩ := hF k hk
          rw [h2, hst1slv k] at hnil
          exact Or.inl hnil
      · rw [hMain]
        show K.1.kerInd = st.kerInd
        rw [hD]
      · rw [hMain]
        show st.kerMat.width ≤ Res.kerMat.width
        rw [hwid]
        have : st.kerMat.width = K.1.kerMat.width := by rw [hKer]
        omega
  · -- the column is not changing: the loop exits immediately
    have hKrw : kerWhile (rows + 2) j st (st.mat.lowFinalized j) =
        (st, st.mat.lowFinalized j) := by
      show kerWhile (rows + 1 + 1) j st (st.mat.lowFinalized j) = _
      rw [kerWhile_succ, if_neg hch]
    by_cases hl0 : st.mat.lowFinalized j ≠ -1
    · -- nonempty column: just record its pivot
      rcases hcolj : matCol st j with _ | ⟨a, t0⟩
      · exact absurd (MapMatrixHeap.lowFinalized_nil st.mat j hcolj) hl0
      have hl0a : st.mat.lowFinalized j = a := MapMatrixHeap.lowFinalized_cons st.mat j hcolj
      have ha0 : 0 ≤ a := by
        have := (hFin j).2
        rw [hcolj] at this
        exact this a (List.mem_cons_self a t0)
      set Res : KerState :=
        { st with lows := st.lows.set a.toNat ((j : Nat) : Int) } with hResDef
      have hMain : kerColumn rows fcc j st = Res := by
        rw [kerColumn_eq2, if_neg hch, hKrw]
        simp only [kerColumnAfter]
        rw [if_pos hl0, if_neg hch, hl0a]
      have hanat : ((a.toNat : Nat) : Int) = a := Int.toNat_of_nonneg ha0
      refine ⟨⟨?_, ?_, ?_, ?_, ?_, ?_, ?_, ?_, ?_, ?_⟩, ?_, ?_, ?_, ?_⟩
      · rw [hMain]
        exact hNm
      · rw [hMain]
        exact hNs
      · rw [hMain]
        show (st.lows.set a.toNat ((j : Nat) : Int)).length = rows
        rw [List.length_set, hLl]
      · rw [hMain]
        exact hFin
      · rw [hMain]
        exact hSs
      · rw [hMain]
        exact hLive
      · rw [hMain]
        exact hDead
      · rw [hMain]
        exact hProd
      · rw [hMain]
        intro l'
        show (st.lows.set a.toNat ((j : Nat) : Int)).getD l' (-1) = -1 ∨
          ∃ c : Nat, (st.lows.set a.toNat ((j : Nat) : Int)).getD l' (-1) = (c : Int) ∧
            c < w ∧ ∃ t3, matCol st c = ((l' : Nat) : Int) :: t3
        by_cases heq : l' = a.toNat
        · by_cases hlen : a.toNat < rows
          · refine Or.inr ⟨j, ?_, hj, t0, ?_⟩
            · rw [heq, getD_set_self _ _ _ _ (by rw [hLl]; exact hlen)]
            · rw [heq, hanat]
              exact hcolj
          · rw [heq, List.set_eq_of_length_le (by rw [hLl]; omega)]
            exact hLows a.toNat
        · rw [getD_set_ne _ _ _ _ _ heq]
          exact hLows l'
      · rw [hMain]
        exact hEch
      · intro k hk
        rw [hMain]
        exact ⟨rfl, rfl⟩
      · intro k hnil
        rw [hMain] at hnil
        exact Or.inl hnil
      · rw [hMain]
      · rw [hMain]
    · -- empty column: emit the identity slave column when the bigrade allows
      have hl0e : st.mat.lowFinalized j = -1 := not_not.mp hl0
      have hcolj : matCol st j = [] := by
        rcases hcolj : matCol st j with _ | ⟨a, t0⟩
        · rfl
        · have := MapMatrixHeap.lowFinalized_cons st.mat j hcolj
          have ha0 : 0 ≤ a := by
            have h2 := (hFin j).2
            rw [hcolj] at h2
            exact h2 a (List.mem_cons_self a t0)
          rw [hl0e] at this
          omega
      by_cases hfcc : fcc ≤ (j : Int)
      · -- emit the raw slave column
        have hslvjne : slvCol st j ≠ [] := by
          intro hnil
          have := hdead hnil
          omega
        have hjlive := (hLive j hj).resolve_left hslvjne
        set Res : KerState :=
          { st with
            slave := ((st.kerMat.appendColFrom st.slave j)).2
            kerMat := ((st.kerMat.appendColFrom st.slave j)).1 } with hResDef
        have hMain : kerColumn rows fcc j st = Res := by
          rw [kerColumn_eq2, if_neg hch, hKrw]
          simp only [kerColumnAfter]
          rw [if_neg (by rw [hl0e]; simp), if_neg hch, if_pos hfcc]
        have hResSlvJ : slvCol Res j = [] := by
          show (st.slave.store.setCol j []).col j = []
          rw [VectorHeap.col_setCol_self _ _ _ (by rw [hNs]; exact hj)]
        have hResSlvNe : ∀ k, k ≠ j → slvCol Res k = slvCol st k := by
          intro k hk
          show (st.slave.store.setCol j []).col k = _
          rw [VectorHeap.col_setCol_ne _ _ _ _ hk]
          rfl
        have hResMatAll : ∀ k, matCol Res k = matCol st k := fun k => rfl
        have hwid : Res.kerMat.width = st.kerMat.width + 1 := by
          show (st.kerMat.store.appendCol (st.slave.store.col j)).numCols = _
          rw [VectorHeap.appendCol_numCols]
          rfl
        have hkerLt : ∀ q, q < st.kerMat.width → kerCol Res q = kerCol st q := by
          intro q hq
          show (st.kerMat.store.appendCol (st.slave.store.col j)).col q = _
          rw [VectorHeap.appendCol_col_lt _ _ _ hq]
          rfl
        have hkerLast : kerCol Res (st.kerMat.width) = slvCol st j := by
          show (st.kerMat.store.appendCol (st.slave.store.col j)).col
              (st.kerMat.store.numCols) = _
          rw [VectorHeap.appendCol_col_last]
          rfl
        refine ⟨⟨?_, ?_, ?_, ?_, ?_, ?_, ?_, ?_, ?_, ?_⟩, ?_, ?_, ?_, ?_⟩
        · rw [hMain]
          exact hNm
        · rw [hMain]
          show (st.slave.store.setCol j []).numCols = w
          rw [VectorHeap.numCols_setCol, hNs]
        · rw [hMain]
          exact hLl
        · rw [hMain]
          intro k
          rw [hResMatAll k]
          exact hFin k
        · rw [hMain]
          intro k
          by_cases hk : k = j
          · rw [hk]
            rw [hResSlvJ]
            exact ⟨List.Pairwise.nil, by intro x hx; simp at hx⟩
          · rw [hResSlvNe k hk]
            exact hSs k
        · rw [hMain]
          intro k hkw
          by_cases hk : k = j
          · rw [hk]
            exact Or.inl hResSlvJ
          · rw [hResSlvNe k hk]
            exact hLive k hkw
        · rw [hMain]
          intro k hnil
          by_cases hk : k = j
          · rw [hk]
            rw [hResMatAll j]
            exact hcolj
          · rw [hResSlvNe k hk] at hnil
            rw [hResMatAll k]
            exact hDead k hnil
        · rw [hMain]
          intro k r
          by_cases hk : k = j
          · rw [hk]
            rw [hResMatAll j, hcolj, hResSlvJ, semCol_nil]
            refine (Finset.sum_eq_zero fun k' _ => ?_).symm
            rw [semCol_nil, mul_zero]
          · rw [hResMatAll k, hResSlvNe k hk]
            exact hProd k r
        · rw [hMain]
          intro l'
          show st.lows.getD l' (-1) = -1 ∨ _
          rcases hLows l' with h | ⟨c, hceq, hcw, t', hcol'⟩
          · exact Or.inl h
          · exact Or.inr ⟨c, hceq, hcw, t', by rw [hResMatAll c]; exact hcol'⟩
        · rw [hMain]
          obtain ⟨leads, klen, knd, kq⟩ := hEch
          have hgetlt : ∀ q, q < leads.length → leads.getD q 0 ≠ j := by
            intro q hq hgj
            have := (kq q (by rw [← klen]; exact hq)).2.1
            rw [hgj] at this
            exact hslvjne this
          have hjleads : j ∉ leads := by
            intro hmem
            obtain ⟨q, hq, hgetq⟩ := List.getElem_of_mem hmem
            refine hgetlt q hq ?_
            rw [List.getD_eq_getElem?_getD, List.getElem?_eq_getElem hq, hgetq]
            rfl
          refine ⟨leads ++ [j], ?_, ?_, ?_⟩
          · rw [List.length_append, klen, hwid]
            rfl
          · refine List.Nodup.append knd (List.nodup_singleton j) ?_
            intro a1 ha1 ha2
            rw [List.mem_singleton] at ha2
            subst ha2
            exact hjleads ha1
          · intro q hq
            rw [hwid] at hq
            rcases Nat.lt_or_ge q st.kerMat.width with hqlt | hqge
            · have hqlen : q < leads.length := by rw [klen]; exact hqlt
              have hgetap : (leads ++ [j]).getD q 0 = leads.getD q 0 := by
                rw [List.getD_eq_getElem?_getD, List.getElem?_append_left hqlen,
                  ← List.getD_eq_getElem?_getD]
              obtain ⟨c1, c2, c3, c4, c5⟩ := kq q hqlt
              have hlne : leads.getD q 0 ≠ j := hgetlt q hqlen
              rw [hgetap, hkerLt q hqlt, hResSlvNe _ hlne]
              exact ⟨c1, c2, c3, c4, c5⟩
            · have hqeq : q = st.kerMat.width := by omega
              subst hqeq
              have hgetap : (leads ++ [j]).getD st.kerMat.width 0 = j := by
                rw [← klen, List.getD_eq_getElem?_getD]
                simp
              rw [hgetap, hkerLast, hResSlvJ]
              refine ⟨hj, rfl, hjlive.1, fun k' hk' => hjlive.2 k' hk', fun r => ?_⟩
              calc ∑ k' ∈ Finset.range w, A0 r k' * semCol (slvCol st j) ((k' : Nat) : Int)
                  = semCol (matCol st j) r := (hProd j r).symm
                _ = 0 := by rw [hcolj, semCol_nil]
        · intro k hk
          rw [hMain]
          exact ⟨hResMatAll k, hResSlvNe k hk⟩
        · intro k hnil
          rw [hMain] at hnil
          by_cases hk : k = j
          · exact Or.inr hk
          · rw [hResSlvNe k hk] at hnil
            exact Or.inl hnil
        · rw [hMain]
        · rw [hMain]
          show st.kerMat.width ≤ Res.kerMat.width
          rw [hwid]
          omega
      · -- skip: the column belongs to an earlier bigrade
        have hMain : kerColumn rows fcc j st = st := by
          rw [kerColumn_eq2, if_neg hch, hKrw]
          simp only [kerColumnAfter]
          rw [if_neg (by rw [hl0e]; simp), if_neg hch, if_neg hfcc]
        rw [hMain]
        exact ⟨⟨hNm, hNs, hLl, hFin, hSs, hLive, hDead, hProd, hLows, hEch⟩,
          fun k _ => ⟨rfl, rfl⟩, fun k hnil => Or.inl hnil, rfl, le_refl _⟩

/-! ### Index-matrix bookkeeping -/

theorem IndexMatrix.height_set (ind : IndexMatrix) (y x : Nat) (v : Int) :
    (ind.set y x v).height = ind.height := rfl

theorem IndexMatrix.width_set (ind : IndexMatrix) (y x : Nat) (v : Int) :
    (ind.set y x v).width = ind.width := rfl

theorem IndexMatrix.get_set_self (ind : IndexMatrix) (y x : Nat) (v : Int)
    (hy : y < ind.data.length) (hx : x < (ind.data.getD y []).length) :
    (ind.set y x v).get y x = v := by
  rw [IndexMatrix.get, IndexMatrix.set]
  show ((ind.data.set y ((ind.data.getD y []).set x v)).getD y []).getD x 0 = v
  rw [getD_set_self _ _ _ _ hy, getD_set_self _ _ _ _ hx]

theorem IndexMatrix.get_set_ne (ind : IndexMatrix) (y x y' x' : Nat) (v : Int)
    (h : y' ≠ y ∨ x' ≠ x) :
    (ind.set y x v).get y' x' = ind.get y' x' := by
  rw [IndexMatrix.get, IndexMatrix.set]
  show ((ind.data.set y ((ind.data.getD y []).set x v)).getD y' []).getD x' 0 =
    (ind.data.getD y' []).getD x' 0
  rcases h with h | h
  · rw [getD_set_ne _ _ _ _ _ h]
  · by_cases hy : y' = y
    · subst hy
      by_cases hlen : y' < ind.data.length
      · rw [getD_set_self _ _ _ _ hlen, getD_set_ne _ _ _ _ _ h]
      · rw [List.set_eq_of_length_le (by omega)]
    · rw [getD_set_ne _ _ _ _ _ hy]

theorem IndexMatrix.startIndex_pos (ind : IndexMatrix) (y x : Nat) (hx : 0 < x) :
    ind.startIndex y x = ind.get y (x - 1) + 1 := by
  rw [IndexMatrix.startIndex, if_pos hx]

/-! ### Monotonicity of a well-formed index matrix -/

theorem indWF_row_mono {ind : IndexMatrix} {w : Nat} (hWF : IndWF ind w)
    {y : Nat} (hy : y < ind.height) :
    ∀ {x x' : Nat}, x ≤ x' → x' < ind.width → ind.get y x ≤ ind.get y x' := by
  intro x x' hle hx'
  induction x' with
  | zero =>
    have hx0 : x = 0 := by omega
    rw [hx0]
  | succ n ihn =>
    rcases Nat.lt_or_ge x (n + 1) with h | h
    · exact le_trans (ihn (by omega) (by omega)) (hWF.2.1 y hy n (by omega))
    · have hx1 : x = n + 1 := by omega
      rw [hx1]

theorem indWF_last_mono {ind : IndexMatrix} {w : Nat} (hWF : IndWF ind w)
    (hwp : 0 < ind.width) :
    ∀ {y y' : Nat}, y ≤ y' → y' < ind.height →
      ind.get y (ind.width - 1) ≤ ind.get y' (ind.width - 1) := by
  intro y y' hle hy'
  induction y' with
  | zero =>
    have hy0 : y = 0 := by omega
    rw [hy0]
  | succ n ihn =>
    rcases Nat.lt_or_ge y (n + 1) with h | h
    · refine le_trans (ihn (by omega) (by omega)) ?_
      refine le_trans (hWF.2.2 n (by omega)) ?_
      exact indWF_row_mono hWF (by omega) (Nat.zero_le _) (by omega)
    · have hy1 : y = n + 1 := by omega
      rw [hy1]

theorem indWF_group_lt_low {ind : IndexMatrix} {w : Nat} (hWF : IndWF ind w)
    (hwp : 0 < ind.width) {y'' y : Nat} (h : y'' < y) (hy : y < ind.height) :
    ind.get y'' (ind.width - 1) < ind.startIndex y 0 := by
  rw [IndexMatrix.startIndex, if_neg (by omega), if_pos (by omega)]
  have := indWF_last_mono hWF hwp (show y'' ≤ y - 1 by omega)
    (show y - 1 < ind.height by omega)
  omega

theorem indWF_group_lt_high {ind : IndexMatrix} {w : Nat} (hWF : IndWF ind w)
    (hwp : 0 < ind.width) {y y' : Nat} (h : y < y') (hy' : y' < ind.height)
    (x : Nat) (hx : x < ind.width) :
    ind.get y x < ind.startIndex y' 0 := by
  rw [IndexMatrix.startIndex, if_neg (by omega), if_pos (by omega)]
  have h1 := indWF_row_mono hWF (show y < ind.height by omega)
    (show x ≤ ind.width - 1 by omega) (show ind.width - 1 < ind.width by omega)
  have h2 := indWF_last_mono hWF hwp (show y ≤ y' - 1 by omega)
    (show y' - 1 < ind.height by omega)
  omega

theorem indWF_start_nonneg {ind : IndexMatrix} {w : Nat} (hWF : IndWF ind w)
    (hwp : 0 < ind.width) (y : Nat) (hy : y < ind.height) :
    0 ≤ ind.startIndex y 0 := by
  rw [IndexMatrix.startIndex, if_neg (by omega)]
  by_cases h : 0 < y
  · rw [if_pos h]
    have := (hWF.1 (y - 1) (by omega) (ind.width - 1) (by omega)).1
    omega
  · rw [if_neg h]

/-! ### The dead-column bookkeeping across the bigrade loop -/

theorem deadOK_step {ind : IndexMatrix} {w : Nat} (hWF : IndWF ind w)
    (x y : Nat) (hx : x < ind.width) (hy : y < ind.height)
    (st st' : KerState)
    (hdo : DeadOK ind ind.height x y st)
    (hnew : ∀ k, slvCol st' k = [] → slvCol st k = [] ∨
      (ind.startIndex y 0 ≤ (k : Int) ∧ (k : Int) ≤ ind.get y x)) :
    DeadOK ind ind.height x (y + 1) st' := by
  intro k hk y' hy' hk1 hk2
  rcases hnew k hk with hold | ⟨hge, hle⟩
  · refine le_trans (hdo k hold y' hy' hk1 hk2) ?_
    rw [deadBound, deadBound]
    by_cases h1 : y' < y
    · rw [if_pos h1, if_pos (by omega)]
    · rw [if_neg h1]
      by_cases h2 : y' < y + 1
      · rw [if_pos h2]
        by_cases h3 : 0 < x
        · rw [if_pos h3]
          exact indWF_row_mono hWF hy' (by omega) hx
        · rw [if_neg h3]
          exact (hWF.1 y' hy' x hx).1
      · rw [if_neg h2]
  · rcases Nat.lt_trichotomy y' y with h1 | h1 | h1
    · exfalso
      have hlt := indWF_group_lt_low hWF (by omega) h1 hy
      omega
    · rw [deadBound, if_pos (by omega), h1]
      exact hle
    · exfalso
      have hlt := indWF_group_lt_high hWF (by omega) h1 hy' x hx
      have h2 := indWF_row_mono hWF hy (show x ≤ ind.width - 1 by omega)
        (show ind.width - 1 < ind.width by omega)
      omega

theorem deadOK_wrap {ind : IndexMatrix} (x : Nat) (st : KerState)
    (h : DeadOK ind ind.height x ind.height st) :
    DeadOK ind ind.height (x + 1) 0 st := by
  intro k hk y' hy' h1 h2
  have h3 := h k hk y' hy' h1 h2
  rw [deadBound, if_pos hy'] at h3
  rw [deadBound, if_neg (by omega), if_pos (by omega)]
  simpa using h3

/-! ### A run of consecutive columns -/

theorem kerColumns_inv (A0 : Int → Nat → ZMod 2) (w rows : Nat) (fcc : Int) :
    ∀ (count jstart : Nat) (st : KerState),
      KerInv A0 w rows st → jstart + count ≤ w →
      (∀ j', jstart ≤ j' → j' < jstart + count → slvCol st j' = [] → (j' : Int) < fcc) →
      KerInv A0 w rows (kerColumns rows fcc count jstart st) ∧
      (∀ k, slvCol (kerColumns rows fcc count jstart st) k = [] →
        slvCol st k = [] ∨ (jstart ≤ k ∧ k < jstart + count)) ∧
      (kerColumns rows fcc count jstart st).kerInd = st.kerInd ∧
      st.kerMat.width ≤ (kerColumns rows fcc count jstart st).kerMat.width := by
  intro count
  induction count with
  | zero =>
    intro jstart st hinv _ _
    exact ⟨hinv, fun k h => Or.inl h, rfl, le_refl _⟩
  | succ c ihc =>
    intro jstart st hinv hle hskip
    have hrun : kerColumns rows fcc (c + 1) jstart st =
        kerColumns rows fcc c (jstart + 1) (kerColumn rows fcc jstart st) := rfl
    rw [hrun]
    have hj : jstart < w := by omega
    have hdd : slvCol st jstart = [] → (jstart : Int) < fcc :=
      fun h => hskip jstart (le_refl _) (by omega) h
    obtain ⟨h1, hfr, hnd, hII, hWW⟩ := kerColumn_inv A0 w rows st fcc jstart hinv hj hdd
    have hskip' : ∀ j', jstart + 1 ≤ j' → j' < jstart + 1 + c →
        slvCol (kerColumn rows fcc jstart st) j' = [] → (j' : Int) < fcc := by
      intro j' hge hlt hnil
      rcases hnd j' hnil with h | h
      · exact hskip j' (by omega) (by omega) h
      · omega
    obtain ⟨I2, D2, N2, W2⟩ := ihc (jstart + 1) (kerColumn rows fcc jstart st) h1
      (by omega) hskip'
    refine ⟨I2, ?_, ?_, ?_⟩
    · intro k hk
      rcases D2 k hk with h | h
      · rcases hnd k h with h2 | h2
        · exact Or.inl h2
        · exact Or.inr (by omega)
      · exact Or.inr (by omega)
    · rw [N2, hII]
    · exact le_trans hWW W2

/-! ### One bigrade of the kernel computation -/

theorem kernelOneBigrade_inv (A0 : Int → Nat → ZMod 2) (w rows : Nat)
    (ind : IndexMatrix) (hWF : IndWF ind w)
    (x y : Nat) (hx : x < ind.width) (hy : y < ind.height)
    (st : KerState)
    (hinv : KerInv A0 w rows st)
    (hdo : DeadOK ind ind.height x y st)
    (hprog : KerIndProg ind.height ind.width (x * ind.height + y) st) :
    KerInv A0 w rows (kernelOneBigrade ind rows x y st) ∧
    DeadOK ind ind.height x (y + 1) (kernelOneBigrade ind rows x y st) ∧
    KerIndProg ind.height ind.width (x * ind.height + y + 1)
      (kernelOneBigrade ind rows x y st) := by
  obtain ⟨p1, p2, p3, p4, p5, p6, p7, p8⟩ := hprog
  set F := ind.startIndex y 0 with hF
  set FCC := ind.startIndex y x with hFCC
  set L := ind.get y x with hL
  set cnt := (L - F + 1).toNat with hcnt
  set st1 := kerColumns rows FCC cnt F.toNat st with hst1
  have hrun : kernelOneBigrade ind rows x y st =
      { st1 with kerInd := st1.kerInd.set y x ((st1.kerMat.width : Int) - 1) } := rfl
  have hF0 : 0 ≤ F := indWF_start_nonneg hWF (by omega) y hy
  have hLw : L < (w : Int) := (hWF.1 y hy x hx).2
  have hLm1 : -1 ≤ L := (hWF.1 y hy x hx).1
  have hFw : F ≤ (w : Int) := by
    rw [hF, IndexMatrix.startIndex, if_neg (by omega)]
    by_cases h : 0 < y
    · rw [if_pos h]
      have := (hWF.1 (y - 1) (by omega) (ind.width - 1) (by omega)).2
      omega
    · rw [if_neg h]
      omega
  have hLlast : L ≤ ind.get y (ind.width - 1) :=
    indWF_row_mono hWF hy (show x ≤ ind.width - 1 by omega)
      (show ind.width - 1 < ind.width by omega)
  have hbound : F.toNat + cnt ≤ w := by omega
  have hskip : ∀ j', F.toNat ≤ j' → j' < F.toNat + cnt →
      slvCol st j' = [] → (j' : Int) < FCC := by
    intro j' h1 h2 hnil
    have hb := hdo j' hnil y hy (by omega) (by omega)
    rw [deadBound, if_neg (by omega)] at hb
    by_cases hx0 : 0 < x
    · rw [if_pos hx0] at hb
      rw [hFCC, IndexMatrix.startIndex_pos ind y x hx0]
      omega
    · rw [if_neg hx0] at hb
      omega
  obtain ⟨I1, D1, N1, W1⟩ := kerColumns_inv A0 w rows FCC cnt F.toNat st hinv hbound hskip
  rw [hrun]
  have hh0 : 0 < ind.height := by omega
  set N := x * ind.height + y with hN
  have hNmod : N % ind.height = y := by
    rw [hN, Nat.add_comm, Nat.add_mul_mod_self_right, Nat.mod_eq_of_lt hy]
  have hNdiv : N / ind.height = x := by
    rw [hN, Nat.add_comm, Nat.add_mul_div_right _ _ hh0, Nat.div_eq_of_lt hy]
    omega
  have hylen : y < st.kerInd.data.length := by omega
  have hrowmem : st.kerInd.data.getD y [] ∈ st.kerInd.data := by
    rw [List.getD_eq_getElem?_getD, List.getElem?_eq_getElem hylen]
    exact List.getElem_mem hylen
  have hxlen : x < (st.kerInd.data.getD y []).length := by
    rw [p4 _ hrowmem]
    exact hx
  have hval_ne : ∀ i, i ≠ N →
      (st1.kerInd.set y x ((st1.kerMat.width : Int) - 1)).get (i % ind.height) (i / ind.height) =
      st.kerInd.get (i % ind.height) (i / ind.height) := by
    intro i hi
    rw [N1]
    refine IndexMatrix.get_set_ne _ _ _ _ _ _ ?_
    by_cases hmod : i % ind.height = y
    · refine Or.inr ?_
      intro hdiv
      have hdm := Nat.div_add_mod i ind.height
      rw [hmod, hdiv, Nat.mul_comm] at hdm
      omega
    · exact Or.inl hmod
  have hvalN :
      (st1.kerInd.set y x ((st1.kerMat.width : Int) - 1)).get (N % ind.height) (N / ind.height) =
      (st1.kerMat.width : Int) - 1 := by
    rw [hNmod, hNdiv, N1]
    exact IndexMatrix.get_set_self _ _ _ _ (by omega) hxlen
  refine ⟨I1, ?_, ?_⟩
  · -- dead columns stay within the scanned region
    refine deadOK_step hWF x y hx hy st _ hdo ?_
    intro k hk
    rcases D1 k hk with h | ⟨h1, h2⟩
    · exact Or.inl h
    · exact Or.inr ⟨by omega, by omega⟩
  · refine ⟨?_, ?_, ?_, ?_, ?_, ?_, ?_, ?_⟩
    · show (st1.kerInd.set y x _).height = ind.height
      rw [IndexMatrix.height_set, N1, p1]
    · show (st1.kerInd.set y x _).width = ind.width
      rw [IndexMatrix.width_set, N1, p2]
    · show ((st1.kerInd.set y x _).data).length = ind.height
      show ((st1.kerInd.data.set y _)).length = ind.height
      rw [List.length_set]
      have : st1.kerInd.data = st.kerInd.data := by rw [N1]
      rw [this, p3]
    · intro row hrow
      have hrow2 : row ∈ st1.kerInd.data.set y
          ((st1.kerInd.data.getD y []).set x ((st1.kerMat.width : Int) - 1)) := hrow
      have hdata : st1.kerInd.data = st.kerInd.data := by rw [N1]
      rw [hdata] at hrow2
      rcases List.mem_or_eq_of_mem_set hrow2 with h | h
      · exact p4 row h
      · rw [h, List.length_set]
        exact p4 _ hrowmem
    · intro i hi
      rcases Nat.lt_or_ge (i + 1) N with h | h
      · rw [hval_ne i (by omega), hval_ne (i + 1) (by omega)]
        exact p5 i h
      · have hieq : i + 1 = N := by omega
        rw [hval_ne i (by omega), show i + 1 = N from hieq, hvalN]
        have h8 := p8 i (by omega)
        rw [h8]
        have : st.kerMat.width ≤ st1.kerMat.width := W1
        push_cast
        omega
    · intro i hi
      rcases Nat.lt_or_ge i N with h | h
      · rw [hval_ne i (by omega)]
        exact p6 i h
      · have hieq : i = N := by omega
        rw [hieq, hvalN]
        have : (0 : Int) ≤ (st1.kerMat.width : Int) := by positivity
        omega
    · intro h
      omega
    · intro m hm
      have hmeq : m = N := by omega
      rw [hmeq, hvalN]

/-! ### The double bigrade loop of `kernel()` -/

theorem kerFoldY (A0 : Int → Nat → ZMod 2) (w rows : Nat)
    (ind : IndexMatrix) (hWF : IndWF ind w) (x : Nat) (hx : x < ind.width) :
    ∀ (cy y0 : Nat) (st : KerState), y0 + cy = ind.height →
      KerInv A0 w rows st → DeadOK ind ind.height x y0 st →
      KerIndProg ind.height ind.width (x * ind.height + y0) st →
      KerInv A0 w rows
        ((List.range' y0 cy).foldl (fun s y => kernelOneBigrade ind rows x y s) st) ∧
      DeadOK ind ind.height x ind.height
        ((List.range' y0 cy).foldl (fun s y => kernelOneBigrade ind rows x y s) st) ∧
      KerIndProg ind.height ind.width (x * ind.height + ind.height)
        ((List.range' y0 cy).foldl (fun s y => kernelOneBigrade ind rows x y s) st) := by
  intro cy
  induction cy with
  | zero =>
    intro y0 st h0 h1 h2 h3
    have hy0 : y0 = ind.height := by omega
    subst hy0
    exact ⟨h1, h2, h3⟩
  | succ c ih =>
    intro y0 st h0 h1 h2 h3
    rw [List.range'_succ, List.foldl_cons]
    obtain ⟨q1, q2, q3⟩ := kernelOneBigrade_inv A0 w rows ind hWF x y0 hx (by omega) st h1 h2 h3
    exact ih (y0 + 1) _ (by omega) q1 q2 q3

theorem kerFoldX (A0 : Int → Nat → ZMod 2) (w rows : Nat)
    (ind : IndexMatrix) (hWF : IndWF ind w) :
    ∀ (cx x0 : Nat) (st : KerState), x0 + cx = ind.width →
      KerInv A0 w rows st → DeadOK ind ind.height x0 0 st →
      KerIndProg ind.height ind.width (x0 * ind.height) st →
      KerInv A0 w rows
        ((List.range' x0 cx).foldl
          (fun s x => (List.range ind.height).foldl
            (fun s2 y => kernelOneBigrade ind rows x y s2) s) st) ∧
      KerIndProg ind.height ind.width (ind.width * ind.height)
        ((List.range' x0 cx).foldl
          (fun s x => (List.range ind.height).foldl
            (fun s2 y => kernelOneBigrade ind rows x y s2) s) st) := by
  intro cx
  induction cx with
  | zero =>
    intro x0 st h0 h1 _ h3
    have hx0 : x0 = ind.width := by omega
    subst hx0
    exact ⟨h1, h3⟩
  | succ c ih =>
    intro x0 st h0 h1 h2 h3
    rw [List.range'_succ, List.foldl_cons]
    have h3' : KerIndProg ind.height ind.width (x0 * ind.height + 0) st := h3
    obtain ⟨q1, q2, q3⟩ := kerFoldY A0 w rows ind hWF x0 (by omega) ind.height 0 st
      (by omega) h1 h2 h3'
    rw [← List.range_eq_range'] at q1 q2 q3
    have heq : x0 * ind.height + ind.height = (x0 + 1) * ind.height := by ring
    rw [heq] at q3
    exact ih (x0 + 1) _ (by omega) q1 (deadOK_wrap x0 _ q2) q3

/-! ### Flat bigrade indices and run arithmetic -/

theorem flat_mod (h x y : Nat) (hy : y < h) : (x * h + y) % h = y := by
  rw [Nat.add_comm, Nat.add_mul_mod_self_right, Nat.mod_eq_of_lt hy]

theorem flat_div (h x y : Nat) (hy : y < h) : (x * h + y) / h = x := by
  rw [Nat.add_comm, Nat.add_mul_div_right _ _ (by omega), Nat.div_eq_of_lt hy]
  omega

theorem flat_decomp (h i : Nat) (hh : 0 < h) : (i / h) * h + i % h = i := by
  have h1 := Nat.div_add_mod i h
  rw [Nat.mul_comm]
  omega

theorem indValPrev_zero (kin : IndexMatrix) : indValPrev kin 0 = -1 := by
  unfold indValPrev
  rw [if_pos rfl]

theorem indValPrev_succ (kin : IndexMatrix) (m : Nat) (hm : m ≠ 0) :
    indValPrev kin m = indVal kin (m - 1) := by
  unfold indValPrev
  rw [if_neg hm]

theorem getD_append_left {l l2 : List Nat} {q : Nat} (hq : q < l.length) :
    (l ++ l2).getD q 0 = l.getD q 0 := by
  rw [List.getD_eq_getElem?_getD, List.getElem?_append_left hq, ← List.getD_eq_getElem?_getD]

theorem getD_append_right (l l2 : List Nat) (t : Nat) :
    (l ++ l2).getD (l.length + t) 0 = l2.getD t 0 := by
  rw [List.getD_eq_getElem?_getD, List.getElem?_append_right (by omega),
    ← List.getD_eq_getElem?_getD]
  congr 1
  omega

theorem nodup_getD_inj {l : List Nat} (hnd : l.Nodup) {i j : Nat}
    (hi : i < l.length) (hj : j < l.length) (h : l.getD i 0 = l.getD j 0) : i = j := by
  rw [List.getD_eq_getElem?_getD, List.getElem?_eq_getElem hi] at h
  rw [List.getD_eq_getElem?_getD, List.getElem?_eq_getElem hj] at h
  exact hnd.getElem_inj_iff.mp h

theorem indVal_mono {kin : IndexMatrix}
    (hmono : ∀ i, i + 1 < kin.width * kin.height → indVal kin i ≤ indVal kin (i + 1)) :
    ∀ {i i' : Nat}, i ≤ i' → i' < kin.width * kin.height →
      indVal kin i ≤ indVal kin i' := by
  intro i i' hle hlt
  induction i' with
  | zero =>
    have h0 : i = 0 := by omega
    rw [h0]
  | succ m ihm =>
    rcases Nat.lt_or_ge i (m + 1) with h | h
    · exact le_trans (ihm (by omega) (by omega)) (hmono m (by omega))
    · have h1 : i = m + 1 := by omega
      rw [h1]

theorem indValPrev_le {kin : IndexMatrix}
    (hmono : ∀ i, i + 1 < kin.width * kin.height → indVal kin i ≤ indVal kin (i + 1))
    (hge : ∀ i, i < kin.width * kin.height → -1 ≤ indVal kin i) :
    ∀ i, i < kin.width * kin.height → indValPrev kin i ≤ indVal kin i := by
  intro i hi
  by_cases h : i = 0
  · rw [h, indValPrev_zero]
    have h2 := hge 0 (by omega)
    omega
  · rw [indValPrev_succ kin i h]
    exact indVal_mono hmono (show i - 1 ≤ i by omega) hi

theorem indVal_le_top {kin : IndexMatrix} {W : Nat}
    (hmono : ∀ i, i + 1 < kin.width * kin.height → indVal kin i ≤ indVal kin (i + 1))
    (hlast : ∀ m, kin.width * kin.height = m + 1 → indVal kin m = (W : Int) - 1) :
    ∀ i, i < kin.width * kin.height → indVal kin i ≤ (W : Int) - 1 := by
  intro i hi
  rcases hn : kin.width * kin.height with _ | m
  · omega
  · have h1 := hlast m hn
    rw [← h1]
    exact indVal_mono hmono (by omega) (by omega)

theorem total_runs {kin : IndexMatrix} {W : Nat}
    (hmono : ∀ i, i + 1 < kin.width * kin.height → indVal kin i ≤ indVal kin (i + 1))
    (hge : ∀ i, i < kin.width * kin.height → -1 ≤ indVal kin i)
    (hlast : ∀ m, kin.width * kin.height = m + 1 → indVal kin m = (W : Int) - 1)
    (hzero : kin.width * kin.height = 0 → W = 0) :
    ∑ i ∈ Finset.range (kin.width * kin.height), runCount kin i = W := by
  rcases hn : kin.width * kin.height with _ | m
  · rw [Finset.range_zero, Finset.sum_empty, hzero hn]
  · have hcast : ((∑ i ∈ Finset.range (m + 1), runCount kin i : Nat) : Int) =
        ∑ i ∈ Finset.range (m + 1), (indValPrev kin (i + 1) - indValPrev kin i) := by
      push_cast
      refine Finset.sum_congr rfl fun i hi => ?_
      rw [Finset.mem_range] at hi
      have hple := indValPrev_le hmono hge i (by omega)
      rw [runCount, Int.toNat_of_nonneg (by omega)]
      rw [indValPrev_succ kin (i + 1) (by omega)]
      simp
    rw [Finset.sum_range_sub (fun i => indValPrev kin i)] at hcast
    rw [indValPrev_zero, indValPrev_succ kin (m + 1) (by omega)] at hcast
    simp only [Nat.add_sub_cancel] at hcast
    rw [hlast m hn] at hcast
    omega

theorem run_exists {kin : IndexMatrix} {W : Nat}
    (hlast : ∀ m, kin.width * kin.height = m + 1 → indVal kin m = (W : Int) - 1) :
    ∀ s : Nat, (s : Int) ≤ (W : Int) - 1 → 0 < kin.width * kin.height →
      ∃ i, i < kin.width * kin.height ∧
        indValPrev kin i < (s : Int) ∧ (s : Int) ≤ indVal kin i := by
  intro s hs hn
  have haux : ∀ m, m < kin.width * kin.height → (s : Int) ≤ indVal kin m →
      ∃ i, i < kin.width * kin.height ∧
        indValPrev kin i < (s : Int) ∧ (s : Int) ≤ indVal kin i := by
    intro m
    induction m using Nat.strong_induction_on with
    | _ m ihm =>
      intro hmn hsm
      by_cases h : indValPrev kin m < (s : Int)
      · exact ⟨m, hmn, h, hsm⟩
      · have hm0 : m ≠ 0 := by
          intro h0
          rw [h0, indValPrev_zero] at h
          omega
        refine ihm (m - 1) (by omega) (by omega) ?_
        rw [indValPrev_succ kin m hm0] at h
        omega
  refine haux (kin.width * kin.height - 1) (by omega) ?_
  rw [hlast (kin.width * kin.height - 1) (by omega)]
  exact hs

/-! ### The colex scan sets -/

theorem scanned_start (kin : IndexMatrix) : scanned kin 0 0 = ∅ := by
  rw [scanned]
  refine Finset.filter_false_of_mem fun i _ => ?_
  rintro (h | ⟨h1, h2⟩)
  · exact absurd h (Nat.not_lt_zero _)
  · exact absurd h2 (Nat.not_lt_zero _)

theorem scanned_notMem (kin : IndexMatrix) (y x : Nat) (hy : y < kin.height)
    (hx : x < kin.width) : x * kin.height + y ∉ scanned kin y x := by
  rw [scanned, Finset.mem_filter]
  rintro ⟨_, h | ⟨h1, h2⟩⟩
  · rw [flat_mod _ _ _ hy] at h
    omega
  · rw [flat_div _ _ _ hy] at h2
    omega

theorem scanned_step (kin : IndexMatrix) (y x : Nat) (hy : y < kin.height)
    (hx : x < kin.width) :
    scanned kin y (x + 1) = insert (x * kin.height + y) (scanned kin y x) := by
  have hh : 0 < kin.height := by omega
  ext i
  rw [scanned, scanned, Finset.mem_insert, Finset.mem_filter, Finset.mem_filter,
    Finset.mem_range]
  constructor
  · rintro ⟨h1, h2 | ⟨h2, h3⟩⟩
    · exact Or.inr ⟨h1, Or.inl h2⟩
    · rcases Nat.lt_or_ge (i / kin.height) x with h4 | h4
      · exact Or.inr ⟨h1, Or.inr ⟨h2, h4⟩⟩
      · have h5 : i / kin.height = x := by omega
        refine Or.inl ?_
        rw [← flat_decomp kin.height i hh, h5, h2]
  · rintro (h | ⟨h1, h2⟩)
    · subst h
      refine ⟨?_, Or.inr ⟨flat_mod _ _ _ hy, ?_⟩⟩
      · have h1 : x * kin.height + y < (x + 1) * kin.height := by
          have h2 : (x + 1) * kin.height = x * kin.height + kin.height := by ring
          omega
        have h2 : (x + 1) * kin.height ≤ kin.width * kin.height :=
          Nat.mul_le_mul_right _ (by omega)
        omega
      · rw [flat_div _ _ _ hy]
        omega
    · refine ⟨h1, ?_⟩
      rcases h2 with h2 | ⟨h2, h3⟩
      · exact Or.inl h2
      · exact Or.inr ⟨h2, by omega⟩

theorem scanned_rowend (kin : IndexMatrix) (y : Nat) :
    scanned kin y kin.width = scanned kin (y + 1) 0 := by
  ext i
  rw [scanned, scanned, Finset.mem_filter, Finset.mem_filter, Finset.mem_range]
  constructor
  · rintro ⟨h1, h2 | ⟨h2, h3⟩⟩
    · exact ⟨h1, Or.inl (by omega)⟩
    · exact ⟨h1, Or.inl (by omega)⟩
  · rintro ⟨h1, h2 | ⟨h2, h3⟩⟩
    · rcases Nat.lt_or_ge (i % kin.height) y with h4 | h4
      · exact ⟨h1, Or.inl h4⟩
      · have h5 : i % kin.height = y := by omega
        refine ⟨h1, Or.inr ⟨h5, ?_⟩⟩
        by_contra h6
        have hh : 0 < kin.height := by
          by_contra hc
          have : kin.height = 0 := by omega
          rw [this, Nat.mul_zero] at h1
          omega
        have h7 : kin.width * kin.height ≤ (i / kin.height) * kin.height := by
          have := Nat.mul_le_mul_right kin.height (show kin.width ≤ i / kin.height by omega)
          exact this
        have h8 := flat_decomp kin.height i hh
        omega
    · exact absurd h3 (Nat.not_lt_zero _)

theorem scanned_final (kin : IndexMatrix) :
    scanned kin kin.height 0 = Finset.range (kin.width * kin.height) := by
  rw [scanned]
  refine Finset.filter_true_of_mem fun i hi => ?_
  rw [Finset.mem_range] at hi
  refine Or.inl ?_
  have hh : 0 < kin.height := by
    by_contra hc
    have h0 : kin.height = 0 := by omega
    rw [h0, Nat.mul_zero] at hi
    omega
  exact Nat.mod_lt _ hh

/-! ### The column-moving run of the conversion constructor -/

theorem startIndexLex_eq (kin : IndexMatrix) (y x : Nat) (hy : y < kin.height)
    (hx : x < kin.width) :
    kin.startIndexLex y x = indValPrev kin (x * kin.height + y) + 1 := by
  rw [IndexMatrix.startIndexLex]
  by_cases hy0 : 0 < y
  · rw [if_pos hy0, indValPrev_succ kin _ (by omega)]
    have h1 : x * kin.height + y - 1 = x * kin.height + (y - 1) := by omega
    rw [h1, indVal, flat_mod _ _ _ (by omega), flat_div _ _ _ (by omega)]
  · have hy0e : y = 0 := by omega
    subst hy0e
    rw [if_neg (by omega)]
    by_cases hx0 : 0 < x
    · have hpos : 0 < x * kin.height := Nat.mul_pos hx0 (by omega)
      rw [if_pos hx0, indValPrev_succ kin _ (by omega)]
      have h1 : x * kin.height + 0 - 1 = (x - 1) * kin.height + (kin.height - 1) := by
        have h2 : x * kin.height = (x - 1) * kin.height + kin.height := by
          calc x * kin.height = ((x - 1) + 1) * kin.height := by
                rw [Nat.sub_add_cancel (by omega)]
            _ = (x - 1) * kin.height + kin.height := by ring
        omega
      rw [h1, indVal, flat_mod _ _ _ (by omega), flat_div _ _ _ (by omega)]
    · have hx0e : x = 0 := by omega
      subst hx0e
      rw [if_neg (by omega)]
      rw [show 0 * kin.height + 0 = 0 from by ring, indValPrev_zero]
      norm_num

theorem get_eq_indVal (kin : IndexMatrix) (y x : Nat) (hy : y < kin.height) :
    kin.get y x = indVal kin (x * kin.height + y) := by
  rw [indVal, flat_mod _ _ _ hy, flat_div _ _ _ hy]

theorem convMoveRun_spec (W : Nat) : ∀ (count jStart : Nat) (dst src : MapMatrixHeap)
    (cur : Nat),
    dst.store.numCols = W → src.store.numCols = W →
    cur + count ≤ W → jStart + count ≤ W →
    (convMoveRun count jStart dst src cur).1.store.numCols = W ∧
    (convMoveRun count jStart dst src cur).2.1.store.numCols = W ∧
    (convMoveRun count jStart dst src cur).2.2 = cur + count ∧
    (∀ t, t < cur ∨ cur + count ≤ t →
      (convMoveRun count jStart dst src cur).1.store.col t = dst.store.col t) ∧
    (∀ i, i < count →
      (convMoveRun count jStart dst src cur).1.store.col (cur + i) =
        src.store.col (jStart + i)) ∧
    (∀ s, s < jStart ∨ jStart + count ≤ s →
      (convMoveRun count jStart dst src cur).2.1.store.col s = src.store.col s) := by
  intro count
  induction count with
  | zero =>
    intro jStart dst src cur hd hs _ _
    exact ⟨hd, hs, rfl, fun t _ => rfl, fun i hi => absurd hi (by omega), fun s _ => rfl⟩
  | succ c ihc =>
    intro jStart dst src cur hd hs hltc hltj
    have hrun : convMoveRun (c + 1) jStart dst src cur =
        convMoveRun c (jStart + 1)
          { dst with store := (dst.store.setCol cur (src.store.col jStart)).setDirty cur 0 }
          { src with store := src.store.setCol jStart [] } (cur + 1) := rfl
    set d1 : MapMatrixHeap :=
      { dst with store := (dst.store.setCol cur (src.store.col jStart)).setDirty cur 0 }
      with hd1
    set s1 : MapMatrixHeap := { src with store := src.store.setCol jStart [] } with hs1
    have hd1n : d1.store.numCols = W := by
      show ((dst.store.setCol cur (src.store.col jStart)).setDirty cur 0).numCols = W
      rw [VectorHeap.numCols_setDirty, VectorHeap.numCols_setCol, hd]
    have hs1n : s1.store.numCols = W := by
      show (src.store.setCol jStart []).numCols = W
      rw [VectorHeap.numCols_setCol, hs]
    obtain ⟨q1, q2, q3, q4, q5, q6⟩ := ihc (jStart + 1) d1 s1 (cur + 1) hd1n hs1n
      (by omega) (by omega)
    rw [hrun]
    refine ⟨q1, q2, by rw [q3]; omega, ?_, ?_, ?_⟩
    · intro t ht
      have hne : t ≠ cur := by omega
      rw [q4 t (by omega)]
      show ((dst.store.setCol cur (src.store.col jStart)).setDirty cur 0).col t = _
      rw [VectorHeap.col_setDirty, VectorHeap.col_setCol_ne _ _ _ _ hne]
    · intro i hi
      rcases Nat.eq_zero_or_pos i with hi0 | hipos
      · subst hi0
        show (convMoveRun c (jStart + 1) d1 s1 (cur + 1)).1.store.col cur =
          src.store.col jStart
        rw [q4 cur (by omega)]
        show ((dst.store.setCol cur (src.store.col jStart)).setDirty cur 0).col cur = _
        rw [VectorHeap.col_setDirty,
          VectorHeap.col_setCol_self _ _ _ (by rw [hd]; omega)]
      · have hieq : cur + i = cur + 1 + (i - 1) := by omega
        have hjeq : jStart + i = jStart + 1 + (i - 1) := by omega
        rw [hieq, hjeq, q5 (i - 1) (by omega)]
        show (src.store.setCol jStart []).col (jStart + 1 + (i - 1)) = _
        rw [VectorHeap.col_setCol_ne _ _ _ _ (by omega)]
    · intro s hsr
      rw [q6 s (by omega)]
      show (src.store.setCol jStart []).col s = _
      rw [VectorHeap.col_setCol_ne _ _ _ _ (by omega)]

/-! ### One bigrade of the conversion constructor -/

theorem convBigrade_inv (M0 : MapMatrixHeap) (kin : IndexMatrix)
    (hmono : ∀ i, i + 1 < kin.width * kin.height → indVal kin i ≤ indVal kin (i + 1))
    (hge : ∀ i, i < kin.width * kin.height → -1 ≤ indVal kin i)
    (hlast : ∀ m, kin.width * kin.height = m + 1 → indVal kin m = (M0.width : Int) - 1)
    (hzero : kin.width * kin.height = 0 → M0.width = 0)
    (y x : Nat) (hy : y < kin.height) (hx : x < kin.width)
    (dst src : MapMatrixHeap) (cur : Nat) (dind : IndexMatrix)
    (hinv : ConvInv M0 kin y x dst src cur) :
    ConvInv M0 kin y (x + 1)
      (convBigrade kin y x (dst, src, cur, dind)).1
      (convBigrade kin y x (dst, src, cur, dind)).2.1
      (convBigrade kin y x (dst, src, cur, dind)).2.2.1 := by
  obtain ⟨hdN, hsN, hcur, asgn, hlen, hnd, hdst, hdst0, hsrc, hmem⟩ := hinv
  set i0 := x * kin.height + y with hi0
  have hi0n : i0 < kin.width * kin.height := by
    have h1 : (x + 1) * kin.height ≤ kin.width * kin.height :=
      Nat.mul_le_mul_right _ (by omega)
    have h2 : (x + 1) * kin.height = x * kin.height + kin.height := by ring
    omega
  have hvple := indValPrev_le hmono hge i0 hi0n
  have hvtop := indVal_le_top hmono hlast i0 hi0n
  have hvpge : -1 ≤ indValPrev kin i0 := by
    by_cases h : i0 = 0
    · rw [h, indValPrev_zero]
    · rw [indValPrev_succ kin i0 h]
      exact hge (i0 - 1) (by omega)
  have hfirst : kin.startIndexLex y x = indValPrev kin i0 + 1 :=
    startIndexLex_eq kin y x hy hx
  have hlastv : kin.get y x = indVal kin i0 := get_eq_indVal kin y x hy
  set cntN := (kin.get y x - kin.startIndexLex y x + 1).toNat with hcntN
  set jN := (kin.startIndexLex y x).toNat with hjN
  have hcnt : cntN = runCount kin i0 := by
    rw [hcntN, hfirst, hlastv, runCount]
    congr 1
    ring
  have hfnat : ((jN : Nat) : Int) = indValPrev kin i0 + 1 := by
    rw [hjN, hfirst, Int.toNat_of_nonneg (by omega)]
  have hcntc : ((cntN : Nat) : Int) = indVal kin i0 - indValPrev kin i0 := by
    rw [hcnt, runCount, Int.toNat_of_nonneg (by omega)]
  have hsum_le : ∑ i ∈ insert i0 (scanned kin y x), runCount kin i ≤ M0.width := by
    rw [← total_runs hmono hge hlast hzero]
    refine Finset.sum_le_sum_of_subset ?_
    intro i hi
    rw [Finset.mem_insert] at hi
    rcases hi with h | h
    · rw [h, Finset.mem_range]
      exact hi0n
    · rw [scanned, Finset.mem_filter] at h
      exact h.1
  have hins : ∑ i ∈ insert i0 (scanned kin y x), runCount kin i =
      runCount kin i0 + ∑ i ∈ scanned kin y x, runCount kin i :=
    Finset.sum_insert (scanned_notMem kin y x hy hx)
  have hcurcnt : cur + cntN ≤ M0.width := by
    rw [hcur, hcnt]
    omega
  have hjcnt : jN + cntN ≤ M0.width := by
    omega
  obtain ⟨m1, m2, m3, m4, m5, m6⟩ :=
    convMoveRun_spec M0.width cntN jN dst src cur hdN hsN hcurcnt hjcnt
  show ConvInv M0 kin y (x + 1) (convMoveRun cntN jN dst src cur).1
    (convMoveRun cntN jN dst src cur).2.1 (convMoveRun cntN jN dst src cur).2.2
  set run : List Nat := (List.range cntN).map (fun t => jN + t) with hrunL
  have hrunmem : ∀ s : Nat, s ∈ run ↔
      (indValPrev kin i0 < (s : Int) ∧ (s : Int) ≤ indVal kin i0) := by
    intro s
    rw [hrunL, List.mem_map]
    constructor
    · rintro ⟨t, ht, rfl⟩
      rw [List.mem_range] at ht
      constructor
      · push_cast
        omega
      · push_cast
        omega
    · rintro ⟨h1, h2⟩
      refine ⟨s - jN, ?_, ?_⟩
      · rw [List.mem_range]
        omega
      · omega
  have hfresh : ∀ s, s ∈ run → s ∉ asgn := by
    intro s hs hsa
    rw [hrunmem] at hs
    rw [hmem s] at hsa
    obtain ⟨i, hiscan, hip, hiv⟩ := hsa
    have hii0 : i ≠ i0 := by
      intro h
      rw [h, hi0] at hiscan
      exact scanned_notMem kin y x hy hx hiscan
    have hin : i < kin.width * kin.height := by
      rw [scanned, Finset.mem_filter, Finset.mem_range] at hiscan
      exact hiscan.1
    rcases Nat.lt_or_ge i i0 with h | h
    · have h1 : indVal kin i ≤ indValPrev kin i0 := by
        rw [indValPrev_succ kin i0 (by omega)]
        exact indVal_mono hmono (by omega) (by omega)
      omega
    · have h2 : indVal kin i0 ≤ indValPrev kin i := by
        rw [indValPrev_succ kin i (by omega)]
        exact indVal_mono hmono (by omega) (by omega)
      omega
  have hgd : ∀ t', t' < cntN → run.getD t' 0 = jN + t' := by
    intro t' h
    rw [hrunL, List.getD_eq_getElem?_getD, List.getElem?_map, List.getElem?_range h]
    rfl
  have hrunlen : run.length = cntN := by
    rw [hrunL, List.length_map, List.length_range]
  refine ⟨m1, m2, ?_, asgn ++ run, ?_, ?_, ?_, ?_, ?_, ?_⟩
  · rw [m3, scanned_step kin y x hy hx, hins, hcur, hcnt]
    omega
  · rw [List.length_append, hlen, hrunlen, m3]
  · refine List.Nodup.append hnd ?_ ?_
    · refine List.Nodup.map ?_ (List.nodup_range cntN)
      intro a b hab
      have hab2 : jN + a = jN + b := hab
      omega
    · intro a ha hb
      exact hfresh a hb ha
  · intro t ht
    rw [m3] at ht
    rcases Nat.lt_or_ge t cur with h | h
    · rw [getD_append_left (by omega)]
      obtain ⟨d1, d2⟩ := hdst t h
      rw [m4 t (Or.inl h), d1]
      exact ⟨rfl, d2⟩
    · have ht2 : t = asgn.length + (t - cur) := by omega
      have ht3 : t = cur + (t - cur) := by omega
      have htc : t - cur < cntN := by omega
      rw [ht2, getD_append_right, hgd (t - cur) (by omega)]
      have hmem2 : jN + (t - cur) ∈ run := by
        rw [hrunmem]
        constructor
        · push_cast
          omega
        · push_cast
          omega
      constructor
      · rw [show asgn.length + (t - cur) = cur + (t - cur) from by omega,
          m5 (t - cur) htc, hsrc _ (hfresh _ hmem2)]
      · omega
  · intro t ht
    rw [m3] at ht
    rw [m4 t (Or.inr (by omega))]
    exact hdst0 t (by omega)
  · intro s hs
    rw [List.mem_append] at hs
    push_neg at hs
    obtain ⟨hs1, hs2⟩ := hs
    rw [hrunmem] at hs2
    have hcases : (s : Int) ≤ indValPrev kin i0 ∨ indVal kin i0 < (s : Int) := by
      by_contra hc
      push_neg at hc
      exact hs2 ⟨hc.1, by omega⟩
    rw [m6 s ?_, hsrc s hs1]
    rcases hcases with h | h
    · exact Or.inl (by omega)
    · exact Or.inr (by omega)
  · intro s
    rw [List.mem_append, hmem s, hrunmem s, scanned_step kin y x hy hx]
    constructor
    · rintro (⟨i, hi1, hi2, hi3⟩ | ⟨h1, h2⟩)
      · exact ⟨i, by rw [Finset.mem_insert]; exact Or.inr hi1, hi2, hi3⟩
      · exact ⟨i0, by rw [Finset.mem_insert]; exact Or.inl rfl, h1, h2⟩
    · rintro ⟨i, hi1, hi2, hi3⟩
      rw [Finset.mem_insert] at hi1
      rcases hi1 with h | h
      · have h2 : i = i0 := by rw [h, hi0]
        exact Or.inr ⟨by rw [← h2]; exact hi2, by rw [← h2]; exact hi3⟩
      · exact Or.inl ⟨i, h, hi2, hi3⟩

/-! ### The full column-moving walk of the conversion constructor -/

theorem convInv_rowend (M0 : MapMatrixHeap) (kin : IndexMatrix) (y : Nat)
    (dst src : MapMatrixHeap) (cur : Nat)
    (h : ConvInv M0 kin y kin.width dst src cur) :
    ConvInv M0 kin (y + 1) 0 dst src cur := by
  obtain ⟨a, b, c, asgn, d, e, f, g, i, j⟩ := h
  exact ⟨a, b, by rw [← scanned_rowend]; exact c, asgn, d, e, f, g, i,
    fun s => by rw [← scanned_rowend]; exact j s⟩

theorem convFoldX (M0 : MapMatrixHeap) (kin : IndexMatrix)
    (hmono : ∀ i, i + 1 < kin.width * kin.height → indVal kin i ≤ indVal kin (i + 1))
    (hge : ∀ i, i < kin.width * kin.height → -1 ≤ indVal kin i)
    (hlast : ∀ m, kin.width * kin.height = m + 1 → indVal kin m = (M0.width : Int) - 1)
    (hzero : kin.width * kin.height = 0 → M0.width = 0)
    (y : Nat) (hy : y < kin.height) :
    ∀ (cx x0 : Nat) (st : MapMatrixHeap × MapMatrixHeap × Nat × IndexMatrix),
      x0 + cx = kin.width →
      ConvInv M0 kin y x0 st.1 st.2.1 st.2.2.1 →
      ConvInv M0 kin y kin.width
        ((List.range' x0 cx).foldl (fun s x => convBigrade kin y x s) st).1
        ((List.range' x0 cx).foldl (fun s x => convBigrade kin y x s) st).2.1
        ((List.range' x0 cx).foldl (fun s x => convBigrade kin y x s) st).2.2.1 := by
  intro cx
  induction cx with
  | zero =>
    intro x0 st h0 h1
    have hx0 : x0 = kin.width := by omega
    subst hx0
    exact h1
  | succ c ihc =>
    intro x0 st h0 h1
    rw [List.range'_succ, List.foldl_cons]
    refine ihc (x0 + 1) (convBigrade kin y x0 st) (by omega) ?_
    exact convBigrade_inv M0 kin hmono hge hlast hzero y x0 hy (by omega)
      st.1 st.2.1 st.2.2.1 st.2.2.2 h1

theorem convFoldY (M0 : MapMatrixHeap) (kin : IndexMatrix)
    (hmono : ∀ i, i + 1 < kin.width * kin.height → indVal kin i ≤ indVal kin (i + 1))
    (hge : ∀ i, i < kin.width * kin.height → -1 ≤ indVal kin i)
    (hlast : ∀ m, kin.width * kin.height = m + 1 → indVal kin m = (M0.width : Int) - 1)
    (hzero : kin.width * kin.height = 0 → M0.width = 0) :
    ∀ (cy y0 : Nat) (st : MapMatrixHeap × MapMatrixHeap × Nat × IndexMatrix),
      y0 + cy = kin.height →
      ConvInv M0 kin y0 0 st.1 st.2.1 st.2.2.1 →
      ConvInv M0 kin kin.height 0
        ((List.range' y0 cy).foldl
          (fun s y => (List.range kin.width).foldl (fun s2 x => convBigrade kin y x s2) s)
          st).1
        ((List.range' y0 cy).foldl
          (fun s y => (List.range kin.width).foldl (fun s2 x => convBigrade kin y x s2) s)
          st).2.1
        ((List.range' y0 cy).foldl
          (fun s y => (List.range kin.width).foldl (fun s2 x => convBigrade kin y x s2) s)
          st).2.2.1 := by
  intro cy
  induction cy with
  | zero =>
    intro y0 st h0 h1
    have hy0 : y0 = kin.height := by omega
    subst hy0
    exact h1
  | succ c ihc =>
    intro y0 st h0 h1
    rw [List.range'_succ, List.foldl_cons]
    refine ihc (y0 + 1) _ (by omega) ?_
    have h2 := convFoldX M0 kin hmono hge hlast hzero y0 (by omega) kin.width 0 st
      (by omega) h1
    rw [← List.range_eq_range'] at h2
    exact convInv_rowend M0 kin y0 _ _ _ h2

/-- The conversion constructor permutes the source columns: the result has
the same width, and its first `width` columns are distinct source columns
recorded by an assignment list. -/
theorem convertLex_spec (lex : Bigraded)
    (hmono : ∀ i, i + 1 < lex.ind.width * lex.ind.height →
      indVal lex.ind i ≤ indVal lex.ind (i + 1))
    (hge : ∀ i, i < lex.ind.width * lex.ind.height → -1 ≤ indVal lex.ind i)
    (hlast : ∀ m, lex.ind.width * lex.ind.height = m + 1 →
      indVal lex.ind m = (lex.mat.width : Int) - 1)
    (hzero : lex.ind.width * lex.ind.height = 0 → lex.mat.width = 0) :
    (convertLex lex).mat.store.numCols = lex.mat.width ∧
    ∃ asgn : List Nat, asgn.length = lex.mat.width ∧ asgn.Nodup ∧
      ∀ t, t < lex.mat.width →
        (convertLex lex).mat.store.col t = lex.mat.store.col (asgn.getD t 0) ∧
        asgn.getD t 0 < lex.mat.width := by
  have hrun : (convertLex lex).mat =
      ((List.range lex.ind.height).foldl
        (fun s y => (List.range lex.ind.width).foldl
          (fun s2 x => convBigrade lex.ind y x s2) s)
        (MapMatrixHeap.mk0 lex.mat.numRows lex.mat.width, lex.mat, 0,
          IndexMatrix.mk0 lex.ind.height lex.ind.width)).1 := rfl
  have hinit : ConvInv lex.mat lex.ind 0 0
      (MapMatrixHeap.mk0 lex.mat.numRows lex.mat.width) lex.mat 0 := by
    refine ⟨MapMatrixHeap.mk0_numCols _ _, rfl, ?_, [], rfl, List.nodup_nil,
      fun t ht => absurd ht (by omega), ?_, fun s _ => rfl, ?_⟩
    · rw [scanned_start, Finset.sum_empty]
    · intro t _
      exact MapMatrixHeap.mk0_col _ _ _
    · intro s
      constructor
      · intro h
        exact absurd h (List.not_mem_nil s)
      · rintro ⟨i, hi, _⟩
        rw [scanned_start] at hi
        exact absurd hi (Finset.not_mem_empty i)
  have hfin := convFoldY lex.mat lex.ind hmono hge hlast hzero lex.ind.height 0
    (MapMatrixHeap.mk0 lex.mat.numRows lex.mat.width, lex.mat, 0,
      IndexMatrix.mk0 lex.ind.height lex.ind.width) (by omega) hinit
  rw [← List.range_eq_range'] at hfin
  obtain ⟨hdN, _, hcur, asgn, hlen, hnd, hdst, _, _, _⟩ := hfin
  have hcurW : ((List.range lex.ind.height).foldl
      (fun s y => (List.range lex.ind.width).foldl
        (fun s2 x => convBigrade lex.ind y x s2) s)
      (MapMatrixHeap.mk0 lex.mat.numRows lex.mat.width, lex.mat, 0,
        IndexMatrix.mk0 lex.ind.height lex.ind.width)).2.2.1 = lex.mat.width := by
    rw [hcur, scanned_final, total_runs hmono hge hlast hzero]
  rw [hcurW] at hlen hdst
  refine ⟨by rw [hrun]; exact hdN, asgn, hlen, hnd, fun t ht => ?_⟩
  obtain ⟨d1, d2⟩ := hdst t ht
  exact ⟨by rw [hrun]; exact d1, d2⟩

/-! ### Assembling the full correctness of `kernel()` -/

theorem VectorHeap.col_ge (M : VectorHeap) (idx : Nat) (h : M.numCols ≤ idx) :
    M.col idx = [] :=
  List.getD_eq_default _ _ h

theorem getD_replicate_self {α : Type} (n i : Nat) (a : α) :
    (List.replicate n a).getD i a = a := by
  rcases Nat.lt_or_ge i n with h | h
  · rw [List.getD_eq_getElem?_getD, List.getElem?_replicate]
    simp [h]
  · exact List.getD_eq_default _ _ (by simpa using h)

theorem getD_map_lt (l : List Nat) (f : Nat → Nat) (i : Nat) (hi : i < l.length) :
    (l.map f).getD i 0 = f (l.getD i 0) := by
  rw [List.getD_eq_getElem?_getD, List.getElem?_map, List.getElem?_eq_getElem hi]
  rw [List.getD_eq_getElem?_getD, List.getElem?_eq_getElem hi]
  rfl

theorem mem_eq_getD (l : List Nat) (a : Nat) (h : a ∈ l) :
    ∃ t, t < l.length ∧ l.getD t 0 = a := by
  obtain ⟨i, hi, he⟩ := List.getElem_of_mem h
  refine ⟨i, hi, ?_⟩
  rw [List.getD_eq_getElem?_getD, List.getElem?_eq_getElem hi]
  exact he

/-- Echelon families are independent over GF(2): if each column has odd
multiplicity at its leading index, even multiplicity above it, and the
leading indices are distinct, then no nonempty set of columns sums to
zero (look at the largest leading index of the set). -/
theorem echelon_indep (W : Nat) (cols : Nat → Column) (leads : List Nat)
    (hlen : leads.length = W) (hnd : leads.Nodup)
    (hlead : ∀ t, t < W → (cols t).count ((leads.getD t 0 : Nat) : Int) % 2 = 1)
    (habove : ∀ t, t < W → ∀ k' : Nat, leads.getD t 0 < k' →
      (cols t).count ((k' : Nat) : Int) % 2 = 0)
    (S : Finset Nat) (hS : S ⊆ Finset.range W)
    (hzero : ∀ k' : Nat, ∑ t ∈ S, semCol (cols t) ((k' : Nat) : Int) = 0) :
    S = ∅ := by
  by_contra hne
  have hSne : S.Nonempty := Finset.nonempty_iff_ne_empty.mpr hne
  have hLne : (S.image fun t => leads.getD t 0).Nonempty := hSne.image _
  obtain ⟨t0, ht0S, ht0⟩ :=
    Finset.mem_image.mp ((S.image fun t => leads.getD t 0).max'_mem hLne)
  have ht0W : t0 < W := Finset.mem_range.mp (hS ht0S)
  have hsum := hzero (leads.getD t0 0)
  rw [← Finset.add_sum_erase S _ ht0S] at hsum
  have hrest : ∑ t ∈ S.erase t0, semCol (cols t) ((leads.getD t0 0 : Nat) : Int) = 0 := by
    refine Finset.sum_eq_zero fun t ht => ?_
    have htS := Finset.mem_of_mem_erase ht
    have htW : t < W := Finset.mem_range.mp (hS htS)
    have htne : t ≠ t0 := Finset.ne_of_mem_erase ht
    have hle : leads.getD t 0 ≤ (S.image fun t => leads.getD t 0).max' hLne := by
      apply Finset.le_max'
      exact Finset.mem_image_of_mem _ htS
    have ht0' : leads.getD t0 0 = (S.image fun t => leads.getD t 0).max' hLne := ht0
    have hne2 : leads.getD t 0 ≠ leads.getD t0 0 := fun he =>
      htne (nodup_getD_inj hnd (by omega) (by omega) he)
    exact semCol_eq_zero (habove t htW _ (by omega))
  rw [hrest, add_zero, semCol_eq_one (hlead t0 ht0W)] at hsum
  exact one_ne_zero hsum

/-- The start state of `kernel()` satisfies the main reduction invariant:
the input is untouched, the slave is the identity (unitriangular and live),
each matrix column trivially equals the original matrix times its slave
column, `lows` is all `-1`, and the kernel is still empty. -/
theorem ker_init (B : Bigraded)
    (hfin : ∀ k, ColFinalized (B.mat.store.col k))
    (hge : ∀ k, ∀ x ∈ B.mat.store.col k, 0 ≤ x) :
    KerInv (fun r k => heapEntry B.mat r k) B.mat.width B.mat.height
      { mat := B.mat
        slave := MapMatrixHeap.identity B.mat.width
        kerMat := MapMatrixHeap.mk0 B.mat.width 0
        kerInd := IndexMatrix.mk0 B.ind.height B.ind.width
        lows := List.replicate B.mat.height (-1) } := by
  have hb : ∀ k, (MapMatrixHeap.identity B.mat.width).store.col k = [] →
      B.mat.store.col k = [] := by
    intro k hk
    rcases Nat.lt_or_ge k B.mat.width with h | h
    · rw [MapMatrixHeap.identity_col_lt _ _ h] at hk
      exact absurd hk (List.cons_ne_nil _ _)
    · exact VectorHeap.col_ge _ _ h
  have hsor : ∀ k, ColSorted ((MapMatrixHeap.identity B.mat.width).store.col k) ∧
      ∀ x ∈ (MapMatrixHeap.identity B.mat.width).store.col k, 0 ≤ x := by
    intro k
    rcases Nat.lt_or_ge k B.mat.width with h | h
    · rw [MapMatrixHeap.identity_col_lt _ _ h]
      refine ⟨List.pairwise_singleton _ _, ?_⟩
      intro x hx
      rw [List.mem_singleton] at hx
      subst hx
      omega
    · rw [MapMatrixHeap.identity_col_ge _ _ h]
      exact ⟨List.Pairwise.nil, fun x hx => absurd hx (List.not_mem_nil x)⟩
  have htri : ∀ k, k < B.mat.width →
      (MapMatrixHeap.identity B.mat.width).store.col k = [] ∨
      (((MapMatrixHeap.identity B.mat.width).store.col k).count ((k : Nat) : Int) % 2 = 1 ∧
        ∀ k' : Nat, k < k' →
          ((MapMatrixHeap.identity B.mat.width).store.col k).count ((k' : Nat) : Int) % 2 = 0) := by
    intro k h
    right
    rw [MapMatrixHeap.identity_col_lt _ _ h]
    constructor
    · have hco : ([((k : Nat) : Int)] : Column).count ((k : Nat) : Int) = 1 := by
        simp
      rw [hco]
    · intro k' hk'
      have hcz : ([((k : Nat) : Int)] : Column).count ((k' : Nat) : Int) = 0 := by
        rw [List.count_eq_zero]
        intro hmem
        rw [List.mem_singleton, Int.natCast_inj] at hmem
        omega
      rw [hcz]
  have hprod : ∀ k r, semCol (B.mat.store.col k) r =
      ∑ k' ∈ Finset.range B.mat.width, heapEntry B.mat r k' *
        semCol ((MapMatrixHeap.identity B.mat.width).store.col k) ((k' : Nat) : Int) := by
    intro k r
    rcases Nat.lt_or_ge k B.mat.width with h | h
    · have hs : ∀ k' : Nat,
          semCol ((MapMatrixHeap.identity B.mat.width).store.col k) ((k' : Nat) : Int) =
            if k' = k then 1 else 0 := by
        intro k'
        rw [MapMatrixHeap.identity_col_lt _ _ h]
        by_cases he : k' = k
        · subst he
          rw [if_pos rfl]
          simp [semCol]
        · rw [if_neg he]
          have hcz : ([((k : Nat) : Int)] : Column).count ((k' : Nat) : Int) = 0 := by
            rw [List.count_eq_zero]
            intro hmem
            rw [List.mem_singleton, Int.natCast_inj] at hmem
            exact he hmem
          rw [semCol, hcz]
          exact Nat.cast_zero
      calc semCol (B.mat.store.col k) r
          = heapEntry B.mat r k := rfl
        _ = ∑ k' ∈ Finset.range B.mat.width,
              if k' = k then heapEntry B.mat r k' else 0 := by
            rw [Finset.sum_ite_eq' (Finset.range B.mat.width) k
              (fun k' => heapEntry B.mat r k'), if_pos (Finset.mem_range.mpr h)]
        _ = ∑ k' ∈ Finset.range B.mat.width, heapEntry B.mat r k' *
              semCol ((MapMatrixHeap.identity B.mat.width).store.col k) ((k' : Nat) : Int) := by
            refine Finset.sum_congr rfl fun k' _ => ?_
            rw [hs k', mul_ite, mul_one, mul_zero]
    · have h1 : B.mat.store.col k = [] := VectorHeap.col_ge _ _ h
      have h2 : (MapMatrixHeap.identity B.mat.width).store.col k = [] :=
        MapMatrixHeap.identity_col_ge _ _ h
      rw [h1, h2, semCol_nil]
      symm
      refine Finset.sum_eq_zero fun k' _ => ?_
      rw [semCol_nil, mul_zero]
  exact ⟨rfl, MapMatrixHeap.identity_numCols _, by simp,
    fun k => ⟨hfin k, hge k⟩, hsor, htri, hb, hprod,
    fun l => Or.inl (getD_replicate_self _ _ _),
    ⟨[], rfl, List.nodup_nil, fun q hq => absurd hq (Nat.not_lt_zero q)⟩⟩

/-- At the start of `kernel()` no column has been emitted into the kernel:
the dead-column bound holds vacuously (the slave columns with indices below
the width are alive, and larger indices lie beyond every row group). -/
theorem ker_init_dead (B : Bigraded) (hWF : IndWF B.ind B.mat.width)
    (hwp : 0 < B.ind.width) :
    DeadOK B.ind B.ind.height 0 0
      { mat := B.mat
        slave := MapMatrixHeap.identity B.mat.width
        kerMat := MapMatrixHeap.mk0 B.mat.width 0
        kerInd := IndexMatrix.mk0 B.ind.height B.ind.width
        lows := List.replicate B.mat.height (-1) } := by
  intro k hk y' hy' _ h2
  exfalso
  rcases Nat.lt_or_ge k B.mat.width with h | h
  · have hcol := MapMatrixHeap.identity_col_lt B.mat.width k h
    exact List.cons_ne_nil _ _ (hcol.symm.trans hk)
  · have hb := (hWF.1 y' hy' (B.ind.width - 1) (by omega)).2
    omega

/-- The start state of `kernel()` satisfies the index-matrix progress
invariant at step 0: the kernel index matrix is a fresh one of the bigrade
dimensions and the kernel itself is still empty. -/
theorem ker_init_prog (B : Bigraded) :
    KerIndProg B.ind.height B.ind.width 0
      { mat := B.mat
        slave := MapMatrixHeap.identity B.mat.width
        kerMat := MapMatrixHeap.mk0 B.mat.width 0
        kerInd := IndexMatrix.mk0 B.ind.height B.ind.width
        lows := List.replicate B.mat.height (-1) } := by
  refine ⟨rfl, rfl, by simp [IndexMatrix.mk0], ?_, ?_, ?_, fun _ => rfl, ?_⟩
  · intro row hrow
    have he := List.eq_of_mem_replicate hrow
    rw [he]
    simp
  · intro i hi
    exact absurd hi (by omega)
  · intro i hi
    exact absurd hi (by omega)
  · intro m hm
    exact absurd hm (by omega)

/-- The conversion constructor, applied to a final kernel state whose index
matrix satisfies the progress invariant for the full bigrade walk, fills all
of its slots with distinct kernel columns. -/
theorem convert_of_prog (stF : KerState) (h wp : Nat)
    (hP : KerIndProg h wp (wp * h) stF) :
    (convertLex { mat := stF.kerMat, ind := stF.kerInd }).mat.store.numCols =
      stF.kerMat.width ∧
    ∃ asgn : List Nat, asgn.length = stF.kerMat.width ∧ asgn.Nodup ∧
      ∀ t, t < stF.kerMat.width →
        (convertLex { mat := stF.kerMat, ind := stF.kerInd }).mat.store.col t =
          kerCol stF (asgn.getD t 0) ∧
        asgn.getD t 0 < stF.kerMat.width := by
  obtain ⟨p1, p2, _, _, p5, p6, p7, p8⟩ := hP
  have hspec := convertLex_spec { mat := stF.kerMat, ind := stF.kerInd } ?_ ?_ ?_ ?_
  · obtain ⟨hKN, asgn, hlen, hnd, hdst⟩ := hspec
    refine ⟨hKN, asgn, hlen, hnd, fun t ht => ?_⟩
    obtain ⟨d1, d2⟩ := hdst t ht
    exact ⟨d1, d2⟩
  · show ∀ i, i + 1 < stF.kerInd.width * stF.kerInd.height →
      indVal stF.kerInd i ≤ indVal stF.kerInd (i + 1)
    intro i hi
    rw [p1, p2] at hi
    unfold indVal
    rw [p1]
    exact p5 i hi
  · show ∀ i, i < stF.kerInd.width * stF.kerInd.height → -1 ≤ indVal stF.kerInd i
    intro i hi
    rw [p1, p2] at hi
    unfold indVal
    rw [p1]
    exact p6 i hi
  · show ∀ m, stF.kerInd.width * stF.kerInd.height = m + 1 →
      indVal stF.kerInd m = (stF.kerMat.width : Int) - 1
    intro m hm
    rw [p1, p2] at hm
    unfold indVal
    rw [p1]
    exact p8 m hm
  · show stF.kerInd.width * stF.kerInd.height = 0 → stF.kerMat.width = 0
    intro hm
    rw [p1, p2] at hm
    exact p7 hm

/-- C1: for every bigraded matrix `M` whose stored columns are finalized
with nonnegative row indices and whose colex index matrix is well formed,
`K = M.kernel()` satisfies: the mod-2 matrix product `M · K` is the zero
matrix, and the columns of `K` are linearly independent over GF(2) (every
set of column indices whose columns sum to the zero vector is empty). -/
theorem rivet_c1 (B : Bigraded)
    (hfin : ∀ k, ColFinalized (B.mat.store.col k))
    (hge : ∀ k, ∀ x ∈ B.mat.store.col k, 0 ≤ x)
    (hWF : IndWF B.ind B.mat.width) :
    (∀ (r : Int) (j : Nat),
      ∑ k ∈ Finset.range B.mat.width,
        heapEntry B.mat r k * heapEntry (B.kernel).mat ((k : Nat) : Int) j = 0) ∧
    (∀ S : Finset Nat, S ⊆ Finset.range (B.kernel).mat.width →
      (∀ k : Nat, ∑ j ∈ S, heapEntry (B.kernel).mat ((k : Nat) : Int) j = 0) →
      S = ∅) := by
  have hmain : ∀ stF : KerState,
      B.kernel = convertLex { mat := stF.kerMat, ind := stF.kerInd } →
      KerInv (fun r k => heapEntry B.mat r k) B.mat.width B.mat.height stF ∧
      KerIndProg B.ind.height B.ind.width (B.ind.width * B.ind.height) stF →
      (∀ (r : Int) (j : Nat),
        ∑ k ∈ Finset.range B.mat.width,
          heapEntry B.mat r k * heapEntry (B.kernel).mat ((k : Nat) : Int) j = 0) ∧
      (∀ S : Finset Nat, S ⊆ Finset.range (B.kernel).mat.width →
        (∀ k : Nat, ∑ j ∈ S, heapEntry (B.kernel).mat ((k : Nat) : Int) j = 0) →
        S = ∅) := by
    intro stF hrun hKP
    obtain ⟨hKinv, hProg⟩ := hKP
    obtain ⟨hKN, asgn, hlenA, hndA, hA⟩ :=
      convert_of_prog stF B.ind.height B.ind.width hProg
    obtain ⟨leads, hlenL, hndL, hq⟩ := hKinv.2.2.2.2.2.2.2.2.2
    have hwidth : (B.kernel).mat.width = stF.kerMat.width := by
      rw [hrun]
      exact hKN
    constructor
    · intro r j
      by_cases hj : j < stF.kerMat.width
      · obtain ⟨e1, e2⟩ := hA j hj
        obtain ⟨_, _, _, _, hann⟩ := hq (asgn.getD j 0) e2
        have hcol : (B.kernel).mat.store.col j = kerCol stF (asgn.getD j 0) := by
          rw [hrun]
          exact e1
        have hterm : ∀ k : Nat, heapEntry (B.kernel).mat ((k : Nat) : Int) j =
            semCol (kerCol stF (asgn.getD j 0)) ((k : Nat) : Int) := by
          intro k
          unfold heapEntry
          rw [hcol]
          rfl
        calc ∑ k ∈ Finset.range B.mat.width,
              heapEntry B.mat r k * heapEntry (B.kernel).mat ((k : Nat) : Int) j
            = ∑ k ∈ Finset.range B.mat.width,
              heapEntry B.mat r k * semCol (kerCol stF (asgn.getD j 0)) ((k : Nat) : Int) :=
              Finset.sum_congr rfl fun k _ => by rw [hterm k]
          _ = 0 := hann r
      · have hje : (B.kernel).mat.store.col j = [] := by
          rw [hrun]
          refine VectorHeap.col_ge _ _ ?_
          rw [hKN]
          omega
        refine Finset.sum_eq_zero fun k _ => ?_
        have hterm : heapEntry (B.kernel).mat ((k : Nat) : Int) j = 0 := by
          unfold heapEntry
          rw [hje]
          simp
        rw [hterm, mul_zero]
    · intro S hS hz
      refine echelon_indep stF.kerMat.width (fun t => (B.kernel).mat.store.col t)
        (asgn.map fun s => leads.getD s 0) ?_ ?_ ?_ ?_ S ?_ ?_
      · rw [List.length_map]
        exact hlenA
      · refine List.Nodup.map_on ?_ hndA
        intro x hx y hy he
        obtain ⟨tx, htx, hex⟩ := mem_eq_getD asgn x hx
        obtain ⟨ty, hty, hey⟩ := mem_eq_getD asgn y hy
        have hxW : x < stF.kerMat.width := by
          rw [← hex]
          exact (hA tx (by omega)).2
        have hyW : y < stF.kerMat.width := by
          rw [← hey]
          exact (hA ty (by omega)).2
        exact nodup_getD_inj hndL (by omega) (by omega) he
      · intro t ht
        show ((B.kernel).mat.store.col t).count
          ((((asgn.map fun s => leads.getD s 0).getD t 0 : Nat)) : Int) % 2 = 1
        obtain ⟨e1, e2⟩ := hA t ht
        obtain ⟨_, _, hl1, _, _⟩ := hq (asgn.getD t 0) e2
        have hcol : (B.kernel).mat.store.col t = kerCol stF (asgn.getD t 0) := by
          rw [hrun]
          exact e1
        have hmap : (asgn.map fun s => leads.getD s 0).getD t 0 =
            leads.getD (asgn.getD t 0) 0 :=
          getD_map_lt asgn _ t (by omega)
        rw [hcol, hmap]
        exact hl1
      · intro t ht k' hk'
        show ((B.kernel).mat.store.col t).count ((k' : Nat) : Int) % 2 = 0
        obtain ⟨e1, e2⟩ := hA t ht
        obtain ⟨_, _, _, hl2, _⟩ := hq (asgn.getD t 0) e2
        have hcol : (B.kernel).mat.store.col t = kerCol stF (asgn.getD t 0) := by
          rw [hrun]
          exact e1
        have hmap : (asgn.map fun s => leads.getD s 0).getD t 0 =
            leads.getD (asgn.getD t 0) 0 :=
          getD_map_lt asgn _ t (by omega)
        rw [hmap] at hk'
        rw [hcol]
        exact hl2 k' hk'
      · rw [← hwidth]
        exact hS
      · intro k'
        exact hz k'
  have hKP : KerInv (fun r k => heapEntry B.mat r k) B.mat.width B.mat.height
      ((List.range B.ind.width).foldl
        (fun s x => (List.range B.ind.height).foldl
          (fun s2 y => kernelOneBigrade B.ind B.mat.height x y s2) s)
        { mat := B.mat
          slave := MapMatrixHeap.identity B.mat.width
          kerMat := MapMatrixHeap.mk0 B.mat.width 0
          kerInd := IndexMatrix.mk0 B.ind.height B.ind.width
          lows := List.replicate B.mat.height (-1) }) ∧
      KerIndProg B.ind.height B.ind.width (B.ind.width * B.ind.height)
      ((List.range B.ind.width).foldl
        (fun s x => (List.range B.ind.height).foldl
          (fun s2 y => kernelOneBigrade B.ind B.mat.height x y s2) s)
        { mat := B.mat
          slave := MapMatrixHeap.identity B.mat.width
          kerMat := MapMatrixHeap.mk0 B.mat.width 0
          kerInd := IndexMatrix.mk0 B.ind.height B.ind.width
          lows := List.replicate B.mat.height (-1) }) := by
    rcases Nat.eq_zero_or_pos B.ind.width with hwp | hwp
    · rw [show List.range B.ind.width = [] from by rw [hwp, List.range_zero],
        List.foldl_nil]
      constructor
      · exact ker_init B hfin hge
      · obtain ⟨q1, q2, q3, q4, _, _, q7, _⟩ := ker_init_prog B
        have hz : B.ind.width * B.ind.height = 0 := by
          rw [hwp, Nat.zero_mul]
        refine ⟨q1, q2, q3, q4, ?_, ?_, fun _ => q7 rfl, ?_⟩
        · intro i hi
          rw [hz] at hi
          exact absurd hi (by omega)
        · intro i hi
          rw [hz] at hi
          exact absurd hi (by omega)
        · intro m hm
          rw [hz] at hm
          exact absurd hm (by omega)
    · have h0 := ker_init B hfin hge
      have hd0 := ker_init_dead B hWF hwp
      have hp0 : KerIndProg B.ind.height B.ind.width (0 * B.ind.height)
          { mat := B.mat
            slave := MapMatrixHeap.identity B.mat.width
            kerMat := MapMatrixHeap.mk0 B.mat.width 0
            kerInd := IndexMatrix.mk0 B.ind.height B.ind.width
            lows := List.replicate B.mat.height (-1) } := by
        rw [Nat.zero_mul]
        exact ker_init_prog B
      obtain ⟨q1, q2⟩ := kerFoldX (fun r k => heapEntry B.mat r k) B.mat.width
        B.mat.height B.ind hWF B.ind.width 0
        { mat := B.mat
          slave := MapMatrixHeap.identity B.mat.width
          kerMat := MapMatrixHeap.mk0 B.mat.width 0
          kerInd := IndexMatrix.mk0 B.ind.height B.ind.width
          lows := List.replicate B.mat.height (-1) }
        (by omega) h0 hd0 hp0
      rw [← List.range_eq_range'] at q1 q2
      exact ⟨q1, q2⟩
  exact hmain _ rfl hKP

/-- Witness for C1 at the concrete one-column input `exC1`: the hypotheses
hold and the conclusion follows by applying the theorem. -/
theorem rivet_c1_witness :
    ((∀ k, ColFinalized (exC1.mat.store.col k)) ∧
      (∀ k, ∀ x ∈ exC1.mat.store.col k, 0 ≤ x) ∧
      IndWF exC1.ind exC1.mat.width) ∧
    (∀ (r : Int) (j : Nat),
      ∑ k ∈ Finset.range exC1.mat.width,
        heapEntry exC1.mat r k * heapEntry (exC1.kernel).mat ((k : Nat) : Int) j = 0) ∧
    (∀ S : Finset Nat, S ⊆ Finset.range (exC1.kernel).mat.width →
      (∀ k : Nat, ∑ j ∈ S, heapEntry (exC1.kernel).mat ((k : Nat) : Int) j = 0) →
      S = ∅) := by
  have h1 : ∀ k, ColFinalized (exC1.mat.store.col k) := by
    intro k
    cases k with
    | zero => exact List.Pairwise.nil
    | succ n => exact List.Pairwise.nil
  have h2 : ∀ k, ∀ x ∈ exC1.mat.store.col k, 0 ≤ x := by
    intro k x hx
    exact absurd hx (by cases k with
      | zero => exact List.not_mem_nil x
      | succ n => exact List.not_mem_nil x)
  have h3 : IndWF exC1.ind exC1.mat.width := by
    refine ⟨by decide, ?_, ?_⟩
    · intro y _ x hx
      have hw : exC1.ind.width = 1 := rfl
      rw [hw] at hx
      exact absurd hx (by omega)
    · intro y hy
      have hh : exC1.ind.height = 1 := rfl
      rw [hh] at hy
      exact absurd hy (by omega)
  exact ⟨⟨h1, h2, h3⟩, rivet_c1 exC1 h1 h2 h3⟩

end Rivet
